import Mathlib

/-!
Verification of the k-shortest-paths repository (Yen's algorithm over a
weighted graph, `src/k_shortest_paths.py`).

Shallow embedding conventions:
* Nodes are natural numbers (the source treats nodes as opaque hashable
  identities; the demo graph's labels are renamed 0..5).
* Edge weights are natural numbers (the spec restricts attention to
  non-negative numeric weights; behaviour on negative weights is declared
  undefined by the spec, so `Nat` weights realise exactly the specified
  domain).
* A graph is a flag (directed or not), a node list and an association list
  from ordered node pairs to weights.  networkx stores an undirected edge
  once and answers `has_edge` symmetrically; we mirror that by storing one
  key and letting weight lookup try both orders when the graph is
  undirected.
* The networkx library function `nx.single_source_dijkstra` is not part of
  this repository; it is modelled from the spec (section 4.2: a
  deterministic single-source Dijkstra returning the minimal distance and a
  realizing path, with a `start = target` special case).
* Python raises `IndexError` on an out-of-range list access.  The only
  access the source can make out of range is `c_path[j + 1]`
  (see claim C10); the embedding totalises it with `List.getD` and the
  C10 theorem shows the default is never consulted in reachable states.
* `heapq` with `(length, id, path)` tuples and unique ids pops the unique
  lexicographically-least entry; `extractMinB` mirrors that exactly.
-/

namespace KSP

/-- A weighted graph: directedness flag, node list, and an association list
from ordered node pairs to weights (mirroring the networkx adjacency
structure used by `k_shortest_paths.py`). -/
structure Graph where
  directed : Bool
  nodes : List Nat
  edges : List ((Nat × Nat) × Nat)
deriving DecidableEq

/-- Does the stored key `k` denote the edge `(u, v)` (either orientation
when undirected)? -/
def keyMatches (directed : Bool) (k : Nat × Nat) (u v : Nat) : Bool :=
  k = (u, v) || (!directed && k = (v, u))

/-- Weight of the edge from `u` to `v`: the entry stored under the key
`(u, v)`, or, for an undirected graph, under either orientation (networkx
`Graph` stores one adjacency entry and answers lookups symmetrically). -/
def Graph.weight (g : Graph) (u v : Nat) : Option Nat :=
  (g.edges.find? fun e => keyMatches g.directed e.1 u v).map fun e => e.2

/-- `G.has_edge(u, v)`. -/
def Graph.hasEdge (g : Graph) (u v : Nat) : Bool :=
  (g.weight u v).isSome

/-- `G.remove_edge(u, v)`: drop the adjacency entry (both orientations
when undirected). -/
def Graph.removeEdge (g : Graph) (u v : Nat) : Graph :=
  { g with edges := g.edges.filter fun e => !keyMatches g.directed e.1 u v }

/-- `G.add_edge(u, v, attr)`: overwrite the adjacency entry. -/
def Graph.addEdge (g : Graph) (u v w : Nat) : Graph :=
  { g with edges :=
      ((u, v), w) :: g.edges.filter fun e => !keyMatches g.directed e.1 u v }

/-- `G.edges_iter(u, data=True)`: the `(neighbour, weight)` pairs leaving
`u` (all incident edges when undirected), enumerated in node-list order. -/
def Graph.outEdges (g : Graph) (u : Nat) : List (Nat × Nat) :=
  g.nodes.filterMap fun v => (g.weight u v).map fun w => (v, w)

/-- `G.in_edges_iter(u, data=True)`: the `(source, weight)` pairs entering
`u`, enumerated in node-list order (only consulted on directed graphs). -/
def Graph.inEdges (g : Graph) (u : Nat) : List (Nat × Nat) :=
  g.nodes.filterMap fun v => (g.weight v u).map fun w => (v, w)

/-- Dijkstra frontier / settled entry: `(node, distance, path)`. -/
abbrev DEntry := Nat × Nat × List Nat

/-- Replace the frontier entry for `v` by `(v, d, p)` when `d` improves on
the recorded tentative distance; append a fresh entry when `v` is absent. -/
def updateFrontier (F : List DEntry) (v d : Nat) (p : List Nat) : List DEntry :=
  match F.find? fun e => e.1 = v with
  | none => F ++ [(v, d, p)]
  | some e => if d < e.2.1 then F.map fun e' => if e'.1 = v then (v, d, p) else e' else F

/-- Remove a frontier entry of minimal tentative distance (first such entry,
giving the deterministic tie-break the spec asks of the oracle). -/
def extractMin : List DEntry → Option (DEntry × List DEntry)
  | [] => none
  | e :: rest =>
    match extractMin rest with
    | none => some (e, rest)
    | some (m, rest') =>
      if e.2.1 ≤ m.2.1 then some (e, rest) else some (m, e :: rest')

/-- One relaxation pass: for every edge `(u, v, w)` leaving the node just
settled, offer `d + w` to the frontier unless `v` is already settled. -/
def relaxAll (g : Graph) (S : List DEntry) (d : Nat) (p : List Nat)
    (F : List DEntry) (u : Nat) : List DEntry :=
  (g.outEdges u).foldl
    (fun F2 vw =>
      if S.any fun e => e.1 = vw.1 then F2
      else updateFrontier F2 vw.1 (d + vw.2) (p ++ [vw.1]))
    F

/-- Dijkstra main loop: settle the closest frontier node, relax its
outgoing edges, recurse.  `fuel` bounds the number of settlements; with
`fuel = |nodes| + 1` the frontier always empties first (each step settles a
distinct node). -/
def dijkstraLoop (g : Graph) : Nat → List DEntry → List DEntry → List DEntry
  | 0, S, _ => S
  | fuel + 1, S, F =>
    match extractMin F with
    | none => S
    | some ((u, d, p), F') =>
      let S' := S ++ [(u, d, p)]
      dijkstraLoop g fuel S' (relaxAll g S' d p F' u)

/-- Modelled from the spec: the Shortest Path Oracle (section 4.2).  The
source calls `nx.single_source_dijkstra(G, source, target, weight)`, a
networkx library routine that is not part of this repository; per the spec
it returns either nothing (target unreachable) or the minimal distance from
`s` to `t` together with a realizing path, computed by a deterministic
single-source Dijkstra, with the `start = target` case answered as
`(0, [start])` without running the general algorithm. -/
def singleSourceDijkstra (g : Graph) (s t : Nat) : Option (Nat × List Nat) :=
  if s = t then some (0, [s])
  else
    match (dijkstraLoop g (g.nodes.length + 1) [] [(s, 0, [s])]).find?
        (fun e => e.1 = t) with
    | some e => some (e.2.1, e.2.2)
    | none => none

/-- `get_path_length(G, path, weight)` from the source: the sum of the edge
weights along consecutive nodes of `path`, a missing weight defaulting to 1
(`G.edge[u][v].get(weight, 1)`; with every edge carrying an explicit weight
the default is never consulted). -/
def getPathLength (g : Graph) : List Nat → Nat
  | u :: v :: rest => (g.weight u v).getD 1 + getPathLength g (v :: rest)
  | _ => 0

/-- State of the main Yen loop: the (mutated) working graph, the accepted
lengths and paths, the candidate list `B` of `(total_length, id, path)`
entries, and the id counter `c`. -/
structure YState where
  g : Graph
  lengths : List Nat
  paths : List (List Nat)
  B : List (Nat × Nat × List Nat)
  cnt : Nat
deriving DecidableEq

/-- One step of the prefix-sharing pruning loop (`for c_path in paths`): if
`len(c_path) > j` and the root path equals `c_path[:j+1]`, remove the edge
`(c_path[j], c_path[j+1])` when present, recording it with its weight.
Python would raise `IndexError` at `c_path[j+1]` if it were out of range;
claim C10 shows the access is in bounds in every reachable state. -/
def devStep (root : List Nat) (j : Nat) (acc : Graph × List (Nat × Nat × Nat))
    (c : List Nat) : Graph × List (Nat × Nat × Nat) :=
  if j < c.length ∧ root = c.take (j + 1) then
    let u := c.getD j 0
    let v := c.getD (j + 1) 0
    match acc.1.weight u v with
    | some w => (acc.1.removeEdge u v, acc.2 ++ [(u, v, w)])
    | none => acc
  else acc

/-- Interior-node exclusion for one root node: snapshot and remove all its
outgoing (for undirected graphs, incident) edges, then, if the graph is
directed, all its incoming edges, recording every removal. -/
def removeNodeStep (acc : Graph × List (Nat × Nat × Nat)) (node : Nat) :
    Graph × List (Nat × Nat × Nat) :=
  let outs := acc.1.outEdges node
  let g1 := outs.foldl (fun h vw => h.removeEdge node vw.1) acc.1
  let rem1 := acc.2 ++ outs.map fun vw => (node, vw.1, vw.2)
  if g1.directed then
    let ins := g1.inEdges node
    (ins.foldl (fun h uw => h.removeEdge uw.1 node) g1,
      rem1 ++ ins.map fun uw => (uw.1, node, uw.2))
  else (g1, rem1)

/-- `for e in edges_removed: G.add_edge(u, v, edge_attr)`. -/
def restoreEdges (g : Graph) (rem : List (Nat × Nat × Nat)) : Graph :=
  rem.foldl (fun h e => h.addEdge e.1 e.2.1 e.2.2) g

/-- The graph obtained from `g` by the two pruning rules for the given
accepted paths, root path and spur position (the state of `G` at the
moment the spur Dijkstra runs). -/
def prunedGraph (paths : List (List Nat)) (root : List Nat) (j : Nat)
    (g : Graph) : Graph :=
  (root.dropLast.foldl removeNodeStep (paths.foldl (devStep root j) (g, []))).1

/-- The record list accumulated by the two pruning rules. -/
def prunedRecs (paths : List (List Nat)) (root : List Nat) (j : Nat)
    (g : Graph) : List (Nat × Nat × Nat) :=
  (root.dropLast.foldl removeNodeStep (paths.foldl (devStep root j) (g, []))).2

/-- The root path `paths[-1][:j + 1]` of spur position `j`. -/
def rootOf (st : YState) (j : Nat) : List Nat :=
  (st.paths.getLastD []).take (j + 1)

/-- The push performed for one spur position `j`: run the oracle from the
spur node `paths[-1][j]` on the pruned graph and, when a non-trivial spur
path exists, push the spliced candidate with total length equal to the root
length recomputed on `G_original` (`g0`) plus the found spur distance. -/
def spurPush (g0 : Graph) (t : Nat) (st : YState) (j : Nat) : YState :=
  match singleSourceDijkstra (prunedGraph st.paths (rootOf st j) j st.g)
      ((st.paths.getLastD []).getD j 0) t with
  | some dp =>
    if dp.2.isEmpty then st
    else
      { st with
        B := st.B ++
          [(getPathLength g0 (rootOf st j) + dp.1, st.cnt,
            (rootOf st j).dropLast ++ dp.2)],
        cnt := st.cnt + 1 }
  | none => st

/-- One spur position `j` of the inner loop of `k_shortest_paths`: prune
(rules 2 and 3 of the spec's Deviation Engine), run the oracle from the
spur node, splice and push a candidate when a non-trivial spur path exists,
then restore every pruned edge.  `g0` is `G_original`, used to recompute
the root length. -/
def spurStep (g0 : Graph) (t : Nat) (st : YState) (j : Nat) : YState :=
  { spurPush g0 t st j with
    g := restoreEdges (prunedGraph st.paths (rootOf st j) j st.g)
      (prunedRecs st.paths (rootOf st j) j st.g) }

/-- The inner loop over spur positions `j in range(len(paths[-1]) - 1)`. -/
def jLoop (g0 : Graph) (t : Nat) (st : YState) : YState :=
  (List.range ((st.paths.getLastD []).length - 1)).foldl (spurStep g0 t) st

/-- Remove the `(total_length, id, path)` candidate that `heapq` would pop:
the entry least in the lexicographic order on `(total_length, id)` (ids are
unique, so the path component never takes part in the comparison). -/
def extractMinB : List (Nat × Nat × List Nat) →
    Option ((Nat × Nat × List Nat) × List (Nat × Nat × List Nat))
  | [] => none
  | e :: rest =>
    match extractMinB rest with
    | none => some (e, rest)
    | some (m, rest') =>
      if e.1 < m.1 ∨ (e.1 = m.1 ∧ e.2.1 ≤ m.2.1) then some (e, rest)
      else some (m, e :: rest')

/-- The main loop `for i in range(1, k)`: process every spur position of
the previously accepted path, then pop the heap's minimum as the next
result, stopping early when the heap is empty. -/
def mainLoop (g0 : Graph) (t : Nat) : Nat → YState → YState
  | 0, st => st
  | fuel + 1, st =>
    match extractMinB (jLoop g0 t st).B with
    | some (e, B2) =>
      mainLoop g0 t fuel
        { jLoop g0 t st with
          lengths := (jLoop g0 t st).lengths ++ [e.1]
          paths := (jLoop g0 t st).paths ++ [e.2.2]
          B := B2 }
    | none => jLoop g0 t st

/-- Result of `k_shortest_paths`: either the `NetworkXNoPath` error or the
pair of parallel lists `(lengths, paths)`. -/
inductive KspResult where
  | noPath : KspResult
  | ok : List Nat → List (List Nat) → KspResult
deriving DecidableEq

/-- The initial state of the main loop after the first Dijkstra result
`(d, p)` has been accepted as result 0. -/
def initState (g : Graph) (d : Nat) (p : List Nat) : YState :=
  { g := g, lengths := [d], paths := [p], B := [], cnt := 0 }

/-- `k_shortest_paths(G, source, target, k, weight)` from the source:
answer `([0], [[source]])` when `source == target`; otherwise run the
oracle once on the unpruned graph, failing with `NetworkXNoPath` when the
target is unreachable, and then run `k - 1` rounds of the main loop. -/
def kShortestPaths (g : Graph) (s t : Nat) (k : Nat) : KspResult :=
  if s = t then .ok [0] [[s]]
  else
    match singleSourceDijkstra g s t with
    | none => .noPath
    | some dp =>
      let fin := mainLoop g t (k - 1) (initState g dp.1 dp.2)
      .ok fin.lengths fin.paths

/-! ## Reference definitions (independent of the algorithm) -/

/-- Consecutive nodes of the list are joined by edges of `g`. -/
def edgeChainB (g : Graph) : List Nat → Bool
  | u :: v :: rest => g.hasEdge u v && edgeChainB g (v :: rest)
  | _ => true

/-- `p` is a path from `s` to `t` in `g`: non-empty, starting at `s`,
ending at `t`, with every consecutive pair joined by an edge.  (Repeated
nodes are allowed; `p.Nodup` states looplessness separately.) -/
def IsPath (g : Graph) (s t : Nat) (p : List Nat) : Prop :=
  p.head? = some s ∧ p.getLast? = some t ∧ edgeChainB g p = true

instance (g : Graph) (s t : Nat) (p : List Nat) : Decidable (IsPath g s t p) := by
  unfold IsPath
  infer_instance

/-- Well-formedness of a graph value, matching what networkx guarantees of
any graph it builds: no duplicate nodes and every edge endpoint a node of
the graph. -/
def GoodGraph (g : Graph) : Prop :=
  g.nodes.Nodup ∧ ∀ e ∈ g.edges, e.1.1 ∈ g.nodes ∧ e.1.2 ∈ g.nodes

instance (g : Graph) : Decidable (GoodGraph g) := by
  unfold GoodGraph; infer_instance

/-! ## Weight-level characterization of the graph operations -/

theorem keyMatches_iff {dir : Bool} {k : Nat × Nat} {u v : Nat} :
    keyMatches dir k u v = true ↔ k = (u, v) ∨ (dir = false ∧ k = (v, u)) := by
  cases dir <;> simp [keyMatches]

theorem keyMatches_mirror {k : Nat × Nat} {u v : Nat} :
    keyMatches false (k.2, k.1) u v = keyMatches false k u v := by
  rcases k with ⟨x, y⟩
  rw [Bool.eq_iff_iff]
  simp only [keyMatches_iff, Prod.mk.injEq, true_and, false_and]
  tauto

/-- The searched key may be swapped on an undirected graph. -/
theorem keyMatches_swap {k : Nat × Nat} {a b : Nat} :
    keyMatches false k b a = keyMatches false k a b := by
  rcases k with ⟨x, y⟩
  rw [Bool.eq_iff_iff]
  simp only [keyMatches_iff, Prod.mk.injEq, true_and]
  tauto

theorem keyMatches_comm {dir : Bool} {a b u v : Nat} :
    keyMatches dir (a, b) u v = keyMatches dir (u, v) a b := by
  rw [Bool.eq_iff_iff]
  simp only [keyMatches_iff, Prod.mk.injEq]
  constructor
  · rintro (⟨rfl, rfl⟩ | ⟨h, rfl, rfl⟩) <;> [exact Or.inl ⟨rfl, rfl⟩; exact Or.inr ⟨h, rfl, rfl⟩]
  · rintro (⟨rfl, rfl⟩ | ⟨h, rfl, rfl⟩) <;> [exact Or.inl ⟨rfl, rfl⟩; exact Or.inr ⟨h, rfl, rfl⟩]

/-- `find?` only depends on the pointwise behaviour of the predicate. -/
theorem findq_congr {α : Type} {p q : α → Bool} :
    ∀ {l : List α}, (∀ x ∈ l, p x = q x) → l.find? p = l.find? q
  | [], _ => rfl
  | a :: l, h => by
    have ha := h a (List.mem_cons_self a l)
    by_cases hp : p a
    · rw [List.find?_cons_of_pos _ hp, List.find?_cons_of_pos _ (ha ▸ hp)]
    · rw [List.find?_cons_of_neg _ hp, List.find?_cons_of_neg _ (by rw [← ha]; exact hp)]
      exact findq_congr fun x hx => h x (List.mem_cons_of_mem _ hx)

/-- `find?` over a filtered list searches for the conjunction. -/
theorem findq_filter {α : Type} (p q : α → Bool) :
    ∀ (l : List α), (l.filter p).find? q = l.find? fun a => p a && q a
  | [] => rfl
  | a :: l => by
    by_cases hp : p a
    · rw [List.filter_cons_of_pos hp]
      by_cases hq : q a
      · rw [List.find?_cons_of_pos _ hq, List.find?_cons_of_pos _ (by simp [hp, hq])]
      · rw [List.find?_cons_of_neg _ hq, List.find?_cons_of_neg _ (by simp [hp, hq])]
        exact findq_filter p q l
    · rw [List.filter_cons_of_neg hp, List.find?_cons_of_neg _ (by simp [hp])]
      exact findq_filter p q l

/-- Keys match the same edges exactly when they match each other: the
matching classes of `keyMatches` are equal or disjoint. -/
theorem keyMatches_class {dir : Bool} {k : Nat × Nat} {a b u v : Nat}
    (h : keyMatches dir k a b = true) :
    keyMatches dir k u v = keyMatches dir (a, b) u v := by
  rcases keyMatches_iff.mp h with rfl | ⟨hdir, rfl⟩
  · rfl
  · subst hdir
    exact keyMatches_mirror (k := (a, b))

@[simp] theorem removeEdge_directed (g : Graph) (u v : Nat) :
    (g.removeEdge u v).directed = g.directed := rfl

@[simp] theorem removeEdge_nodes (g : Graph) (u v : Nat) :
    (g.removeEdge u v).nodes = g.nodes := rfl

@[simp] theorem addEdge_directed (g : Graph) (u v w : Nat) :
    (g.addEdge u v w).directed = g.directed := rfl

@[simp] theorem addEdge_nodes (g : Graph) (u v w : Nat) :
    (g.addEdge u v w).nodes = g.nodes := rfl

theorem weight_removeEdge (g : Graph) (u v a b : Nat) :
    (g.removeEdge u v).weight a b =
      if keyMatches g.directed (a, b) u v then none else g.weight a b := by
  unfold Graph.weight Graph.removeEdge
  dsimp only
  rw [findq_filter]
  by_cases hm : keyMatches g.directed (a, b) u v
  · rw [if_pos hm]
    rw [List.find?_eq_none.mpr ?none]
    · rfl
    case none =>
      intro e _ hcontra
      have h1 := (Bool.and_eq_true _ _).mp hcontra
      have h2 := keyMatches_class (u := u) (v := v) h1.2
      rw [hm] at h2
      simp [h2] at h1
  · rw [if_neg hm]
    apply congrArg
    apply findq_congr
    intro e _
    by_cases h1 : keyMatches g.directed e.1 a b
    · have h2 := keyMatches_class (u := u) (v := v) h1
      have h3 : keyMatches g.directed e.1 u v = false := by
        rw [h2]; simpa using hm
      simp [h1, h3]
    · simp only [Bool.not_eq_true] at h1
      simp [h1]

theorem weight_addEdge (g : Graph) (u v w a b : Nat) :
    (g.addEdge u v w).weight a b =
      if keyMatches g.directed (a, b) u v then some w else g.weight a b := by
  unfold Graph.weight Graph.addEdge
  dsimp only
  by_cases hm : keyMatches g.directed (a, b) u v
  · have hh : keyMatches g.directed ((u, v) : Nat × Nat) a b = true := by
      rw [← keyMatches_comm]; exact hm
    have hfind : List.find? (fun e => keyMatches g.directed e.1 a b)
        (((u, v), w) :: List.filter (fun e => !keyMatches g.directed e.1 u v) g.edges) =
          some ((u, v), w) := List.find?_cons_of_pos _ hh
    rw [hfind]
    simp [hm]
  · have hh : ¬ keyMatches g.directed ((u, v) : Nat × Nat) a b = true := by
      rw [← keyMatches_comm]; exact hm
    have hfind : List.find? (fun e => keyMatches g.directed e.1 a b)
        (((u, v), w) :: List.filter (fun e => !keyMatches g.directed e.1 u v) g.edges) =
          List.find? (fun e => keyMatches g.directed e.1 a b)
            (List.filter (fun e => !keyMatches g.directed e.1 u v) g.edges) :=
      List.find?_cons_of_neg _ hh
    rw [hfind, if_neg hm, findq_filter]
    apply congrArg
    apply findq_congr
    intro e _
    by_cases h1 : keyMatches g.directed e.1 a b
    · have h2 := keyMatches_class (u := u) (v := v) h1
      have h3 : keyMatches g.directed e.1 u v = false := by
        rw [h2]; simpa using hm
      simp [h1, h3]
    · simp only [Bool.not_eq_true] at h1
      simp [h1]

/-- For an undirected graph the weight lookup is symmetric. -/
theorem weight_symm {g : Graph} (hdir : g.directed = false) (a b : Nat) :
    g.weight a b = g.weight b a := by
  unfold Graph.weight
  apply congrArg
  apply findq_congr
  intro e _
  rw [hdir]
  exact keyMatches_swap (k := e.1) (a := b) (b := a)

theorem weight_removeEdge_none {g : Graph} {a b : Nat} (u v : Nat)
    (h : g.weight a b = none) : (g.removeEdge u v).weight a b = none := by
  rw [weight_removeEdge]
  split <;> simp [h]

/-- Removing an edge can only erase weights, never change or create them. -/
theorem weight_removeEdge_some {g : Graph} {u v a b w : Nat}
    (h : (g.removeEdge u v).weight a b = some w) : g.weight a b = some w := by
  rw [weight_removeEdge] at h
  by_cases hm : keyMatches g.directed (a, b) u v
  · rw [if_pos hm] at h; cases h
  · rwa [if_neg hm] at h

/-- After `removeEdge u v` the weight of the removed edge is gone
(in both orientations when the graph is undirected). -/
theorem weight_removeEdge_self {g : Graph} {u v a b : Nat}
    (hm : keyMatches g.directed (a, b) u v = true) :
    (g.removeEdge u v).weight a b = none := by
  rw [weight_removeEdge, if_pos hm]

theorem weight_mem_nodes {g : Graph} (hg : GoodGraph g) {u v w : Nat}
    (h : g.weight u v = some w) : u ∈ g.nodes ∧ v ∈ g.nodes := by
  unfold Graph.weight at h
  cases hfind : g.edges.find? fun e => keyMatches g.directed e.1 u v with
  | none => rw [hfind] at h; cases h
  | some e =>
    have hmem := List.mem_of_find?_eq_some hfind
    have hkey := List.find?_some hfind
    have hnodes := hg.2 e hmem
    rcases keyMatches_iff.mp hkey with hk | ⟨-, hk⟩
    · rw [hk] at hnodes; exact hnodes
    · rw [hk] at hnodes; exact ⟨hnodes.2, hnodes.1⟩

theorem goodGraph_removeEdge {g : Graph} (hg : GoodGraph g) (u v : Nat) :
    GoodGraph (g.removeEdge u v) :=
  ⟨hg.1, fun e he => hg.2 e (List.mem_of_mem_filter he)⟩

theorem goodGraph_addEdge {g : Graph} (hg : GoodGraph g) {u v : Nat} (w : Nat)
    (hu : u ∈ g.nodes) (hv : v ∈ g.nodes) : GoodGraph (g.addEdge u v w) := by
  refine ⟨hg.1, fun e he => ?_⟩
  rcases List.mem_cons.mp he with rfl | he'
  · exact ⟨hu, hv⟩
  · exact hg.2 e (List.mem_of_mem_filter he')

/-! ## Observable equivalence of graphs -/

/-- Two graph values indistinguishable to every consumer in the algorithm:
same directedness, same node list, same weight on every ordered pair. -/
def GEquiv (g1 g2 : Graph) : Prop :=
  g1.directed = g2.directed ∧ g1.nodes = g2.nodes ∧
    ∀ a b, g1.weight a b = g2.weight a b

theorem GEquiv.refl (g : Graph) : GEquiv g g := ⟨rfl, rfl, fun _ _ => rfl⟩

theorem GEquiv.symm {g1 g2 : Graph} (h : GEquiv g1 g2) : GEquiv g2 g1 :=
  ⟨h.1.symm, h.2.1.symm, fun a b => (h.2.2 a b).symm⟩

theorem GEquiv.trans {g1 g2 g3 : Graph} (h : GEquiv g1 g2) (h' : GEquiv g2 g3) :
    GEquiv g1 g3 :=
  ⟨h.1.trans h'.1, h.2.1.trans h'.2.1, fun a b => (h.2.2 a b).trans (h'.2.2 a b)⟩

theorem gequiv_removeEdge {g1 g2 : Graph} (h : GEquiv g1 g2) (u v : Nat) :
    GEquiv (g1.removeEdge u v) (g2.removeEdge u v) := by
  refine ⟨h.1, h.2.1, fun a b => ?_⟩
  rw [weight_removeEdge, weight_removeEdge, h.1, h.2.2 a b]

theorem gequiv_addEdge {g1 g2 : Graph} (h : GEquiv g1 g2) (u v w : Nat) :
    GEquiv (g1.addEdge u v w) (g2.addEdge u v w) := by
  refine ⟨h.1, h.2.1, fun a b => ?_⟩
  rw [weight_addEdge, weight_addEdge, h.1, h.2.2 a b]

theorem outEdges_congr {g1 g2 : Graph} (h : GEquiv g1 g2) (u : Nat) :
    g1.outEdges u = g2.outEdges u := by
  unfold Graph.outEdges
  rw [h.2.1]
  have hf : (fun v => Option.map (fun w => (v, w)) (g1.weight u v)) =
      fun v => Option.map (fun w => (v, w)) (g2.weight u v) := by
    funext v
    rw [h.2.2 u v]
  rw [hf]

theorem inEdges_congr {g1 g2 : Graph} (h : GEquiv g1 g2) (u : Nat) :
    g1.inEdges u = g2.inEdges u := by
  unfold Graph.inEdges
  rw [h.2.1]
  have hf : (fun v => Option.map (fun w => (v, w)) (g1.weight v u)) =
      fun v => Option.map (fun w => (v, w)) (g2.weight v u) := by
    funext v
    rw [h.2.2 v u]
  rw [hf]

theorem hasEdge_congr {g1 g2 : Graph} (h : GEquiv g1 g2) (u v : Nat) :
    g1.hasEdge u v = g2.hasEdge u v := by
  unfold Graph.hasEdge
  rw [h.2.2 u v]

theorem relaxAll_congr {g1 g2 : Graph} (h : GEquiv g1 g2) (S : List DEntry)
    (d : Nat) (p : List Nat) (F : List DEntry) (u : Nat) :
    relaxAll g1 S d p F u = relaxAll g2 S d p F u := by
  unfold relaxAll
  rw [outEdges_congr h]

theorem dijkstraLoop_congr {g1 g2 : Graph} (h : GEquiv g1 g2) :
    ∀ (fuel : Nat) (S F : List DEntry),
      dijkstraLoop g1 fuel S F = dijkstraLoop g2 fuel S F
  | 0, _, _ => rfl
  | fuel + 1, S, F => by
    unfold dijkstraLoop
    cases extractMin F with
    | none => rfl
    | some prs =>
      rcases prs with ⟨⟨u, d, p⟩, F'⟩
      simp only
      rw [relaxAll_congr h, dijkstraLoop_congr h fuel]

theorem singleSourceDijkstra_congr {g1 g2 : Graph} (h : GEquiv g1 g2)
    (s t : Nat) : singleSourceDijkstra g1 s t = singleSourceDijkstra g2 s t := by
  unfold singleSourceDijkstra
  rw [h.2.1, dijkstraLoop_congr h]

/-! ## Characterization of the pruning step -/

/-- The weight lookup answers identically on every key of one matching
class. -/
theorem weight_eq_of_keyMatches {g : Graph} {a b u v : Nat}
    (hm : keyMatches g.directed (a, b) u v = true) :
    g.weight a b = g.weight u v := by
  unfold Graph.weight
  apply congrArg
  apply findq_congr
  intro e _
  by_cases h1 : keyMatches g.directed e.1 a b
  · rw [h1, keyMatches_class h1, hm]
  · simp only [Bool.not_eq_true] at h1
    rw [h1]
    by_cases h2 : keyMatches g.directed e.1 u v
    · rw [keyMatches_class h2, keyMatches_comm] at h1
      rw [hm] at h1
      cases h1
    · simpa using h2

theorem mem_outEdges {g : Graph} {u v w : Nat} :
    (v, w) ∈ g.outEdges u ↔ v ∈ g.nodes ∧ g.weight u v = some w := by
  unfold Graph.outEdges
  rw [List.mem_filterMap]
  constructor
  · rintro ⟨x, hx, hopt⟩
    cases hw : g.weight u x with
    | none => rw [hw] at hopt; cases hopt
    | some w' =>
      rw [hw] at hopt
      cases hopt
      exact ⟨hx, hw⟩
  · rintro ⟨hv, hw⟩
    exact ⟨v, hv, by rw [hw]; rfl⟩

theorem mem_inEdges {g : Graph} {u v w : Nat} :
    (v, w) ∈ g.inEdges u ↔ v ∈ g.nodes ∧ g.weight v u = some w := by
  unfold Graph.inEdges
  rw [List.mem_filterMap]
  constructor
  · rintro ⟨x, hx, hopt⟩
    cases hw : g.weight x u with
    | none => rw [hw] at hopt; cases hopt
    | some w' =>
      rw [hw] at hopt
      cases hopt
      exact ⟨hx, hw⟩
  · rintro ⟨hv, hw⟩
    exact ⟨v, hv, by rw [hw]; rfl⟩

/-- Endpoint well-formedness at the weight level. -/
def WeightWF (g : Graph) : Prop :=
  ∀ a b w, g.weight a b = some w → a ∈ g.nodes ∧ b ∈ g.nodes

theorem GoodGraph.weightWF {g : Graph} (hg : GoodGraph g) : WeightWF g :=
  fun _ _ _ h => weight_mem_nodes hg h

theorem weightWF_removeEdge {g : Graph} (hw : WeightWF g) (u v : Nat) :
    WeightWF (g.removeEdge u v) := fun a b w h =>
  hw a b w (weight_removeEdge_some h)

/-- Weight of the graph after removing, for a fixed tail node, the edge
towards every listed head (the out-edge block of rule 3). -/
theorem weight_foldl_rm_out (node : Nat) :
    ∀ (l : List (Nat × Nat)) (g : Graph) (a b : Nat),
      (l.foldl (fun h vw => h.removeEdge node vw.1) g).weight a b =
        if ∃ vw ∈ l, keyMatches g.directed (a, b) node vw.1 then none
        else g.weight a b
  | [], g, a, b => by simp
  | vw :: l, g, a, b => by
    rw [List.foldl_cons, weight_foldl_rm_out node l, removeEdge_directed,
      weight_removeEdge]
    by_cases hm : keyMatches g.directed (a, b) node vw.1
    · have hR : ∃ x ∈ vw :: l, keyMatches g.directed (a, b) node x.1 :=
        ⟨vw, List.mem_cons_self vw l, hm⟩
      rw [if_pos hm, if_pos hR]
      split <;> rfl
    · rw [if_neg hm]
      by_cases hl : ∃ x ∈ l, keyMatches g.directed (a, b) node x.1
      · rcases hl with ⟨x, hx, hkx⟩
        have hL : ∃ y ∈ l, keyMatches g.directed (a, b) node y.1 := ⟨x, hx, hkx⟩
        have hR : ∃ y ∈ vw :: l, keyMatches g.directed (a, b) node y.1 :=
          ⟨x, List.mem_cons_of_mem vw hx, hkx⟩
        rw [if_pos hL, if_pos hR]
      · rw [if_neg hl, if_neg ?notall]
        case notall =>
          rintro ⟨x, hx, hkx⟩
          rcases List.mem_cons.mp hx with rfl | hx'
          · exact hm hkx
          · exact hl ⟨x, hx', hkx⟩

/-- Weight of the graph after removing, for a fixed head node, the edge
from every listed tail (the in-edge block of rule 3). -/
theorem weight_foldl_rm_in (node : Nat) :
    ∀ (l : List (Nat × Nat)) (g : Graph) (a b : Nat),
      (l.foldl (fun h uw => h.removeEdge uw.1 node) g).weight a b =
        if ∃ uw ∈ l, keyMatches g.directed (a, b) uw.1 node then none
        else g.weight a b
  | [], g, a, b => by simp
  | uw :: l, g, a, b => by
    rw [List.foldl_cons, weight_foldl_rm_in node l, removeEdge_directed,
      weight_removeEdge]
    by_cases hm : keyMatches g.directed (a, b) uw.1 node
    · have hR : ∃ x ∈ uw :: l, keyMatches g.directed (a, b) x.1 node :=
        ⟨uw, List.mem_cons_self uw l, hm⟩
      rw [if_pos hm, if_pos hR]
      split <;> rfl
    · rw [if_neg hm]
      by_cases hl : ∃ x ∈ l, keyMatches g.directed (a, b) x.1 node
      · rcases hl with ⟨x, hx, hkx⟩
        have hL : ∃ y ∈ l, keyMatches g.directed (a, b) y.1 node := ⟨x, hx, hkx⟩
        have hR : ∃ y ∈ uw :: l, keyMatches g.directed (a, b) y.1 node :=
          ⟨x, List.mem_cons_of_mem uw hx, hkx⟩
        rw [if_pos hL, if_pos hR]
      · rw [if_neg hl, if_neg ?notall]
        case notall =>
          rintro ⟨x, hx, hkx⟩
          rcases List.mem_cons.mp hx with rfl | hx'
          · exact hm hkx
          · exact hl ⟨x, hx', hkx⟩

theorem foldl_rm_out_directed (node : Nat) :
    ∀ (l : List (Nat × Nat)) (g : Graph),
      (l.foldl (fun h vw => h.removeEdge node vw.1) g).directed = g.directed
  | [], _ => rfl
  | vw :: l, g => by
    rw [List.foldl_cons, foldl_rm_out_directed node l, removeEdge_directed]

theorem foldl_rm_out_nodes (node : Nat) :
    ∀ (l : List (Nat × Nat)) (g : Graph),
      (l.foldl (fun h vw => h.removeEdge node vw.1) g).nodes = g.nodes
  | [], _ => rfl
  | vw :: l, g => by
    rw [List.foldl_cons, foldl_rm_out_nodes node l, removeEdge_nodes]

theorem foldl_rm_in_directed (node : Nat) :
    ∀ (l : List (Nat × Nat)) (g : Graph),
      (l.foldl (fun h uw => h.removeEdge uw.1 node) g).directed = g.directed
  | [], _ => rfl
  | uw :: l, g => by
    rw [List.foldl_cons, foldl_rm_in_directed node l, removeEdge_directed]

theorem foldl_rm_in_nodes (node : Nat) :
    ∀ (l : List (Nat × Nat)) (g : Graph),
      (l.foldl (fun h uw => h.removeEdge uw.1 node) g).nodes = g.nodes
  | [], _ => rfl
  | uw :: l, g => by
    rw [List.foldl_cons, foldl_rm_in_nodes node l, removeEdge_nodes]

@[simp] theorem devStep_directed (root : List Nat) (j : Nat)
    (acc : Graph × List (Nat × Nat × Nat)) (c : List Nat) :
    (devStep root j acc c).1.directed = acc.1.directed := by
  unfold devStep
  split
  · dsimp only
    cases hw : acc.1.weight (c.getD j 0) (c.getD (j + 1) 0) <;> simp [hw]
  · rfl

@[simp] theorem devStep_nodes (root : List Nat) (j : Nat)
    (acc : Graph × List (Nat × Nat × Nat)) (c : List Nat) :
    (devStep root j acc c).1.nodes = acc.1.nodes := by
  unfold devStep
  split
  · dsimp only
    cases hw : acc.1.weight (c.getD j 0) (c.getD (j + 1) 0) <;> simp [hw]
  · rfl

theorem devStep_weight (root : List Nat) (j : Nat)
    (acc : Graph × List (Nat × Nat × Nat)) (c : List Nat) (a b : Nat) :
    (devStep root j acc c).1.weight a b =
      if j < c.length ∧ root = c.take (j + 1) ∧
          keyMatches acc.1.directed (a, b) (c.getD j 0) (c.getD (j + 1) 0) = true
      then none else acc.1.weight a b := by
  unfold devStep
  by_cases hg : j < c.length ∧ root = c.take (j + 1)
  · rw [if_pos hg]
    dsimp only
    cases hw : acc.1.weight (c.getD j 0) (c.getD (j + 1) 0) with
    | some w =>
      dsimp only
      rw [weight_removeEdge]
      by_cases hm : keyMatches acc.1.directed (a, b) (c.getD j 0) (c.getD (j + 1) 0)
      · rw [if_pos hm, if_pos ⟨hg.1, hg.2, hm⟩]
      · rw [if_neg hm, if_neg fun hcon => hm hcon.2.2]
    | none =>
      dsimp only
      by_cases hm : keyMatches acc.1.directed (a, b) (c.getD j 0) (c.getD (j + 1) 0)
      · rw [if_pos ⟨hg.1, hg.2, hm⟩, weight_eq_of_keyMatches hm, hw]
      · rw [if_neg fun hcon => hm hcon.2.2]
  · rw [if_neg hg, if_neg fun hcon => hg ⟨hcon.1, hcon.2.1⟩]

/-- The set of ordered pairs erased by the prefix-sharing rule (rule 2 of
the Deviation Engine): the deviation edge of every already-accepted path
that shares the root. -/
def DevMatch (paths : List (List Nat)) (root : List Nat) (j : Nat)
    (dir : Bool) (a b : Nat) : Prop :=
  ∃ c ∈ paths, j < c.length ∧ root = c.take (j + 1) ∧
    keyMatches dir (a, b) (c.getD j 0) (c.getD (j + 1) 0) = true

instance (paths : List (List Nat)) (root : List Nat) (j : Nat) (dir : Bool)
    (a b : Nat) : Decidable (DevMatch paths root j dir a b) := by
  unfold DevMatch; infer_instance

theorem devFold_weight (root : List Nat) (j : Nat) :
    ∀ (paths : List (List Nat)) (acc : Graph × List (Nat × Nat × Nat)) (a b : Nat),
      ((paths.foldl (devStep root j) acc).1).weight a b =
        if DevMatch paths root j acc.1.directed a b then none
        else acc.1.weight a b
  | [], acc, a, b => by
    rw [List.foldl_nil, if_neg]
    rintro ⟨c, hc, -⟩
    cases hc
  | c :: paths, acc, a, b => by
    rw [List.foldl_cons, devFold_weight root j paths, devStep_directed,
      devStep_weight]
    by_cases hm : j < c.length ∧ root = c.take (j + 1) ∧
        keyMatches acc.1.directed (a, b) (c.getD j 0) (c.getD (j + 1) 0) = true
    · have hR : DevMatch (c :: paths) root j acc.1.directed a b :=
        ⟨c, List.mem_cons_self c paths, hm⟩
      rw [if_pos hm, if_pos hR]
      split <;> rfl
    · rw [if_neg hm]
      by_cases hl : DevMatch paths root j acc.1.directed a b
      · have hR : DevMatch (c :: paths) root j acc.1.directed a b := by
          rcases hl with ⟨c', hc', h'⟩
          exact ⟨c', List.mem_cons_of_mem c hc', h'⟩
        rw [if_pos hl, if_pos hR]
      · rw [if_neg hl, if_neg ?notall]
        case notall =>
          rintro ⟨c', hc', h'⟩
          rcases List.mem_cons.mp hc' with rfl | hmem
          · exact hm h'
          · exact hl ⟨c', hmem, h'⟩

theorem devFold_directed (root : List Nat) (j : Nat) :
    ∀ (paths : List (List Nat)) (acc : Graph × List (Nat × Nat × Nat)),
      ((paths.foldl (devStep root j) acc).1).directed = acc.1.directed
  | [], _ => rfl
  | c :: paths, acc => by
    rw [List.foldl_cons, devFold_directed root j paths, devStep_directed]

theorem devFold_nodes (root : List Nat) (j : Nat) :
    ∀ (paths : List (List Nat)) (acc : Graph × List (Nat × Nat × Nat)),
      ((paths.foldl (devStep root j) acc).1).nodes = acc.1.nodes
  | [], _ => rfl
  | c :: paths, acc => by
    rw [List.foldl_cons, devFold_nodes root j paths, devStep_nodes]

@[simp] theorem removeNodeStep_directed (acc : Graph × List (Nat × Nat × Nat))
    (node : Nat) : (removeNodeStep acc node).1.directed = acc.1.directed := by
  unfold removeNodeStep
  by_cases hdir : ((acc.1.outEdges node).foldl
      (fun h vw => h.removeEdge node vw.1) acc.1).directed
  · rw [if_pos hdir]
    dsimp only
    rw [foldl_rm_in_directed, foldl_rm_out_directed]
  · rw [if_neg hdir]
    dsimp only
    rw [foldl_rm_out_directed]

@[simp] theorem removeNodeStep_nodes (acc : Graph × List (Nat × Nat × Nat))
    (node : Nat) : (removeNodeStep acc node).1.nodes = acc.1.nodes := by
  unfold removeNodeStep
  by_cases hdir : ((acc.1.outEdges node).foldl
      (fun h vw => h.removeEdge node vw.1) acc.1).directed
  · rw [if_pos hdir]
    dsimp only
    rw [foldl_rm_in_nodes, foldl_rm_out_nodes]
  · rw [if_neg hdir]
    dsimp only
    rw [foldl_rm_out_nodes]

theorem removeNodeStep_weight (acc : Graph × List (Nat × Nat × Nat))
    (node : Nat) (hw : WeightWF acc.1) (a b : Nat) :
    (removeNodeStep acc node).1.weight a b =
      if a = node ∨ b = node then none else acc.1.weight a b := by
  unfold removeNodeStep
  have houtdir := foldl_rm_out_directed node (acc.1.outEdges node) acc.1
  have houtnodes := foldl_rm_out_nodes node (acc.1.outEdges node) acc.1
  have hout := weight_foldl_rm_out node (acc.1.outEdges node) acc.1
  by_cases hdir : ((acc.1.outEdges node).foldl
      (fun h vw => h.removeEdge node vw.1) acc.1).directed
  all_goals rw [houtdir] at hdir
  · rw [if_pos (houtdir ▸ hdir)]
    dsimp only
    rw [weight_foldl_rm_in]
    rw [foldl_rm_out_directed]
    by_cases hcase : a = node ∨ b = node
    · rw [if_pos hcase]
      rcases hcase with rfl | rfl
      · have hnone : ((acc.1.outEdges a).foldl
            (fun h vw => h.removeEdge a vw.1) acc.1).weight a b = none := by
          rw [hout]
          cases hab : acc.1.weight a b with
          | none => split <;> rfl
          | some w =>
            rw [if_pos ?ex]
            case ex =>
              refine ⟨(b, w), mem_outEdges.mpr ⟨(hw a b w hab).2, hab⟩, ?_⟩
              rw [keyMatches_iff]
              exact Or.inl rfl
        rw [hnone]
        split <;> rfl
      · cases hab : acc.1.weight a b with
        | none =>
          have hnone : ((acc.1.outEdges b).foldl
              (fun h vw => h.removeEdge b vw.1) acc.1).weight a b = none := by
            rw [hout, hab]
            split <;> rfl
          rw [hnone]
          split <;> rfl
        | some w =>
          by_cases hanode : a = b
          · subst hanode
            have hnone : ((acc.1.outEdges a).foldl
                (fun h vw => h.removeEdge a vw.1) acc.1).weight a a = none := by
              rw [hout]
              rw [if_pos ?ex2]
              case ex2 =>
                refine ⟨(a, w), mem_outEdges.mpr ⟨(hw a a w hab).2, hab⟩, ?_⟩
                rw [keyMatches_iff]
                exact Or.inl rfl
            rw [hnone]
            split <;> rfl
          · have hg1 : ((acc.1.outEdges b).foldl
                (fun h vw => h.removeEdge b vw.1) acc.1).weight a b = some w := by
              rw [hout, if_neg ?nex]
              · exact hab
              case nex =>
                rintro ⟨vw, -, hk⟩
                rcases keyMatches_iff.mp hk with hk1 | ⟨hfalse, -⟩
                · exact hanode (congrArg Prod.fst hk1)
                · rw [hdir] at hfalse
                  cases hfalse
            rw [if_pos ?exin]
            case exin =>
              refine ⟨(a, w), mem_inEdges.mpr ⟨?_, hg1⟩, ?_⟩
              · rw [houtnodes]
                exact (hw a b w hab).1
              · rw [keyMatches_iff]
                exact Or.inl rfl
    · rw [if_neg hcase]
      push_neg at hcase
      rw [if_neg ?nexin, hout, if_neg ?nexout]
      case nexin =>
        rintro ⟨uw, -, hk⟩
        rcases keyMatches_iff.mp hk with hk1 | ⟨hfalse, -⟩
        · exact hcase.2 (congrArg Prod.snd hk1)
        · rw [hdir] at hfalse
          cases hfalse
      case nexout =>
        rintro ⟨vw, -, hk⟩
        rcases keyMatches_iff.mp hk with hk1 | ⟨hfalse, -⟩
        · exact hcase.1 (congrArg Prod.fst hk1)
        · rw [hdir] at hfalse
          cases hfalse
  · rw [if_neg (by rw [houtdir]; exact hdir)]
    dsimp only
    rw [hout]
    have hdirf : acc.1.directed = false := by
      cases h : acc.1.directed
      · rfl
      · rw [h] at hdir; cases hdir rfl
    by_cases hcase : a = node ∨ b = node
    · rw [if_pos hcase]
      rcases hcase with rfl | rfl
      · cases hab : acc.1.weight a b with
        | none => split <;> rfl
        | some w =>
          rw [if_pos ?exu1]
          case exu1 =>
            refine ⟨(b, w), mem_outEdges.mpr ⟨(hw a b w hab).2, hab⟩, ?_⟩
            rw [keyMatches_iff]
            exact Or.inl rfl
      · cases hab : acc.1.weight a b with
        | none => split <;> rfl
        | some w =>
          rw [if_pos ?exu2]
          case exu2 =>
            have hsymm : acc.1.weight b a = some w := by
              rw [weight_symm hdirf]; exact hab
            refine ⟨(a, w), mem_outEdges.mpr ⟨(hw a b w hab).1, hsymm⟩, ?_⟩
            rw [keyMatches_iff]
            exact Or.inr ⟨hdirf, rfl⟩
    · rw [if_neg hcase, if_neg ?nexu]
      case nexu =>
        push_neg at hcase
        rintro ⟨vw, -, hk⟩
        rcases keyMatches_iff.mp hk with hk1 | ⟨-, hk2⟩
        · exact hcase.1 (congrArg Prod.fst hk1)
        · exact hcase.2 (congrArg Prod.snd hk2)

theorem removeNodeStep_weightWF (acc : Graph × List (Nat × Nat × Nat))
    (node : Nat) (hw : WeightWF acc.1) : WeightWF (removeNodeStep acc node).1 := by
  intro a b w h
  rw [removeNodeStep_weight acc node hw] at h
  rw [removeNodeStep_nodes]
  by_cases hcase : a = node ∨ b = node
  · rw [if_pos hcase] at h; cases h
  · rw [if_neg hcase] at h
    exact hw a b w h

theorem interiorFold_weight :
    ∀ (ns : List Nat) (acc : Graph × List (Nat × Nat × Nat)),
      WeightWF acc.1 → ∀ (a b : Nat),
      ((ns.foldl removeNodeStep acc).1).weight a b =
        if a ∈ ns ∨ b ∈ ns then none else acc.1.weight a b
  | [], acc, _, a, b => by simp
  | n :: ns, acc, hw, a, b => by
    rw [List.foldl_cons,
      interiorFold_weight ns (removeNodeStep acc n) (removeNodeStep_weightWF acc n hw),
      removeNodeStep_weight acc n hw]
    by_cases hn : a = n ∨ b = n
    · have hR : a ∈ n :: ns ∨ b ∈ n :: ns := by
        rcases hn with rfl | rfl
        · exact Or.inl (List.mem_cons_self a ns)
        · exact Or.inr (List.mem_cons_self b ns)
      rw [if_pos hR]
      split <;> rfl
    · rw [if_neg hn]
      by_cases hns : a ∈ ns ∨ b ∈ ns
      · have hR : a ∈ n :: ns ∨ b ∈ n :: ns := by
          rcases hns with h | h
          · exact Or.inl (List.mem_cons_of_mem n h)
          · exact Or.inr (List.mem_cons_of_mem n h)
        rw [if_pos hns, if_pos hR]
      · rw [if_neg hns, if_neg ?notm]
        case notm =>
          rintro (hm | hm)
          · rcases List.mem_cons.mp hm with rfl | hmem
            · exact hn (Or.inl rfl)
            · exact hns (Or.inl hmem)
          · rcases List.mem_cons.mp hm with rfl | hmem
            · exact hn (Or.inr rfl)
            · exact hns (Or.inr hmem)

theorem interiorFold_directed :
    ∀ (ns : List Nat) (acc : Graph × List (Nat × Nat × Nat)),
      ((ns.foldl removeNodeStep acc).1).directed = acc.1.directed
  | [], _ => rfl
  | n :: ns, acc => by
    rw [List.foldl_cons, interiorFold_directed ns, removeNodeStep_directed]

theorem interiorFold_nodes :
    ∀ (ns : List Nat) (acc : Graph × List (Nat × Nat × Nat)),
      ((ns.foldl removeNodeStep acc).1).nodes = acc.1.nodes
  | [], _ => rfl
  | n :: ns, acc => by
    rw [List.foldl_cons, interiorFold_nodes ns, removeNodeStep_nodes]

theorem devFold_weightWF (root : List Nat) (j : Nat)
    (paths : List (List Nat)) (acc : Graph × List (Nat × Nat × Nat))
    (hw : WeightWF acc.1) : WeightWF ((paths.foldl (devStep root j) acc).1) := by
  intro a b w h
  rw [devFold_weight] at h
  rw [devFold_nodes]
  by_cases hcase : DevMatch paths root j acc.1.directed a b
  · rw [if_pos hcase] at h; cases h
  · rw [if_neg hcase] at h
    exact hw a b w h

/-- The weight function of the graph seen by the spur-path Dijkstra call:
the original weight with the deviation edges of root-sharing accepted paths
and every edge incident to an interior root node erased. -/
theorem prunedGraph_weight (paths : List (List Nat)) (root : List Nat)
    (j : Nat) {g : Graph} (hw : WeightWF g) (a b : Nat) :
    (prunedGraph paths root j g).weight a b =
      if DevMatch paths root j g.directed a b ∨
          a ∈ root.dropLast ∨ b ∈ root.dropLast
      then none else g.weight a b := by
  unfold prunedGraph
  rw [interiorFold_weight root.dropLast (paths.foldl (devStep root j) (g, []))
      (devFold_weightWF root j paths (g, []) hw),
    devFold_weight]
  by_cases hint : a ∈ root.dropLast ∨ b ∈ root.dropLast
  · rw [if_pos hint, if_pos (Or.inr hint)]
  · rw [if_neg hint]
    by_cases hdev : DevMatch paths root j g.directed a b
    · rw [if_pos hdev, if_pos (Or.inl hdev)]
    · rw [if_neg hdev, if_neg ?notor]
      case notor =>
        rintro (h | h)
        · exact hdev h
        · exact hint h

@[simp] theorem prunedGraph_directed (paths : List (List Nat)) (root : List Nat)
    (j : Nat) (g : Graph) : (prunedGraph paths root j g).directed = g.directed := by
  unfold prunedGraph
  rw [interiorFold_directed, devFold_directed]

@[simp] theorem prunedGraph_nodes (paths : List (List Nat)) (root : List Nat)
    (j : Nat) (g : Graph) : (prunedGraph paths root j g).nodes = g.nodes := by
  unfold prunedGraph
  rw [interiorFold_nodes, devFold_nodes]

theorem prunedGraph_weightWF (paths : List (List Nat)) (root : List Nat)
    (j : Nat) {g : Graph} (hw : WeightWF g) :
    WeightWF (prunedGraph paths root j g) := by
  intro a b w h
  rw [prunedGraph_weight paths root j hw] at h
  rw [prunedGraph_nodes]
  by_cases hcase : DevMatch paths root j g.directed a b ∨
      a ∈ root.dropLast ∨ b ∈ root.dropLast
  · rw [if_pos hcase] at h; cases h
  · rw [if_neg hcase] at h
    exact hw a b w h

/-- Every weight surviving the pruning is a weight of the unpruned graph:
the pruned graph is a subgraph. -/
theorem prunedGraph_weight_some {paths : List (List Nat)} {root : List Nat}
    {j : Nat} {g : Graph} (hw : WeightWF g) {a b w : Nat}
    (h : (prunedGraph paths root j g).weight a b = some w) :
    g.weight a b = some w := by
  rw [prunedGraph_weight paths root j hw] at h
  by_cases hcase : DevMatch paths root j g.directed a b ∨
      a ∈ root.dropLast ∨ b ∈ root.dropLast
  · rw [if_pos hcase] at h; cases h
  · rwa [if_neg hcase] at h

/-! ## Reversible removal chains and the restoration of pruned edges -/

/-- `RemChain g rem g2`: starting from `g`, removing the recorded edges in
order — each present, with the recorded weight, at its turn — produces
`g2`.  This is the shape of `edges_removed` in the source: every entry was
removed exactly once from the then-current graph. -/
inductive RemChain : Graph → List (Nat × Nat × Nat) → Graph → Prop where
  | nil (g : Graph) : RemChain g [] g
  | cons {g g2 : Graph} {rem : List (Nat × Nat × Nat)} (u v w : Nat) :
      g.weight u v = some w → RemChain (g.removeEdge u v) rem g2 →
      RemChain g ((u, v, w) :: rem) g2

theorem RemChain.append {g g1 g2 : Graph} {r1 r2 : List (Nat × Nat × Nat)}
    (h1 : RemChain g r1 g1) (h2 : RemChain g1 r2 g2) :
    RemChain g (r1 ++ r2) g2 := by
  induction h1 with
  | nil => exact h2
  | cons u v w hw _ ih => exact RemChain.cons u v w hw (ih h2)

theorem remChain_snoc {g g1 : Graph} {r : List (Nat × Nat × Nat)} {u v w : Nat}
    (h : RemChain g r g1) (hw : g1.weight u v = some w) :
    RemChain g (r ++ [(u, v, w)]) (g1.removeEdge u v) :=
  h.append (RemChain.cons u v w hw (RemChain.nil _))

theorem RemChain.directed_eq {g g2 : Graph} {r : List (Nat × Nat × Nat)}
    (h : RemChain g r g2) : g2.directed = g.directed := by
  induction h with
  | nil => rfl
  | cons u v w _ _ ih => rw [ih, removeEdge_directed]

theorem RemChain.nodes_eq {g g2 : Graph} {r : List (Nat × Nat × Nat)}
    (h : RemChain g r g2) : g2.nodes = g.nodes := by
  induction h with
  | nil => rfl
  | cons u v w _ _ ih => rw [ih, removeEdge_nodes]

/-- Once an edge class is absent, no later record of the chain can name it:
removal only erases weights and a record requires presence. -/
theorem RemChain.fresh {g g2 : Graph} {r : List (Nat × Nat × Nat)}
    (h : RemChain g r g2) :
    ∀ {u v : Nat}, g.weight u v = none →
      ∀ e ∈ r, keyMatches g.directed (e.1, e.2.1) u v = false := by
  induction h with
  | nil =>
    intro u v _ e he
    cases he
  | @cons gc gc2 rem x y wt hw hch ih =>
    intro u v hnone e he
    rcases List.mem_cons.mp he with rfl | he2
    · dsimp only
      by_cases hk : keyMatches gc.directed ((x, y) : Nat × Nat) u v
      · rw [weight_eq_of_keyMatches hk, hnone] at hw
        cases hw
      · simpa using hk
    · have hrm : (gc.removeEdge x y).weight u v = none :=
        weight_removeEdge_none x y hnone
      have hres := ih hrm e he2
      rwa [removeEdge_directed] at hres

/-- Re-inserting two edges of disjoint matching classes commutes (at the
level of observable graph behaviour). -/
theorem addEdge_addEdge_swap {h : Graph} {u v w x y z : Nat}
    (hxy : keyMatches h.directed (x, y) u v = false) :
    GEquiv ((h.addEdge u v w).addEdge x y z) ((h.addEdge x y z).addEdge u v w) := by
  refine ⟨rfl, rfl, fun a b => ?_⟩
  rw [weight_addEdge, weight_addEdge, weight_addEdge, weight_addEdge]
  simp only [addEdge_directed]
  by_cases h1 : keyMatches h.directed (a, b) x y
  · rw [if_pos h1]
    have h2 : keyMatches h.directed (a, b) u v = false := by
      have := keyMatches_class (u := u) (v := v) h1
      rw [this, keyMatches_comm]
      have hyx : keyMatches h.directed ((u, v) : Nat × Nat) x y =
          keyMatches h.directed ((x, y) : Nat × Nat) u v := keyMatches_comm
      rw [hyx, hxy]
    rw [if_neg (by rw [h2]; exact fun hcon => nomatch hcon), if_pos h1]
  · rw [if_neg (by rw [Bool.not_eq_true] at h1; rw [h1]; exact fun hcon => nomatch hcon)]
    by_cases h2 : keyMatches h.directed (a, b) u v
    · rw [if_pos h2, if_pos h2]
    · rw [if_neg h2, if_neg h2,
        if_neg (by rw [Bool.not_eq_true] at h1; rw [h1]; exact fun hcon => nomatch hcon)]

@[simp] theorem restoreEdges_directed :
    ∀ (r : List (Nat × Nat × Nat)) (g : Graph),
      (restoreEdges g r).directed = g.directed
  | [], _ => rfl
  | e :: r, g => by
    unfold restoreEdges
    rw [List.foldl_cons]
    have := restoreEdges_directed r (g.addEdge e.1 e.2.1 e.2.2)
    unfold restoreEdges at this
    rw [this, addEdge_directed]

@[simp] theorem restoreEdges_nodes :
    ∀ (r : List (Nat × Nat × Nat)) (g : Graph),
      (restoreEdges g r).nodes = g.nodes
  | [], _ => rfl
  | e :: r, g => by
    unfold restoreEdges
    rw [List.foldl_cons]
    have := restoreEdges_nodes r (g.addEdge e.1 e.2.1 e.2.2)
    unfold restoreEdges at this
    rw [this, addEdge_nodes]

theorem restoreEdges_cons (g : Graph) (e : Nat × Nat × Nat)
    (r : List (Nat × Nat × Nat)) :
    restoreEdges g (e :: r) = restoreEdges (g.addEdge e.1 e.2.1 e.2.2) r := rfl

theorem restoreEdges_congr {g1 g2 : Graph} (h : GEquiv g1 g2) :
    ∀ (r : List (Nat × Nat × Nat)), GEquiv (restoreEdges g1 r) (restoreEdges g2 r)
  | [] => h
  | e :: r => by
    rw [restoreEdges_cons, restoreEdges_cons]
    exact restoreEdges_congr (gequiv_addEdge h e.1 e.2.1 e.2.2) r

/-- Re-inserting an edge first and then restoring records of disjoint
classes is the same as restoring first and then answering the inserted
weight on its class. -/
theorem restoreEdges_addEdge :
    ∀ (r : List (Nat × Nat × Nat)) (h : Graph) (u v w : Nat),
      (∀ e ∈ r, keyMatches h.directed (e.1, e.2.1) u v = false) →
      ∀ a b, (restoreEdges (h.addEdge u v w) r).weight a b =
        if keyMatches h.directed (a, b) u v then some w
        else (restoreEdges h r).weight a b
  | [], h, u, v, w, _, a, b => by
    unfold restoreEdges
    rw [List.foldl_nil, List.foldl_nil, weight_addEdge]
  | e :: r, h, u, v, w, hdisj, a, b => by
    rw [restoreEdges_cons, restoreEdges_cons]
    have hswap : GEquiv ((h.addEdge u v w).addEdge e.1 e.2.1 e.2.2)
        ((h.addEdge e.1 e.2.1 e.2.2).addEdge u v w) :=
      addEdge_addEdge_swap (hdisj e (List.mem_cons_self e r))
    rw [(restoreEdges_congr hswap r).2.2 a b]
    have hdisj2 : ∀ x ∈ r,
        keyMatches (h.addEdge e.1 e.2.1 e.2.2).directed (x.1, x.2.1) u v = false := by
      intro x hx
      rw [addEdge_directed]
      exact hdisj x (List.mem_cons_of_mem e hx)
    have hres := restoreEdges_addEdge r (h.addEdge e.1 e.2.1 e.2.2) u v w hdisj2 a b
    rw [addEdge_directed] at hres
    exact hres

/-- Restoring a removal chain recovers every weight of the starting graph:
the Controller's prune-and-restore discipline is lossless. -/
theorem restore_chain {g g2 : Graph} {r : List (Nat × Nat × Nat)}
    (ch : RemChain g r g2) : ∀ a b, (restoreEdges g2 r).weight a b = g.weight a b := by
  induction ch with
  | nil => intro a b; rfl
  | @cons gc gc2 rem u v w hw hch ih =>
    intro a b
    rw [restoreEdges_cons]
    dsimp only
    have hfresh : ∀ e ∈ rem,
        keyMatches (gc.removeEdge u v).directed (e.1, e.2.1) u v = false :=
      hch.fresh (weight_removeEdge_self (keyMatches_iff.mpr (Or.inl rfl)))
    have hfresh2 : ∀ e ∈ rem, keyMatches gc2.directed (e.1, e.2.1) u v = false := by
      intro e he
      rw [hch.directed_eq]
      exact hfresh e he
    have hstep := restoreEdges_addEdge rem gc2 u v w hfresh2 a b
    rw [hstep, ih a b, weight_removeEdge]
    have hdir : gc2.directed = gc.directed := by
      rw [hch.directed_eq, removeEdge_directed]
    rw [hdir]
    by_cases hk : keyMatches gc.directed (a, b) u v
    · simp only [if_pos hk]
      rw [weight_eq_of_keyMatches hk, hw]
    · simp only [if_neg hk]

theorem mem_fst_filterMap_weight {f : Nat → Option Nat} {l : List Nat}
    {x : Nat × Nat} (hx : x ∈ l.filterMap fun v => (f v).map fun w => (v, w)) :
    x.1 ∈ l := by
  rcases List.mem_filterMap.mp hx with ⟨v, hv, hopt⟩
  cases hf : f v with
  | none => rw [hf] at hopt; cases hopt
  | some w =>
    rw [hf] at hopt
    cases hopt
    exact hv

theorem nodup_fst_filterMap_weight (f : Nat → Option Nat) :
    ∀ (l : List Nat), l.Nodup →
      ((l.filterMap fun v => (f v).map fun w => (v, w)).map Prod.fst).Nodup
  | [], _ => by simp
  | v :: l, h => by
    rw [List.filterMap_cons]
    cases hf : f v with
    | none => exact nodup_fst_filterMap_weight f l (List.Nodup.of_cons h)
    | some w =>
      simp only [Option.map_some']
      rw [List.map_cons]
      refine List.Nodup.cons ?notmem (nodup_fst_filterMap_weight f l (List.Nodup.of_cons h))
      intro hmem
      rcases List.mem_map.mp hmem with ⟨x, hx, hfst⟩
      have hv : v ∈ l := by
        have hfst2 : x.1 = v := hfst
        rw [← hfst2]
        exact mem_fst_filterMap_weight hx
      exact (List.nodup_cons.mp h).1 hv

theorem nodup_fst_outEdges {g : Graph} (hn : g.nodes.Nodup) (u : Nat) :
    ((g.outEdges u).map Prod.fst).Nodup :=
  nodup_fst_filterMap_weight (g.weight u) g.nodes hn

theorem nodup_fst_inEdges {g : Graph} (hn : g.nodes.Nodup) (u : Nat) :
    ((g.inEdges u).map Prod.fst).Nodup :=
  nodup_fst_filterMap_weight (fun v => g.weight v u) g.nodes hn

/-- The out-edge block of rule 3 is a removal chain. -/
theorem chain_rm_out (node : Nat) :
    ∀ (l : List (Nat × Nat)) (g : Graph),
      (∀ vw ∈ l, g.weight node vw.1 = some vw.2) →
      (l.map Prod.fst).Nodup →
      RemChain g (l.map fun vw => (node, vw.1, vw.2))
        (l.foldl (fun h vw => h.removeEdge node vw.1) g)
  | [], g, _, _ => RemChain.nil g
  | vw :: l, g, hmem, hnodup => by
    rw [List.map_cons, List.foldl_cons]
    refine RemChain.cons node vw.1 vw.2 (hmem vw (List.mem_cons_self vw l)) ?_
    refine chain_rm_out node l (g.removeEdge node vw.1) ?_ ?_
    · intro x hx
      rw [weight_removeEdge, if_neg ?nk]
      · exact hmem x (List.mem_cons_of_mem vw hx)
      case nk =>
        intro hk
        rcases keyMatches_iff.mp hk with h1 | ⟨-, h2⟩
        · have hx1 : x.1 = vw.1 := congrArg Prod.snd h1
          have : x.1 ∈ l.map Prod.fst := List.mem_map_of_mem Prod.fst hx
          rw [hx1] at this
          exact (List.nodup_cons.mp (by rw [List.map_cons] at hnodup; exact hnodup)).1 this
        · have hv1 : vw.1 = node := (congrArg Prod.fst h2).symm
          have hx1 : x.1 = node := congrArg Prod.snd h2
          have : x.1 ∈ l.map Prod.fst := List.mem_map_of_mem Prod.fst hx
          rw [hx1, ← hv1] at this
          exact (List.nodup_cons.mp (by rw [List.map_cons] at hnodup; exact hnodup)).1 this
    · rw [List.map_cons] at hnodup
      exact List.Nodup.of_cons hnodup

/-- The in-edge block of rule 3 is a removal chain. -/
theorem chain_rm_in (node : Nat) :
    ∀ (l : List (Nat × Nat)) (g : Graph),
      (∀ uw ∈ l, g.weight uw.1 node = some uw.2) →
      (l.map Prod.fst).Nodup →
      RemChain g (l.map fun uw => (uw.1, node, uw.2))
        (l.foldl (fun h uw => h.removeEdge uw.1 node) g)
  | [], g, _, _ => RemChain.nil g
  | uw :: l, g, hmem, hnodup => by
    rw [List.map_cons, List.foldl_cons]
    refine RemChain.cons uw.1 node uw.2 (hmem uw (List.mem_cons_self uw l)) ?_
    refine chain_rm_in node l (g.removeEdge uw.1 node) ?_ ?_
    · intro x hx
      rw [weight_removeEdge, if_neg ?nk2]
      · exact hmem x (List.mem_cons_of_mem uw hx)
      case nk2 =>
        intro hk
        rcases keyMatches_iff.mp hk with h1 | ⟨-, h2⟩
        · have hx1 : x.1 = uw.1 := (Prod.ext_iff.mp h1).1
          have : x.1 ∈ l.map Prod.fst := List.mem_map_of_mem Prod.fst hx
          rw [hx1] at this
          exact (List.nodup_cons.mp (by rw [List.map_cons] at hnodup; exact hnodup)).1 this
        · have hu1 : uw.1 = node := (Prod.ext_iff.mp h2).2.symm
          have hx1 : x.1 = node := (Prod.ext_iff.mp h2).1
          have : x.1 ∈ l.map Prod.fst := List.mem_map_of_mem Prod.fst hx
          rw [hx1, ← hu1] at this
          exact (List.nodup_cons.mp (by rw [List.map_cons] at hnodup; exact hnodup)).1 this
    · rw [List.map_cons] at hnodup
      exact List.Nodup.of_cons hnodup

theorem devStep_chain {g0 : Graph} {acc : Graph × List (Nat × Nat × Nat)}
    (root : List Nat) (j : Nat) (c : List Nat)
    (h : RemChain g0 acc.2 acc.1) :
    RemChain g0 (devStep root j acc c).2 (devStep root j acc c).1 := by
  unfold devStep
  by_cases hg : j < c.length ∧ root = c.take (j + 1)
  · rw [if_pos hg]
    show RemChain g0
      (match acc.1.weight (c.getD j 0) (c.getD (j + 1) 0) with
        | some w => (acc.1.removeEdge (c.getD j 0) (c.getD (j + 1) 0),
            acc.2 ++ [(c.getD j 0, c.getD (j + 1) 0, w)])
        | none => acc).2
      (match acc.1.weight (c.getD j 0) (c.getD (j + 1) 0) with
        | some w => (acc.1.removeEdge (c.getD j 0) (c.getD (j + 1) 0),
            acc.2 ++ [(c.getD j 0, c.getD (j + 1) 0, w)])
        | none => acc).1
    cases hw : acc.1.weight (c.getD j 0) (c.getD (j + 1) 0) with
    | some w => exact remChain_snoc h hw
    | none => exact h
  · rw [if_neg hg]
    exact h

theorem removeNodeStep_chain {g0 : Graph} {acc : Graph × List (Nat × Nat × Nat)}
    (node : Nat) (h : RemChain g0 acc.2 acc.1) (hn : acc.1.nodes.Nodup) :
    RemChain g0 (removeNodeStep acc node).2 (removeNodeStep acc node).1 := by
  unfold removeNodeStep
  have houts : ∀ vw ∈ acc.1.outEdges node, acc.1.weight node vw.1 = some vw.2 := by
    intro vw hvw
    rcases vw with ⟨v, w⟩
    exact (mem_outEdges.mp hvw).2
  have hch1 : RemChain acc.1 ((acc.1.outEdges node).map fun vw => (node, vw.1, vw.2))
      ((acc.1.outEdges node).foldl (fun h vw => h.removeEdge node vw.1) acc.1) :=
    chain_rm_out node (acc.1.outEdges node) acc.1 houts (nodup_fst_outEdges hn node)
  have hcomb := h.append hch1
  by_cases hdir : ((acc.1.outEdges node).foldl
      (fun h vw => h.removeEdge node vw.1) acc.1).directed
  · rw [if_pos hdir]
    dsimp only
    set g1 := (acc.1.outEdges node).foldl (fun h vw => h.removeEdge node vw.1) acc.1 with hg1
    have hins : ∀ uw ∈ g1.inEdges node, g1.weight uw.1 node = some uw.2 := by
      intro uw huw
      rcases uw with ⟨u, w⟩
      exact (mem_inEdges.mp huw).2
    have hn1 : g1.nodes.Nodup := by
      rw [hg1, foldl_rm_out_nodes]
      exact hn
    have hch2 : RemChain g1 ((g1.inEdges node).map fun uw => (uw.1, node, uw.2))
        ((g1.inEdges node).foldl (fun h uw => h.removeEdge uw.1 node) g1) :=
      chain_rm_in node (g1.inEdges node) g1 hins (nodup_fst_inEdges hn1 node)
    exact hcomb.append hch2
  · rw [if_neg hdir]
    exact hcomb

theorem devFold_chain {g0 : Graph} (root : List Nat) (j : Nat) :
    ∀ (paths : List (List Nat)) (acc : Graph × List (Nat × Nat × Nat)),
      RemChain g0 acc.2 acc.1 →
      RemChain g0 (paths.foldl (devStep root j) acc).2
        (paths.foldl (devStep root j) acc).1
  | [], _, h => h
  | c :: paths, acc, h => by
    rw [List.foldl_cons]
    exact devFold_chain root j paths (devStep root j acc c) (devStep_chain root j c h)

theorem interiorFold_chain {g0 : Graph} :
    ∀ (ns : List Nat) (acc : Graph × List (Nat × Nat × Nat)),
      RemChain g0 acc.2 acc.1 → acc.1.nodes.Nodup →
      RemChain g0 (ns.foldl removeNodeStep acc).2 (ns.foldl removeNodeStep acc).1
  | [], _, h, _ => h
  | n :: ns, acc, h, hn => by
    rw [List.foldl_cons]
    refine interiorFold_chain ns (removeNodeStep acc n) (removeNodeStep_chain n h hn) ?_
    rw [removeNodeStep_nodes]
    exact hn

/-- The pruning performed for one spur position is a removal chain. -/
theorem pruned_chain (paths : List (List Nat)) (root : List Nat) (j : Nat)
    {g : Graph} (hn : g.nodes.Nodup) :
    RemChain g (prunedRecs paths root j g) (prunedGraph paths root j g) := by
  unfold prunedGraph prunedRecs
  refine interiorFold_chain root.dropLast (paths.foldl (devStep root j) (g, []))
    (devFold_chain root j paths (g, []) (RemChain.nil g)) ?_
  rw [devFold_nodes]
  exact hn

/-- Restoring the recorded removals of one spur position recovers every
weight of the graph as it was before the pruning. -/
theorem pruned_restore (paths : List (List Nat)) (root : List Nat) (j : Nat)
    {g : Graph} (hn : g.nodes.Nodup) (a b : Nat) :
    (restoreEdges (prunedGraph paths root j g) (prunedRecs paths root j g)).weight a b =
      g.weight a b :=
  restore_chain (pruned_chain paths root j hn) a b

/-! ## State bookkeeping of the spur loop -/

@[simp] theorem spurPush_g (g0 : Graph) (t : Nat) (st : YState) (j : Nat) :
    (spurPush g0 t st j).g = st.g := by
  unfold spurPush
  split
  · split <;> rfl
  · rfl

@[simp] theorem spurPush_lengths (g0 : Graph) (t : Nat) (st : YState) (j : Nat) :
    (spurPush g0 t st j).lengths = st.lengths := by
  unfold spurPush
  split
  · split <;> rfl
  · rfl

@[simp] theorem spurPush_paths (g0 : Graph) (t : Nat) (st : YState) (j : Nat) :
    (spurPush g0 t st j).paths = st.paths := by
  unfold spurPush
  split
  · split <;> rfl
  · rfl

@[simp] theorem spurStep_lengths (g0 : Graph) (t : Nat) (st : YState) (j : Nat) :
    (spurStep g0 t st j).lengths = st.lengths := spurPush_lengths g0 t st j

@[simp] theorem spurStep_paths (g0 : Graph) (t : Nat) (st : YState) (j : Nat) :
    (spurStep g0 t st j).paths = st.paths := spurPush_paths g0 t st j

@[simp] theorem spurStep_B (g0 : Graph) (t : Nat) (st : YState) (j : Nat) :
    (spurStep g0 t st j).B = (spurPush g0 t st j).B := rfl

@[simp] theorem spurStep_cnt (g0 : Graph) (t : Nat) (st : YState) (j : Nat) :
    (spurStep g0 t st j).cnt = (spurPush g0 t st j).cnt := rfl

theorem spurStep_g (g0 : Graph) (t : Nat) (st : YState) (j : Nat) :
    (spurStep g0 t st j).g =
      restoreEdges (prunedGraph st.paths (rootOf st j) j st.g)
        (prunedRecs st.paths (rootOf st j) j st.g) := rfl

/-- A spur step restores the working graph: every weight is as before. -/
theorem spurStep_gequiv {g0 : Graph} {t : Nat} {st : YState} {j : Nat}
    (hn : st.g.nodes.Nodup) : GEquiv (spurStep g0 t st j).g st.g := by
  rw [spurStep_g]
  refine ⟨?_, ?_, ?_⟩
  · rw [restoreEdges_directed, prunedGraph_directed]
  · rw [restoreEdges_nodes, prunedGraph_nodes]
  · exact pruned_restore st.paths (rootOf st j) j hn

theorem foldl_spurStep_lengths (g0 : Graph) (t : Nat) :
    ∀ (js : List Nat) (st : YState),
      (js.foldl (spurStep g0 t) st).lengths = st.lengths
  | [], _ => rfl
  | j :: js, st => by
    rw [List.foldl_cons, foldl_spurStep_lengths g0 t js, spurStep_lengths]

theorem foldl_spurStep_paths (g0 : Graph) (t : Nat) :
    ∀ (js : List Nat) (st : YState),
      (js.foldl (spurStep g0 t) st).paths = st.paths
  | [], _ => rfl
  | j :: js, st => by
    rw [List.foldl_cons, foldl_spurStep_paths g0 t js, spurStep_paths]

theorem foldl_spurStep_gequiv (g0 : Graph) (t : Nat) :
    ∀ (js : List Nat) (st : YState), st.g.nodes.Nodup →
      GEquiv (js.foldl (spurStep g0 t) st).g st.g
  | [], st, _ => GEquiv.refl st.g
  | j :: js, st, hn => by
    rw [List.foldl_cons]
    have hstep : GEquiv (spurStep g0 t st j).g st.g := spurStep_gequiv hn
    have hn2 : (spurStep g0 t st j).g.nodes.Nodup := by
      rw [hstep.2.1]
      exact hn
    exact (foldl_spurStep_gequiv g0 t js (spurStep g0 t st j) hn2).trans hstep

@[simp] theorem jLoop_lengths (g0 : Graph) (t : Nat) (st : YState) :
    (jLoop g0 t st).lengths = st.lengths := foldl_spurStep_lengths g0 t _ st

@[simp] theorem jLoop_paths (g0 : Graph) (t : Nat) (st : YState) :
    (jLoop g0 t st).paths = st.paths := foldl_spurStep_paths g0 t _ st

theorem jLoop_gequiv {g0 : Graph} {t : Nat} {st : YState}
    (hn : st.g.nodes.Nodup) : GEquiv (jLoop g0 t st).g st.g :=
  foldl_spurStep_gequiv g0 t _ st hn

/-- The main loop never changes the observable working graph: when
`k_shortest_paths` returns, every edge and weight of `G` is as on entry
(claim C5's backbone). -/
theorem mainLoop_gequiv (g0 : Graph) (t : Nat) :
    ∀ (fuel : Nat) (st : YState), st.g.nodes.Nodup →
      GEquiv (mainLoop g0 t fuel st).g st.g
  | 0, st, _ => GEquiv.refl st.g
  | fuel + 1, st, hn => by
    unfold mainLoop
    have hj : GEquiv (jLoop g0 t st).g st.g := jLoop_gequiv hn
    cases hext : extractMinB (jLoop g0 t st).B with
    | none => exact hj
    | some pr =>
      rcases pr with ⟨e, B2⟩
      dsimp only
      have hn2 : (jLoop g0 t st).g.nodes.Nodup := by
        rw [hj.2.1]
        exact hn
      exact (mainLoop_gequiv g0 t fuel
        { jLoop g0 t st with
          lengths := (jLoop g0 t st).lengths ++ [e.1]
          paths := (jLoop g0 t st).paths ++ [e.2.2]
          B := B2 } hn2).trans hj

/-! ## Paths: algebra of chains, costs, splitting and gluing -/

theorem edgeChainB_append (g : Graph) :
    ∀ (p : List Nat) (v : Nat) (q : List Nat),
      edgeChainB g (p ++ v :: q) = (edgeChainB g (p ++ [v]) && edgeChainB g (v :: q))
  | [], v, q => by simp [edgeChainB]
  | [u], v, q => by
    show edgeChainB g (u :: v :: q) = (edgeChainB g [u, v] && edgeChainB g (v :: q))
    show (g.hasEdge u v && edgeChainB g (v :: q)) =
      ((g.hasEdge u v && edgeChainB g [v]) && edgeChainB g (v :: q))
    show (g.hasEdge u v && edgeChainB g (v :: q)) =
      ((g.hasEdge u v && true) && edgeChainB g (v :: q))
    rw [Bool.and_true]
  | u :: w :: p, v, q => by
    show (g.hasEdge u w && edgeChainB g ((w :: p) ++ v :: q)) =
      ((g.hasEdge u w && edgeChainB g ((w :: p) ++ [v])) && edgeChainB g (v :: q))
    rw [edgeChainB_append g (w :: p) v q, Bool.and_assoc]

theorem getPathLength_append (g : Graph) :
    ∀ (p : List Nat) (v : Nat) (q : List Nat),
      getPathLength g (p ++ v :: q) =
        getPathLength g (p ++ [v]) + getPathLength g (v :: q)
  | [], v, q => by simp [getPathLength]
  | [u], v, q => by
    show (g.weight u v).getD 1 + getPathLength g (v :: q) =
      ((g.weight u v).getD 1 + getPathLength g [v]) + getPathLength g (v :: q)
    show (g.weight u v).getD 1 + getPathLength g (v :: q) =
      ((g.weight u v).getD 1 + 0) + getPathLength g (v :: q)
    omega
  | u :: w :: p, v, q => by
    show (g.weight u w).getD 1 + getPathLength g ((w :: p) ++ v :: q) =
      ((g.weight u w).getD 1 + getPathLength g ((w :: p) ++ [v])) + getPathLength g (v :: q)
    rw [getPathLength_append g (w :: p) v q]
    omega

theorem IsPath.ne_nil {g : Graph} {s t : Nat} {p : List Nat}
    (h : IsPath g s t p) : p ≠ [] := by
  intro hnil
  rw [hnil] at h
  cases h.1

theorem isPath_singleton {g : Graph} {s t a : Nat} :
    IsPath g s t [a] ↔ s = a ∧ t = a := by
  unfold IsPath
  constructor
  · rintro ⟨h1, h2, -⟩
    refine ⟨?_, ?_⟩
    · cases h1; rfl
    · rw [List.getLast?_singleton] at h2
      cases h2; rfl
  · rintro ⟨rfl, rfl⟩
    exact ⟨rfl, by rw [List.getLast?_singleton], rfl⟩

theorem isPath_refl (g : Graph) (a : Nat) : IsPath g a a [a] :=
  isPath_singleton.mpr ⟨rfl, rfl⟩

theorem IsPath.head {g : Graph} {s t : Nat} {p : List Nat}
    (h : IsPath g s t p) : p.getD 0 0 = s := by
  cases p with
  | nil => cases h.1
  | cons a p => cases h.1; rfl

theorem getLast_of_isPath {g : Graph} {s t : Nat} {p : List Nat}
    (h : IsPath g s t p) (hne : p ≠ []) : p.getLast hne = t := by
  have h2 := h.2.1
  rw [List.getLast?_eq_getLast p hne] at h2
  cases h2
  rfl

/-- Extending a path by one edge. -/
theorem IsPath.snoc {g : Graph} {s u y : Nat} {p : List Nat}
    (h : IsPath g s u p) (he : g.hasEdge u y = true) :
    IsPath g s y (p ++ [y]) := by
  have hne := h.ne_nil
  refine ⟨?_, ?_, ?_⟩
  · rw [List.head?_append_of_ne_nil _ hne]
    exact h.1
  · rw [List.getLast?_append_of_ne_nil _ (by simp)]
    rfl
  · have hsplit : p ++ [y] = p.dropLast ++ u :: [y] := by
      conv_lhs => rw [← List.dropLast_append_getLast hne, getLast_of_isPath h hne]
      rw [List.append_assoc]
      rfl
    rw [hsplit, edgeChainB_append g p.dropLast u [y]]
    have hp : p.dropLast ++ [u] = p := by
      conv_rhs => rw [← List.dropLast_append_getLast hne, getLast_of_isPath h hne]
    rw [hp]
    have hchain : edgeChainB g (u :: [y]) = g.hasEdge u y := by
      show (g.hasEdge u y && true) = g.hasEdge u y
      rw [Bool.and_true]
    rw [hchain, h.2.2, he]
    rfl

theorem cost_snoc {g : Graph} {s u y : Nat} {p : List Nat}
    (h : IsPath g s u p) :
    getPathLength g (p ++ [y]) = getPathLength g p + (g.weight u y).getD 1 := by
  have hne := h.ne_nil
  have hsplit : p ++ [y] = p.dropLast ++ u :: [y] := by
    conv_lhs => rw [← List.dropLast_append_getLast hne, getLast_of_isPath h hne]
    rw [List.append_assoc]
    rfl
  rw [hsplit, getPathLength_append g p.dropLast u [y]]
  have hp : p.dropLast ++ [u] = p := by
    conv_rhs => rw [← List.dropLast_append_getLast hne, getLast_of_isPath h hne]
  rw [hp]
  show getPathLength g p + ((g.weight u y).getD 1 + 0) = _
  omega

/-- Gluing two paths at a common middle node: the splice
`p1[:-1] + p2` used by the Controller. -/
theorem IsPath.glue {g : Graph} {s m t : Nat} {p1 p2 : List Nat}
    (h1 : IsPath g s m p1) (h2 : IsPath g m t p2) :
    IsPath g s t (p1.dropLast ++ p2) := by
  have hne1 := h1.ne_nil
  have hne2 := h2.ne_nil
  cases p2 with
  | nil => cases hne2 rfl
  | cons m2 q =>
    have hm2 : m = m2 := (Option.some.inj h2.1).symm
    subst hm2
    by_cases hp1 : p1.dropLast = []
    · rw [hp1, List.nil_append]
      have hsm : s = m := by
        cases p1 with
        | nil => cases hne1 rfl
        | cons a p1t =>
          cases h1.1
          cases p1t with
          | nil =>
            have := (isPath_singleton.mp h1).2
            rw [this]
          | cons b r => cases hp1
      rw [hsm]
      exact h2
    · refine ⟨?_, ?_, ?_⟩
      · rw [List.head?_append_of_ne_nil _ hp1]
        have : p1.dropLast.head? = p1.head? := by
          cases p1 with
          | nil => cases hne1 rfl
          | cons a p1t =>
            cases p1t with
            | nil => cases hp1 rfl
            | cons b r => rfl
        rw [this]
        exact h1.1
      · rw [List.getLast?_append_of_ne_nil _ hne2]
        exact h2.2.1
      · have hsplit : p1.dropLast ++ m :: q = (p1.dropLast ++ [m]) ++ q := by
          rw [List.append_assoc]
          rfl
        have hp : p1.dropLast ++ [m] = p1 := by
          conv_rhs => rw [← List.dropLast_append_getLast hne1, getLast_of_isPath h1 hne1]
        rw [edgeChainB_append g p1.dropLast m q, hp, h1.2.2, h2.2.2]
        rfl

theorem cost_glue {g : Graph} {s m t : Nat} {p1 p2 : List Nat}
    (h1 : IsPath g s m p1) (h2 : IsPath g m t p2) :
    getPathLength g (p1.dropLast ++ p2) =
      getPathLength g p1 + getPathLength g p2 := by
  have hne1 := h1.ne_nil
  have hne2 := h2.ne_nil
  cases p2 with
  | nil => cases hne2 rfl
  | cons m2 q =>
    have hm2 : m = m2 := (Option.some.inj h2.1).symm
    subst hm2
    rw [getPathLength_append g p1.dropLast m q]
    have hp : p1.dropLast ++ [m] = p1 := by
      conv_rhs => rw [← List.dropLast_append_getLast hne1, getLast_of_isPath h1 hne1]
    rw [hp]

theorem IsPath.cons {g : Graph} {a b t : Nat} {q : List Nat}
    (he : g.hasEdge a b = true) (h : IsPath g b t q) : IsPath g a t (a :: q) := by
  cases q with
  | nil => cases h.1
  | cons b2 q2 =>
    have hb0 : some b2 = some b := h.1
    have hb : b = b2 := (Option.some.inj hb0).symm
    subst hb
    refine ⟨rfl, ?_, ?_⟩
    · rw [List.getLast?_cons_cons]
      exact h.2.1
    · show (g.hasEdge a b && edgeChainB g (b :: q2)) = true
      rw [he, h.2.2]
      rfl

theorem isPath_tail {g : Graph} {s t a b : Nat} {q : List Nat}
    (h : IsPath g s t (a :: b :: q)) :
    IsPath g b t (b :: q) ∧ g.hasEdge a b = true ∧ s = a := by
  have hs : s = a := (Option.some.inj h.1).symm
  have hchain : (g.hasEdge a b && edgeChainB g (b :: q)) = true := h.2.2
  have hedge : g.hasEdge a b = true := (Bool.and_eq_true _ _).mp hchain |>.1
  have hrest : edgeChainB g (b :: q) = true := (Bool.and_eq_true _ _).mp hchain |>.2
  refine ⟨⟨rfl, ?_, hrest⟩, hedge, hs⟩
  · have hlast := h.2.1
    rw [List.getLast?_cons_cons] at hlast
    exact hlast

theorem cost_cons_head {g : Graph} (a b : Nat) (q : List Nat) :
    getPathLength g (a :: b :: q) =
      (g.weight a b).getD 1 + getPathLength g (b :: q) := rfl

theorem isPath_take {g : Graph} :
    ∀ (r : Nat) (p : List Nat) (s t : Nat), IsPath g s t p → r < p.length →
      IsPath g s (p.getD r 0) (p.take (r + 1))
  | 0, p, s, t, h, hr => by
    cases p with
    | nil => cases h.1
    | cons a q =>
      have hs : s = a := (Option.some.inj h.1).symm
      subst hs
      show IsPath g s s (s :: [])
      exact isPath_refl g s
  | r + 1, p, s, t, h, hr => by
    cases p with
    | nil => cases h.1
    | cons a q =>
      cases q with
      | nil => cases hr with
        | step hstep => cases hstep
      | cons b q2 =>
        rcases isPath_tail h with ⟨htail, hedge, hs⟩
        subst hs
        have hr2 : r < (b :: q2).length := by
          have := Nat.lt_of_succ_lt_succ hr
          exact this
        have hrec := isPath_take r (b :: q2) b t htail hr2
        show IsPath g s ((b :: q2).getD r 0) (s :: (b :: q2).take (r + 1))
        exact hrec.cons hedge

theorem isPath_drop {g : Graph} :
    ∀ (r : Nat) (p : List Nat) (s t : Nat), IsPath g s t p → r < p.length →
      IsPath g (p.getD r 0) t (p.drop r)
  | 0, p, s, t, h, hr => by
    cases p with
    | nil => cases h.1
    | cons a q =>
      have hs : s = a := (Option.some.inj h.1).symm
      subst hs
      exact h
  | r + 1, p, s, t, h, hr => by
    cases p with
    | nil => cases h.1
    | cons a q =>
      cases q with
      | nil => cases hr with
        | step hstep => cases hstep
      | cons b q2 =>
        rcases isPath_tail h with ⟨htail, hedge, hs⟩
        exact isPath_drop r (b :: q2) b t htail (Nat.lt_of_succ_lt_succ hr)

theorem cost_take_drop {g : Graph} :
    ∀ (r : Nat) (p : List Nat) (s t : Nat), IsPath g s t p → r < p.length →
      getPathLength g p =
        getPathLength g (p.take (r + 1)) + getPathLength g (p.drop r)
  | 0, p, s, t, h, hr => by
    cases p with
    | nil => cases h.1
    | cons a q =>
      show getPathLength g (a :: q) =
        getPathLength g (a :: []) + getPathLength g (a :: q)
      show getPathLength g (a :: q) = 0 + getPathLength g (a :: q)
      omega
  | r + 1, p, s, t, h, hr => by
    cases p with
    | nil => cases h.1
    | cons a q =>
      cases q with
      | nil => cases hr with
        | step hstep => cases hstep
      | cons b q2 =>
        rcases isPath_tail h with ⟨htail, hedge, hs⟩
        have hrec := cost_take_drop r (b :: q2) b t htail (Nat.lt_of_succ_lt_succ hr)
        show getPathLength g (a :: b :: q2) =
          getPathLength g (a :: (b :: q2).take (r + 1)) + getPathLength g ((b :: q2).drop r)
        have h1 : getPathLength g (a :: b :: q2) =
            (g.weight a b).getD 1 + getPathLength g (b :: q2) := rfl
        have h2 : getPathLength g (a :: (b :: q2).take (r + 1)) =
            (g.weight a b).getD 1 + getPathLength g ((b :: q2).take (r + 1)) := by
          show getPathLength g (a :: b :: (q2.take r)) = _
          rfl
        omega

/-- Every node of a path other than its possibly-isolated single start
lies on an edge, hence among the graph nodes. -/
theorem isPath_mem_nodes {g : Graph} (hw : WeightWF g) :
    ∀ (p : List Nat) (s t : Nat), IsPath g s t p → 2 ≤ p.length →
      ∀ x ∈ p, x ∈ g.nodes
  | [], _, _, h, _ => by cases h.1
  | [a], _, _, _, hlen => by
    exfalso
    exact absurd hlen (by simp)
  | a :: b :: q, s, t, h, _ => by
    intro x hx
    rcases isPath_tail h with ⟨htail, hedge, hs⟩
    have hsome : ∃ w, g.weight a b = some w := by
      unfold Graph.hasEdge at hedge
      cases hab : g.weight a b with
      | none => rw [hab] at hedge; cases hedge
      | some w => exact ⟨w, rfl⟩
    rcases hsome with ⟨w, hab⟩
    rcases List.mem_cons.mp hx with rfl | hx2
    · exact (hw x b w hab).1
    cases q with
    | nil =>
      rcases List.mem_singleton.mp hx2 with rfl
      exact (hw a x w hab).2
    | cons c q2 =>
      exact isPath_mem_nodes hw (b :: c :: q2) b t htail (by simp) x hx2

/-- `g2` is a subgraph of `g` at the weight level. -/
def Subw (g2 g : Graph) : Prop :=
  ∀ a b w, g2.weight a b = some w → g.weight a b = some w

theorem subw_pruned {paths : List (List Nat)} {root : List Nat} {j : Nat}
    {g : Graph} (hw : WeightWF g) : Subw (prunedGraph paths root j g) g :=
  fun _ _ _ h => prunedGraph_weight_some hw h

theorem edgeChainB_sub {g2 g : Graph} (hs : Subw g2 g) :
    ∀ p, edgeChainB g2 p = true → edgeChainB g p = true
  | [] => fun _ => rfl
  | [_] => fun _ => rfl
  | a :: b :: q => by
    intro h
    have hsplit := (Bool.and_eq_true _ _).mp h
    have hedge : g.hasEdge a b = true := by
      unfold Graph.hasEdge at hsplit ⊢
      cases hab : g2.weight a b with
      | none => rw [hab] at hsplit; cases hsplit.1
      | some w => rw [hs a b w hab]; rfl
    show (g.hasEdge a b && edgeChainB g (b :: q)) = true
    rw [hedge, edgeChainB_sub hs (b :: q) hsplit.2]
    rfl

theorem isPath_sub {g2 g : Graph} (hs : Subw g2 g) {s t : Nat} {p : List Nat}
    (h : IsPath g2 s t p) : IsPath g s t p :=
  ⟨h.1, h.2.1, edgeChainB_sub hs p h.2.2⟩

theorem cost_sub {g2 g : Graph} (hs : Subw g2 g) :
    ∀ (p : List Nat), edgeChainB g2 p = true →
      getPathLength g2 p = getPathLength g p
  | [] => fun _ => rfl
  | [_] => fun _ => rfl
  | a :: b :: q => by
    intro h
    have hsplit := (Bool.and_eq_true _ _).mp h
    have hw : g2.weight a b = g.weight a b := by
      unfold Graph.hasEdge at hsplit
      cases hab : g2.weight a b with
      | none => rw [hab] at hsplit; cases hsplit.1
      | some w => rw [hs a b w hab]
    show (g2.weight a b).getD 1 + getPathLength g2 (b :: q) =
      (g.weight a b).getD 1 + getPathLength g (b :: q)
    rw [hw, cost_sub hs (b :: q) hsplit.2]

theorem edgeChainB_congr2 {g1 g2 : Graph}
    (hq : ∀ a b, g1.weight a b = g2.weight a b) :
    ∀ p, edgeChainB g1 p = edgeChainB g2 p
  | [] => rfl
  | [_] => rfl
  | a :: b :: q => by
    show (g1.hasEdge a b && edgeChainB g1 (b :: q)) =
      (g2.hasEdge a b && edgeChainB g2 (b :: q))
    unfold Graph.hasEdge
    rw [hq a b, edgeChainB_congr2 hq (b :: q)]

theorem isPath_congr2 {g1 g2 : Graph}
    (hq : ∀ a b, g1.weight a b = g2.weight a b) {s t : Nat} {p : List Nat} :
    IsPath g1 s t p ↔ IsPath g2 s t p := by
  unfold IsPath
  rw [edgeChainB_congr2 hq p]

theorem getPathLength_congr2 {g1 g2 : Graph}
    (hq : ∀ a b, g1.weight a b = g2.weight a b) :
    ∀ p, getPathLength g1 p = getPathLength g2 p
  | [] => rfl
  | [_] => rfl
  | a :: b :: q => by
    show (g1.weight a b).getD 1 + getPathLength g1 (b :: q) =
      (g2.weight a b).getD 1 + getPathLength g2 (b :: q)
    rw [hq a b, getPathLength_congr2 hq (b :: q)]

/-! ## The oracle: frontier primitives -/

/-- The node keys of a settled or frontier list. -/
def keysOf (F : List DEntry) : List Nat := F.map fun e => e.1

theorem keysOf_nil : keysOf [] = [] := rfl

theorem keysOf_append (F1 F2 : List DEntry) :
    keysOf (F1 ++ F2) = keysOf F1 ++ keysOf F2 := List.map_append _ F1 F2

theorem mem_keysOf {F : List DEntry} {k : Nat} :
    k ∈ keysOf F ↔ ∃ e ∈ F, e.1 = k := by
  unfold keysOf
  simp

theorem nodup_keys_eq :
    ∀ {F : List DEntry}, (keysOf F).Nodup →
      ∀ e1 ∈ F, ∀ e2 ∈ F, e1.1 = e2.1 → e1 = e2
  | [], _, e1, h1, _, _, _ => absurd h1 (List.not_mem_nil e1)
  | f :: F, hnd, e1, h1, e2, h2, hk => by
    have hnd2 : (keysOf F).Nodup := (List.nodup_cons.mp hnd).2
    have hfresh : f.1 ∉ keysOf F := (List.nodup_cons.mp hnd).1
    rcases List.mem_cons.mp h1 with rfl | h1' <;>
      rcases List.mem_cons.mp h2 with rfl | h2'
    · rfl
    · exact absurd (mem_keysOf.mpr ⟨e2, h2', hk.symm⟩) hfresh
    · exact absurd (mem_keysOf.mpr ⟨e1, h1', hk⟩) hfresh
    · exact nodup_keys_eq hnd2 e1 h1' e2 h2' hk

theorem extractMin_none_iff {F : List DEntry} :
    extractMin F = none ↔ F = [] := by
  cases F with
  | nil => simp [extractMin]
  | cons e rest =>
    constructor
    · intro h
      unfold extractMin at h
      cases hrec : extractMin rest with
      | none => rw [hrec] at h; cases h
      | some pr => rw [hrec] at h; dsimp only at h; split at h <;> cases h
    · intro h; cases h

theorem extractMin_perm :
    ∀ {F : List DEntry} {e : DEntry} {F2 : List DEntry},
      extractMin F = some (e, F2) → F.Perm (e :: F2)
  | [], e, F2, h => by cases h
  | f :: rest, e, F2, h => by
    unfold extractMin at h
    cases hrec : extractMin rest with
    | none =>
      rw [hrec] at h
      cases h
      rw [extractMin_none_iff.mp hrec]
    | some pr =>
      rcases pr with ⟨m, rest2⟩
      rw [hrec] at h
      dsimp only at h
      have hperm : rest.Perm (m :: rest2) := extractMin_perm hrec
      split at h
      · cases h
        exact List.Perm.refl _
      · cases h
        exact List.Perm.trans (hperm.cons f) (List.Perm.swap e f rest2)

theorem extractMin_min :
    ∀ {F : List DEntry} {e : DEntry} {F2 : List DEntry},
      extractMin F = some (e, F2) → ∀ x ∈ F, e.2.1 ≤ x.2.1
  | [], e, F2, h => by cases h
  | f :: rest, e, F2, h => by
    unfold extractMin at h
    cases hrec : extractMin rest with
    | none =>
      rw [hrec] at h
      cases h
      intro x hx
      rcases List.mem_cons.mp hx with rfl | hx'
      · exact Nat.le_refl _
      · rw [extractMin_none_iff.mp hrec] at hx'
        cases hx'
    | some pr =>
      rcases pr with ⟨m, rest2⟩
      rw [hrec] at h
      dsimp only at h
      have hmin : ∀ x ∈ rest, m.2.1 ≤ x.2.1 := extractMin_min hrec
      split at h
      · cases h
        intro x hx
        rcases List.mem_cons.mp hx with rfl | hx'
        · exact Nat.le_refl _
        · rename_i hle
          exact Nat.le_trans hle (hmin x hx')
      · cases h
        intro x hx
        rcases List.mem_cons.mp hx with rfl | hx'
        · rename_i hgt
          omega
        · exact hmin x hx'

theorem extractMin_mem {F : List DEntry} {e : DEntry} {F2 : List DEntry}
    (h : extractMin F = some (e, F2)) : e ∈ F :=
  (extractMin_perm h).symm.subset (List.mem_cons_self e F2)

theorem extractMin_sub {F : List DEntry} {e : DEntry} {F2 : List DEntry}
    (h : extractMin F = some (e, F2)) : ∀ x ∈ F2, x ∈ F :=
  fun _ hx => (extractMin_perm h).symm.subset (List.mem_cons_of_mem e hx)

/-! ### updateFrontier -/

theorem uf_mem {F : List DEntry} {v d : Nat} {p : List Nat} :
    ∀ e2 ∈ updateFrontier F v d p, e2 ∈ F ∨ e2 = (v, d, p) := by
  intro e2 he2
  unfold updateFrontier at he2
  cases hf : F.find? fun e => e.1 = v with
  | none =>
    rw [hf] at he2
    rcases List.mem_append.mp he2 with h | h
    · exact Or.inl h
    · exact Or.inr (List.mem_singleton.mp h)
  | some f0 =>
    rw [hf] at he2
    dsimp only at he2
    split at he2
    · rcases List.mem_map.mp he2 with ⟨e0, he0, heq⟩
      by_cases hk : e0.1 = v
      · rw [if_pos (by simpa using hk)] at heq
        exact Or.inr heq.symm
      · rw [if_neg (by simpa using hk)] at heq
        exact Or.inl (heq ▸ he0)
    · exact Or.inl he2

theorem keysOf_uf {F : List DEntry} {v d : Nat} {p : List Nat} :
    keysOf (updateFrontier F v d p) =
      if (F.find? fun e => e.1 = v).isSome then keysOf F else keysOf F ++ [v] := by
  unfold updateFrontier
  cases hf : F.find? fun e => e.1 = v with
  | none =>
    rw [keysOf_append]
    rfl
  | some f0 =>
    dsimp only
    split
    · unfold keysOf
      rw [List.map_map]
      apply List.map_congr_left
      intro e _
      by_cases hk : e.1 = v
      · simp only [Function.comp]
        rw [if_pos (by simpa using hk)]
        exact hk.symm
      · simp only [Function.comp]
        rw [if_neg (by simpa using hk)]
    · rfl

theorem keysOf_uf_sup {F : List DEntry} {v d : Nat} {p : List Nat} :
    ∀ k ∈ keysOf F, k ∈ keysOf (updateFrontier F v d p) := by
  intro k hk
  rw [keysOf_uf]
  split
  · exact hk
  · exact List.mem_append.mpr (Or.inl hk)

theorem keysOf_uf_mem_v {F : List DEntry} {v d : Nat} {p : List Nat} :
    v ∈ keysOf (updateFrontier F v d p) := by
  rw [keysOf_uf]
  cases hf : F.find? fun e => e.1 = v with
  | none =>
    rw [if_neg (by simp)]
    exact List.mem_append.mpr (Or.inr (List.mem_singleton.mpr rfl))
  | some f0 =>
    rw [if_pos (by rfl)]
    have hfk : f0.1 = v := by
      have := List.find?_some hf
      simpa using this
    exact mem_keysOf.mpr ⟨f0, List.mem_of_find?_eq_some hf, hfk⟩

theorem keysOf_uf_nodup {F : List DEntry} {v d : Nat} {p : List Nat}
    (hnd : (keysOf F).Nodup) : (keysOf (updateFrontier F v d p)).Nodup := by
  rw [keysOf_uf]
  cases hf : F.find? fun e => e.1 = v with
  | none =>
    rw [if_neg (by simp)]
    have hv : v ∉ keysOf F := by
      intro hcon
      rcases mem_keysOf.mp hcon with ⟨e0, he0, hk0⟩
      have := List.find?_eq_none.mp hf e0 he0
      simp [hk0] at this
    simp only [List.nodup_append]
    exact ⟨hnd, List.nodup_singleton v, by
      intro a ha hb
      rcases List.mem_singleton.mp hb with rfl
      exact hv ha⟩
  | some f0 =>
    rw [if_pos (by rfl)]
    exact hnd

theorem uf_persist {F : List DEntry} {v d : Nat} {p : List Nat}
    (hnd : (keysOf F).Nodup) :
    ∀ e0 ∈ F, ∃ e2 ∈ updateFrontier F v d p, e2.1 = e0.1 ∧ e2.2.1 ≤ e0.2.1 := by
  intro e0 he0
  unfold updateFrontier
  cases hf : F.find? fun e => e.1 = v with
  | none =>
    exact ⟨e0, List.mem_append.mpr (Or.inl he0), rfl, Nat.le_refl _⟩
  | some f0 =>
    dsimp only
    split
    · rename_i hlt
      by_cases hk : e0.1 = v
      · have hff : f0 ∈ F := List.mem_of_find?_eq_some hf
        have hfk : f0.1 = v := by
          have := List.find?_some hf
          simpa using this
        have hef : e0 = f0 := nodup_keys_eq hnd e0 he0 f0 hff (by rw [hk, hfk])
        refine ⟨(v, d, p), ?_, ?_, ?_⟩
        · rcases List.mem_map.mp (List.mem_map_of_mem
            (fun e2 => if e2.1 = v then (v, d, p) else e2) he0) with ⟨-, -, -⟩
          exact List.mem_map.mpr ⟨e0, he0, by rw [if_pos (by simpa using hk)]⟩
        · rw [hk]
        · rw [hef]
          exact Nat.le_of_lt hlt
      · refine ⟨e0, List.mem_map.mpr ⟨e0, he0, by rw [if_neg (by simpa using hk)]⟩,
          rfl, Nat.le_refl _⟩
    · exact ⟨e0, he0, rfl, Nat.le_refl _⟩

theorem uf_key_le {F : List DEntry} {v d : Nat} {p : List Nat}
    (hnd : (keysOf F).Nodup) :
    ∀ e2 ∈ updateFrontier F v d p, e2.1 = v → e2.2.1 ≤ d := by
  intro e2 he2 hk2
  unfold updateFrontier at he2
  cases hf : F.find? fun e => e.1 = v with
  | none =>
    rw [hf] at he2
    rcases List.mem_append.mp he2 with h | h
    · have hcontra := List.find?_eq_none.mp hf e2 h
      simp [hk2] at hcontra
    · rcases List.mem_singleton.mp h with rfl
      exact Nat.le_refl _
  | some f0 =>
    rw [hf] at he2
    dsimp only at he2
    have hff : f0 ∈ F := List.mem_of_find?_eq_some hf
    have hfk : f0.1 = v := by
      have := List.find?_some hf
      simpa using this
    split at he2
    · rename_i hlt
      rcases List.mem_map.mp he2 with ⟨e0, he0, heq⟩
      by_cases hk : e0.1 = v
      · rw [if_pos (by simpa using hk)] at heq
        cases heq
        exact Nat.le_refl d
      · rw [if_neg (by simpa using hk)] at heq
        cases heq
        exact absurd hk2 hk
    · rename_i hge
      have hef : e2 = f0 := nodup_keys_eq hnd e2 he2 f0 hff (by rw [hk2, hfk])
      rw [hef]
      omega

theorem uf_mono {F : List DEntry} {v d : Nat} {p : List Nat}
    (hnd : (keysOf F).Nodup) :
    ∀ e2 ∈ updateFrontier F v d p, ∀ e0 ∈ F, e2.1 = e0.1 → e2.2.1 ≤ e0.2.1 := by
  intro e2 he2 e0 he0 hkeq
  unfold updateFrontier at he2
  cases hf : F.find? fun e => e.1 = v with
  | none =>
    rw [hf] at he2
    rcases List.mem_append.mp he2 with h | h
    · rw [nodup_keys_eq hnd e2 h e0 he0 hkeq]
    · rcases List.mem_singleton.mp h with rfl
      exact absurd (by simpa using hkeq.symm)
        (by simpa using List.find?_eq_none.mp hf e0 he0)
  | some f0 =>
    rw [hf] at he2
    dsimp only at he2
    have hff : f0 ∈ F := List.mem_of_find?_eq_some hf
    have hfk : f0.1 = v := by
      have := List.find?_some hf
      simpa using this
    split at he2
    · rename_i hlt
      rcases List.mem_map.mp he2 with ⟨e1, he1, heq⟩
      by_cases hk : e1.1 = v
      · rw [if_pos (by simpa using hk)] at heq
        have hk2 : e2.1 = v := by rw [← heq]
        have hef : e0 = f0 := nodup_keys_eq hnd e0 he0 f0 hff (by rw [← hkeq, hk2, hfk])
        rw [← heq, hef]
        exact Nat.le_of_lt hlt
      · rw [if_neg (by simpa using hk)] at heq
        have he2f : e2 = e1 := heq.symm
        rw [he2f] at hkeq ⊢
        rw [nodup_keys_eq hnd e1 he1 e0 he0 hkeq]
    · rw [nodup_keys_eq hnd e2 he2 e0 he0 hkeq]

/-! ### relaxAll -/

/-- One relaxation step, as folded by `relaxAll`. -/
def rStep (S : List DEntry) (d : Nat) (p : List Nat)
    (F2 : List DEntry) (vw : Nat × Nat) : List DEntry :=
  if S.any fun e => e.1 = vw.1 then F2
  else updateFrontier F2 vw.1 (d + vw.2) (p ++ [vw.1])

theorem relaxAll_eq (g : Graph) (S : List DEntry) (d : Nat) (p : List Nat)
    (F : List DEntry) (u : Nat) :
    relaxAll g S d p F u = (g.outEdges u).foldl (rStep S d p) F := rfl

theorem rStep_mem {S : List DEntry} {d : Nat} {p : List Nat}
    {F : List DEntry} {vw : Nat × Nat} :
    ∀ e2 ∈ rStep S d p F vw, e2 ∈ F ∨
      ((S.any fun e => e.1 = vw.1) = false ∧ e2 = (vw.1, d + vw.2, p ++ [vw.1])) := by
  intro e2 he2
  unfold rStep at he2
  by_cases hany : (S.any fun e => e.1 = vw.1) = true
  · rw [if_pos hany] at he2
    exact Or.inl he2
  · rw [if_neg hany] at he2
    rcases uf_mem e2 he2 with h | h
    · exact Or.inl h
    · exact Or.inr ⟨Bool.eq_false_iff.mpr hany, h⟩

theorem rStep_nodup {S : List DEntry} {d : Nat} {p : List Nat}
    {F : List DEntry} {vw : Nat × Nat} (hnd : (keysOf F).Nodup) :
    (keysOf (rStep S d p F vw)).Nodup := by
  unfold rStep
  split
  · exact hnd
  · exact keysOf_uf_nodup hnd

theorem rStep_keys_sup {S : List DEntry} {d : Nat} {p : List Nat}
    {F : List DEntry} {vw : Nat × Nat} :
    ∀ k ∈ keysOf F, k ∈ keysOf (rStep S d p F vw) := by
  intro k hk
  unfold rStep
  split
  · exact hk
  · exact keysOf_uf_sup k hk

theorem rfold_mem {S : List DEntry} {d : Nat} {p : List Nat} :
    ∀ (L : List (Nat × Nat)) (F : List DEntry),
      ∀ e2 ∈ L.foldl (rStep S d p) F, e2 ∈ F ∨
        ∃ vw ∈ L, (S.any fun e => e.1 = vw.1) = false ∧
          e2 = (vw.1, d + vw.2, p ++ [vw.1])
  | [], F, e2, he2 => Or.inl he2
  | vw :: L, F, e2, he2 => by
    rw [List.foldl_cons] at he2
    rcases rfold_mem L (rStep S d p F vw) e2 he2 with h | ⟨vw2, hvw2, hc, heq⟩
    · rcases rStep_mem e2 h with h2 | ⟨hc, heq⟩
      · exact Or.inl h2
      · exact Or.inr ⟨vw, List.mem_cons_self vw L, hc, heq⟩
    · exact Or.inr ⟨vw2, List.mem_cons_of_mem vw hvw2, hc, heq⟩

theorem rfold_nodup {S : List DEntry} {d : Nat} {p : List Nat} :
    ∀ (L : List (Nat × Nat)) (F : List DEntry), (keysOf F).Nodup →
      (keysOf (L.foldl (rStep S d p) F)).Nodup
  | [], _, hnd => hnd
  | vw :: L, F, hnd => by
    rw [List.foldl_cons]
    exact rfold_nodup L (rStep S d p F vw) (rStep_nodup hnd)

theorem rfold_keys_sup {S : List DEntry} {d : Nat} {p : List Nat} :
    ∀ (L : List (Nat × Nat)) (F : List DEntry),
      ∀ k ∈ keysOf F, k ∈ keysOf (L.foldl (rStep S d p) F)
  | [], _, k, hk => hk
  | vw :: L, F, k, hk => by
    rw [List.foldl_cons]
    exact rfold_keys_sup L (rStep S d p F vw) k (rStep_keys_sup k hk)

theorem rfold_persist {S : List DEntry} {d : Nat} {p : List Nat} :
    ∀ (L : List (Nat × Nat)) (F : List DEntry), (keysOf F).Nodup →
      ∀ e0 ∈ F, ∃ e2 ∈ L.foldl (rStep S d p) F, e2.1 = e0.1 ∧ e2.2.1 ≤ e0.2.1
  | [], _, _, e0, he0 => ⟨e0, he0, rfl, Nat.le_refl _⟩
  | vw :: L, F, hnd, e0, he0 => by
    rw [List.foldl_cons]
    have hstep : ∃ e1 ∈ rStep S d p F vw, e1.1 = e0.1 ∧ e1.2.1 ≤ e0.2.1 := by
      unfold rStep
      split
      · exact ⟨e0, he0, rfl, Nat.le_refl _⟩
      · exact uf_persist hnd e0 he0
    rcases hstep with ⟨e1, he1, hk1, hd1⟩
    rcases rfold_persist L (rStep S d p F vw) (rStep_nodup hnd) e1 he1 with
      ⟨e2, he2, hk2, hd2⟩
    exact ⟨e2, he2, hk2.trans hk1, hd2.trans hd1⟩

theorem uf_bound {F : List DEntry} {v d : Nat} {p : List Nat} {k c : Nat}
    (_hnd : (keysOf F).Nodup) (hk : k ∈ keysOf F)
    (hb : ∀ e2 ∈ F, e2.1 = k → e2.2.1 ≤ c) :
    ∀ e2 ∈ updateFrontier F v d p, e2.1 = k → e2.2.1 ≤ c := by
  intro e2 he2 hk2
  unfold updateFrontier at he2
  cases hf : F.find? fun e => e.1 = v with
  | none =>
    rw [hf] at he2
    rcases List.mem_append.mp he2 with h | h
    · exact hb e2 h hk2
    · rcases List.mem_singleton.mp h with rfl
      rcases mem_keysOf.mp hk with ⟨e0, he0, hk0⟩
      have := List.find?_eq_none.mp hf e0 he0
      rw [hk0, ← hk2] at this
      simp at this
  | some f0 =>
    rw [hf] at he2
    dsimp only at he2
    have hff : f0 ∈ F := List.mem_of_find?_eq_some hf
    have hfk : f0.1 = v := by
      have := List.find?_some hf
      simpa using this
    split at he2
    · rename_i hlt
      rcases List.mem_map.mp he2 with ⟨e1, he1, heq⟩
      by_cases hk1 : e1.1 = v
      · rw [if_pos (by simpa using hk1)] at heq
        cases heq
        have hvk : v = k := hk2
        have hf0b : f0.2.1 ≤ c := hb f0 hff (by rw [hfk, hvk])
        exact Nat.le_trans (Nat.le_of_lt hlt) hf0b
      · rw [if_neg (by simpa using hk1)] at heq
        cases heq
        exact hb _ he1 hk2
    · exact hb e2 he2 hk2

theorem rStep_bound {S : List DEntry} {d : Nat} {p : List Nat}
    {F : List DEntry} {vw : Nat × Nat} {k c : Nat}
    (hnd : (keysOf F).Nodup) (hk : k ∈ keysOf F)
    (hb : ∀ e2 ∈ F, e2.1 = k → e2.2.1 ≤ c) :
    ∀ e2 ∈ rStep S d p F vw, e2.1 = k → e2.2.1 ≤ c := by
  unfold rStep
  split
  · exact hb
  · exact uf_bound hnd hk hb

theorem rfold_bound {S : List DEntry} {d : Nat} {p : List Nat} {k c : Nat} :
    ∀ (L : List (Nat × Nat)) (F : List DEntry), (keysOf F).Nodup →
      k ∈ keysOf F → (∀ e2 ∈ F, e2.1 = k → e2.2.1 ≤ c) →
      ∀ e2 ∈ L.foldl (rStep S d p) F, e2.1 = k → e2.2.1 ≤ c
  | [], _, _, _, hb => hb
  | vw :: L, F, hnd, hk, hb => by
    rw [List.foldl_cons]
    exact rfold_bound L (rStep S d p F vw) (rStep_nodup hnd)
      (rStep_keys_sup k hk) (rStep_bound hnd hk hb)

/-- Every out-neighbour offered by the relaxation has, in the resulting
frontier, a tentative distance at most `d` plus the edge weight. -/
theorem rfold_key_le {S : List DEntry} {d : Nat} {p : List Nat}
    {L : List (Nat × Nat)} {F : List DEntry} (hnd : (keysOf F).Nodup)
    {vw : Nat × Nat} (hvw : vw ∈ L)
    (hout : (S.any fun e => e.1 = vw.1) = false) :
    ∀ e2 ∈ L.foldl (rStep S d p) F, e2.1 = vw.1 → e2.2.1 ≤ d + vw.2 := by
  rcases List.append_of_mem hvw with ⟨L1, L2, rfl⟩
  rw [List.foldl_append, List.foldl_cons]
  have hnd1 : (keysOf (L1.foldl (rStep S d p) F)).Nodup := rfold_nodup L1 F hnd
  have hstep : ∀ e2 ∈ rStep S d p (L1.foldl (rStep S d p) F) vw,
      e2.1 = vw.1 → e2.2.1 ≤ d + vw.2 := by
    unfold rStep
    rw [if_neg (by rw [hout]; exact fun hcon => nomatch hcon)]
    exact uf_key_le hnd1
  have hkmem : vw.1 ∈ keysOf (rStep S d p (L1.foldl (rStep S d p) F) vw) := by
    unfold rStep
    rw [if_neg (by rw [hout]; exact fun hcon => nomatch hcon)]
    exact keysOf_uf_mem_v
  exact rfold_bound L2 _ (rStep_nodup hnd1) hkmem hstep

/-- Every out-neighbour offered by the relaxation is afterwards settled or
on the frontier. -/
theorem rfold_cover {S : List DEntry} {d : Nat} {p : List Nat}
    {L : List (Nat × Nat)} {F : List DEntry}
    {vw : Nat × Nat} (hvw : vw ∈ L)
    (hout : (S.any fun e => e.1 = vw.1) = false) :
    vw.1 ∈ keysOf (L.foldl (rStep S d p) F) := by
  rcases List.append_of_mem hvw with ⟨L1, L2, rfl⟩
  rw [List.foldl_append, List.foldl_cons]
  have hkmem : vw.1 ∈ keysOf (rStep S d p (L1.foldl (rStep S d p) F) vw) := by
    unfold rStep
    rw [if_neg (by rw [hout]; exact fun hcon => nomatch hcon)]
    exact keysOf_uf_mem_v
  exact rfold_keys_sup L2 _ vw.1 hkmem

/-! ### The Dijkstra invariant -/

theorem keys_any_false {F : List DEntry} {v : Nat} :
    (F.any fun e => e.1 = v) = false ↔ v ∉ keysOf F := by
  rw [List.any_eq_false]
  constructor
  · intro h hv
    rcases mem_keysOf.mp hv with ⟨e, he, hk⟩
    exact h e he (by simp [hk])
  · intro h e he hk
    exact h (mem_keysOf.mpr ⟨e, he, by simpa using hk⟩)

/-- Invariant of the Dijkstra main loop, relating the settled list `S` and
the frontier `F`: keys are duplicate-free and disjoint, settled entries
carry true shortest paths, frontier entries carry paths whose interior is
settled, every edge out of a settled node into unsettled territory is
reflected on the frontier, all keys are nodes (or the source), and the
source is settled except in the untouched initial state. -/
structure DInv (g : Graph) (s : Nat) (S F : List DEntry) : Prop where
  snd : (keysOf S).Nodup
  fnd : (keysOf F).Nodup
  disj : ∀ k ∈ keysOf S, k ∉ keysOf F
  smem : ∀ e ∈ S, IsPath g s e.1 e.2.2 ∧ getPathLength g e.2.2 = e.2.1 ∧
    e.2.2.Nodup ∧ (∀ x ∈ e.2.2, x ∈ keysOf S) ∧
    ∀ q, IsPath g s e.1 q → e.2.1 ≤ getPathLength g q
  fmem : ∀ e ∈ F, IsPath g s e.1 e.2.2 ∧ getPathLength g e.2.2 = e.2.1 ∧
    e.2.2.Nodup ∧ (∀ x ∈ e.2.2.dropLast, x ∈ keysOf S) ∧ e.1 ∉ keysOf S
  frelax : ∀ eu ∈ S, ∀ vw ∈ g.outEdges eu.1, vw.1 ∉ keysOf S →
    ∃ f ∈ F, f.1 = vw.1 ∧ f.2.1 ≤ eu.2.1 + vw.2
  skeys : ∀ k ∈ keysOf S, k = s ∨ k ∈ g.nodes
  fkeys : ∀ k ∈ keysOf F, k = s ∨ k ∈ g.nodes
  dinit : (S = [] ∧ F = [(s, 0, [s])]) ∨ s ∈ keysOf S

theorem dinv_start (g : Graph) (s : Nat) : DInv g s [] [(s, 0, [s])] := by
  refine ⟨List.nodup_nil, ?_, ?_, ?_, ?_, ?_, ?_, ?_, Or.inl ⟨rfl, rfl⟩⟩
  · simp [keysOf]
  · intro k hk
    simp [keysOf] at hk
  · intro e he
    exact absurd he (List.not_mem_nil e)
  · intro e he
    rcases List.mem_singleton.mp he with rfl
    refine ⟨isPath_refl g s, rfl, ?_, ?_, ?_⟩
    · exact List.nodup_singleton s
    · intro x hx
      simp at hx
    · simp [keysOf]
  · intro eu heu
    exact absurd heu (List.not_mem_nil eu)
  · intro k hk
    simp [keysOf] at hk
  · intro k hk
    have hks : k = s := by simpa [keysOf] using hk
    exact Or.inl hks

/-- Crossing lemma: a path from a settled node `u` to an unsettled node
must offer, on the frontier, a tentative distance bounded by the settled
distance of `u` plus the path cost. -/
theorem dinv_crossing {g : Graph} (hw : WeightWF g) {s : Nat} {S F : List DEntry}
    (hinv : DInv g s S F) :
    ∀ (q : List Nat) (u t : Nat) (eu : DEntry), eu ∈ S → eu.1 = u →
      IsPath g u t q → t ∉ keysOf S →
      ∃ f ∈ F, f.2.1 ≤ eu.2.1 + getPathLength g q
  | [], u, t, eu, heu, hku, hq, ht => by
    simp [IsPath] at hq
  | [a], u, t, eu, heu, hku, hq, ht => by
    rcases isPath_singleton.mp hq with ⟨hu, htt⟩
    exact absurd (mem_keysOf.mpr ⟨eu, heu, by rw [hku, hu, htt]⟩) ht
  | a :: b :: q2, u, t, eu, heu, hku, hq, ht => by
    rcases isPath_tail hq with ⟨hq2, hedge, hua⟩
    rcases Option.isSome_iff_exists.mp hedge with ⟨w, hwab⟩
    have hbn : b ∈ g.nodes := (hw a b w hwab).2
    have hcost : getPathLength g (a :: b :: q2) = w + getPathLength g (b :: q2) := by
      rw [cost_cons_head, hwab]
      rfl
    by_cases hbS : b ∈ keysOf S
    · rcases mem_keysOf.mp hbS with ⟨eb, heb, hkb⟩
      rcases dinv_crossing hw hinv (b :: q2) b t eb heb hkb hq2 ht with ⟨f, hf, hfle⟩
      rcases hinv.smem eu heu with ⟨hpu, hcu, -, -, -⟩
      rcases hinv.smem eb heb with ⟨-, -, -, -, hmin⟩
      have hsn : IsPath g s b (eu.2.2 ++ [b]) := by
        refine hpu.snoc ?_
        show (g.weight eu.1 b).isSome = true
        rw [hku, hua, hwab]
        rfl
      have hble : eb.2.1 ≤ eu.2.1 + w := by
        have hm := hmin (eu.2.2 ++ [b]) (by rw [hkb]; exact hsn)
        have hc2 : getPathLength g (eu.2.2 ++ [b]) = eu.2.1 + w := by
          rw [cost_snoc hpu, hcu, hku, hua, hwab]
          rfl
        omega
      refine ⟨f, hf, ?_⟩
      rw [hcost]
      omega
    · have hvw2 : (b, w) ∈ g.outEdges eu.1 := by
        rw [hku, hua]
        exact mem_outEdges.mpr ⟨hbn, hwab⟩
      rcases hinv.frelax eu heu (b, w) hvw2 hbS with ⟨f, hf, -, hfle⟩
      refine ⟨f, hf, ?_⟩
      rw [hcost]
      omega

/-- The minimum extracted from the frontier has globally minimal distance:
no path from the source to its key is shorter. -/
theorem dinv_settle_lb {g : Graph} (hw : WeightWF g) {s : Nat} {S F : List DEntry}
    (hinv : DInv g s S F) {e : DEntry} {F2 : List DEntry}
    (hx : extractMin F = some (e, F2)) :
    ∀ q, IsPath g s e.1 q → e.2.1 ≤ getPathLength g q := by
  intro q hq
  have heF : e ∈ F := extractMin_mem hx
  rcases hinv.dinit with ⟨hS, hF⟩ | hsS
  · subst hF
    have he : e = (s, 0, [s]) := List.mem_singleton.mp heF
    rw [he]
    exact Nat.zero_le _
  · rcases mem_keysOf.mp hsS with ⟨es, hes, hks⟩
    have hes0 : es.2.1 = 0 := by
      rcases hinv.smem es hes with ⟨-, -, -, -, hmin⟩
      have h0 : es.2.1 ≤ 0 := hmin [s] (by rw [hks]; exact isPath_refl g s)
      omega
    have htS : e.1 ∉ keysOf S := (hinv.fmem e heF).2.2.2.2
    rcases dinv_crossing hw hinv q s e.1 es hes hks hq htS with ⟨f, hfF, hfle⟩
    have hmin2 := extractMin_min hx f hfF
    omega

/-- One step of the Dijkstra loop preserves the invariant: settle the
extracted minimum and relax its outgoing edges. -/
theorem dinv_step {g : Graph} (hw : WeightWF g) {s : Nat} {S F : List DEntry}
    (hinv : DInv g s S F) {e : DEntry} {F2 : List DEntry}
    (hx : extractMin F = some (e, F2)) :
    DInv g s (S ++ [e]) (relaxAll g (S ++ [e]) e.2.1 e.2.2 F2 e.1) := by
  have heF : e ∈ F := extractMin_mem hx
  have hperm : F.Perm (e :: F2) := extractMin_perm hx
  have hkperm : (keysOf F).Perm (e.1 :: keysOf F2) :=
    List.Perm.map (fun x : DEntry => x.1) hperm
  have hndcons : (e.1 :: keysOf F2).Nodup := hkperm.nodup_iff.mp hinv.fnd
  have hndF2 : (keysOf F2).Nodup := (List.nodup_cons.mp hndcons).2
  have huF2 : e.1 ∉ keysOf F2 := (List.nodup_cons.mp hndcons).1
  have hfe := hinv.fmem e heF
  have huS : e.1 ∉ keysOf S := hfe.2.2.2.2
  have hkeysS2 : keysOf (S ++ [e]) = keysOf S ++ [e.1] := keysOf_append S [e]
  have hmemS2 : ∀ k, k ∈ keysOf (S ++ [e]) ↔ k ∈ keysOf S ∨ k = e.1 := by
    intro k
    rw [hkeysS2]
    simp
  have hF2subF : ∀ x ∈ F2, x ∈ F := extractMin_sub hx
  have hkF2sub : ∀ k ∈ keysOf F2, k ∈ keysOf F := by
    intro k hk
    rcases mem_keysOf.mp hk with ⟨x, hxF2, hkx⟩
    exact mem_keysOf.mpr ⟨x, hF2subF x hxF2, hkx⟩
  have hemin : ∀ q, IsPath g s e.1 q → e.2.1 ≤ getPathLength g q :=
    dinv_settle_lb hw hinv hx
  have hecov : ∀ x ∈ e.2.2, x ∈ keysOf (S ++ [e]) := by
    intro x hx2
    have hne : e.2.2 ≠ [] := hfe.1.ne_nil
    rw [← List.dropLast_append_getLast hne] at hx2
    rcases List.mem_append.mp hx2 with h | h
    · exact (hmemS2 x).mpr (Or.inl (hfe.2.2.2.1 x h))
    · rcases List.mem_singleton.mp h with rfl
      exact (hmemS2 _).mpr (Or.inr (getLast_of_isPath hfe.1 hne))
  rw [relaxAll_eq]
  refine ⟨?_, ?_, ?_, ?_, ?_, ?_, ?_, ?_, ?_⟩
  · rw [hkeysS2]
    refine List.Nodup.append hinv.snd (List.nodup_singleton e.1) ?_
    intro a haS haE
    rw [List.mem_singleton.mp haE] at haS
    exact huS haS
  · exact rfold_nodup _ F2 hndF2
  · intro k hkS2 hkF3
    rcases mem_keysOf.mp hkF3 with ⟨e2, he2, hke2⟩
    rcases rfold_mem _ F2 e2 he2 with h | ⟨vw, hvwL, hany, heq⟩
    · have hkF2 : k ∈ keysOf F2 := mem_keysOf.mpr ⟨e2, h, hke2⟩
      rcases (hmemS2 k).mp hkS2 with hkS | rfl
      · exact hinv.disj k hkS (hkF2sub k hkF2)
      · exact huF2 hkF2
    · have hnot : k ∉ keysOf (S ++ [e]) := by
        have h2 : vw.1 ∉ keysOf (S ++ [e]) := keys_any_false.mp hany
        rw [← hke2, heq]
        exact h2
      exact hnot hkS2
  · intro e0 he0
    rcases List.mem_append.mp he0 with hS | hE
    · rcases hinv.smem e0 hS with ⟨h1, h2, h3, h4, h5⟩
      exact ⟨h1, h2, h3, fun x hx2 => (hmemS2 x).mpr (Or.inl (h4 x hx2)), h5⟩
    · rcases List.mem_singleton.mp hE with rfl
      exact ⟨hfe.1, hfe.2.1, hfe.2.2.1, hecov, hemin⟩
  · intro e2 he2
    rcases rfold_mem _ F2 e2 he2 with h | ⟨vw, hvwL, hany, heq⟩
    · rcases hinv.fmem e2 (hF2subF e2 h) with ⟨h1, h2, h3, h4, h5⟩
      refine ⟨h1, h2, h3, fun x hx2 => (hmemS2 x).mpr (Or.inl (h4 x hx2)), ?_⟩
      intro hk
      rcases (hmemS2 e2.1).mp hk with hkS | hke
      · exact h5 hkS
      · exact huF2 (by rw [← hke]; exact mem_keysOf.mpr ⟨e2, h, rfl⟩)
    · subst heq
      have hnotS2 : vw.1 ∉ keysOf (S ++ [e]) := keys_any_false.mp hany
      rcases mem_outEdges.mp hvwL with ⟨hvn, hwv⟩
      have hedge : g.hasEdge e.1 vw.1 = true := by
        show (g.weight e.1 vw.1).isSome = true
        rw [hwv]
        rfl
      refine ⟨hfe.1.snoc hedge, ?_, ?_, ?_, hnotS2⟩
      · show getPathLength g (e.2.2 ++ [vw.1]) = e.2.1 + vw.2
        rw [cost_snoc hfe.1, hfe.2.1, hwv]
        rfl
      · show (e.2.2 ++ [vw.1]).Nodup
        refine List.Nodup.append hfe.2.2.1 (List.nodup_singleton _) ?_
        intro a ha hae
        rw [List.mem_singleton.mp hae] at ha
        exact hnotS2 (hecov vw.1 ha)
      · show ∀ x ∈ (e.2.2 ++ [vw.1]).dropLast, x ∈ keysOf (S ++ [e])
        intro x hx2
        rw [List.dropLast_concat] at hx2
        exact hecov x hx2
  · intro eu heu vw hvw hnot
    rcases List.mem_append.mp heu with hS | hE
    · have hnotS : vw.1 ∉ keysOf S := fun h => hnot ((hmemS2 vw.1).mpr (Or.inl h))
      rcases hinv.frelax eu hS vw hvw hnotS with ⟨f, hfF, hkf, hlef⟩
      have hfF2 : f ∈ F2 := by
        have hmc : f ∈ e :: F2 := hperm.subset hfF
        rcases List.mem_cons.mp hmc with rfl | h
        · exact absurd ((hmemS2 f.1).mpr (Or.inr rfl)) (by rw [hkf]; exact hnot)
        · exact h
      rcases rfold_persist _ F2 hndF2 f hfF2 with ⟨f2, hf2, hk2, hd2⟩
      exact ⟨f2, hf2, by rw [hk2, hkf], hd2.trans hlef⟩
    · rcases List.mem_singleton.mp hE with rfl
      have hany : ((S ++ [eu]).any fun x => x.1 = vw.1) = false :=
        keys_any_false.mpr hnot
      rcases mem_keysOf.mp (rfold_cover hvw hany) with ⟨f2, hf2, hk2⟩
      exact ⟨f2, hf2, hk2, rfold_key_le hndF2 hvw hany f2 hf2 hk2⟩
  · intro k hk
    rcases (hmemS2 k).mp hk with hkS | rfl
    · exact hinv.skeys k hkS
    · exact hinv.fkeys e.1 (mem_keysOf.mpr ⟨e, heF, rfl⟩)
  · intro k hk
    rcases mem_keysOf.mp hk with ⟨e2, he2, hke2⟩
    rcases rfold_mem _ F2 e2 he2 with h | ⟨vw, hvwL, -, heq⟩
    · exact hinv.fkeys k (hkF2sub k (mem_keysOf.mpr ⟨e2, h, hke2⟩))
    · right
      rw [← hke2, heq]
      exact (mem_outEdges.mp hvwL).1
  · rcases hinv.dinit with ⟨hS, hF⟩ | hsS
    · subst hF
      have he : e = (s, 0, [s]) := List.mem_singleton.mp heF
      refine Or.inr ((hmemS2 s).mpr (Or.inr ?_))
      rw [he]
    · exact Or.inr ((hmemS2 s).mpr (Or.inl hsS))

/-- Running the loop with enough fuel exhausts the frontier: the returned
settled list satisfies the invariant against an empty frontier. -/
theorem dloop_final {g : Graph} (hw : WeightWF g) {s : Nat} :
    ∀ (fuel : Nat) (S F : List DEntry), DInv g s S F →
      g.nodes.length + 1 ≤ (keysOf S).length + fuel →
      DInv g s (dijkstraLoop g fuel S F) []
  | 0, S, F, hinv, hcount => by
    show DInv g s S []
    have hSsub : (keysOf S).toFinset ⊆ (s :: g.nodes).toFinset := by
      intro k hk
      rw [List.mem_toFinset] at hk ⊢
      rcases hinv.skeys k hk with rfl | h
      · exact List.mem_cons_self _ _
      · exact List.mem_cons_of_mem _ h
    have hcardS : ((keysOf S).toFinset).card = (keysOf S).length :=
      List.toFinset_card_of_nodup hinv.snd
    have hcardN : ((s :: g.nodes).toFinset).card ≤ g.nodes.length + 1 := by
      have := List.toFinset_card_le (s :: g.nodes)
      simpa using this
    have heq : (keysOf S).toFinset = (s :: g.nodes).toFinset := by
      refine Finset.eq_of_subset_of_card_le hSsub ?_
      omega
    have hFnil : F = [] := by
      cases F with
      | nil => rfl
      | cons f F0 =>
        exfalso
        have hkf : f.1 ∈ keysOf (f :: F0) :=
          mem_keysOf.mpr ⟨f, List.mem_cons_self f F0, rfl⟩
        have h1 : f.1 ∈ s :: g.nodes := by
          rcases hinv.fkeys f.1 hkf with rfl | h
          · exact List.mem_cons_self _ _
          · exact List.mem_cons_of_mem _ h
        have h2 : f.1 ∈ keysOf S := by
          have hm : f.1 ∈ (keysOf S).toFinset := by
            rw [heq, List.mem_toFinset]
            exact h1
          exact List.mem_toFinset.mp hm
        exact hinv.disj f.1 h2 hkf
    exact hFnil ▸ hinv
  | fuel + 1, S, F, hinv, hcount => by
    have hgoal : dijkstraLoop g (fuel + 1) S F =
        match extractMin F with
        | none => S
        | some ((u, d, p), F2) =>
          dijkstraLoop g fuel (S ++ [(u, d, p)])
            (relaxAll g (S ++ [(u, d, p)]) d p F2 u) := rfl
    rw [hgoal]
    cases hx : extractMin F with
    | none =>
      exact (extractMin_none_iff.mp hx) ▸ hinv
    | some pair =>
      obtain ⟨⟨u, d, p⟩, F2⟩ := pair
      show DInv g s (dijkstraLoop g fuel (S ++ [(u, d, p)])
        (relaxAll g (S ++ [(u, d, p)]) d p F2 u)) []
      have hinv2 := dinv_step hw hinv hx
      have hlen : (keysOf (S ++ [(u, d, p)])).length = (keysOf S).length + 1 := by
        rw [keysOf_append, List.length_append]
        rfl
      exact dloop_final hw fuel (S ++ [(u, d, p)])
        (relaxAll g (S ++ [(u, d, p)]) d p F2 u) hinv2 (by omega)

/-- The full Dijkstra run from the source: its settled list satisfies the
invariant against an empty frontier. -/
theorem dijkstra_settled {g : Graph} (hw : WeightWF g) (s : Nat) :
    DInv g s (dijkstraLoop g (g.nodes.length + 1) [] [(s, 0, [s])]) [] :=
  dloop_final hw (g.nodes.length + 1) [] [(s, 0, [s])] (dinv_start g s)
    (by simp [keysOf])

/-- With an empty frontier the settled set is closed under reachability. -/
theorem dinv_closed_reach {g : Graph} (hw : WeightWF g) {s : Nat} {S : List DEntry}
    (hinv : DInv g s S []) :
    ∀ (q : List Nat) (u t : Nat), IsPath g u t q → u ∈ keysOf S → t ∈ keysOf S
  | [], u, t, hq, hu => by
    simp [IsPath] at hq
  | [a], u, t, hq, hu => by
    rcases isPath_singleton.mp hq with ⟨h1, h2⟩
    rw [h2, ← h1]
    exact hu
  | a :: b :: q2, u, t, hq, hu => by
    rcases isPath_tail hq with ⟨hq2, hedge, hua⟩
    rcases Option.isSome_iff_exists.mp hedge with ⟨w, hwab⟩
    have hbn : b ∈ g.nodes := (hw a b w hwab).2
    have hbS : b ∈ keysOf S := by
      by_contra hbS
      rcases mem_keysOf.mp hu with ⟨eu, heu, hku⟩
      have hvw : (b, w) ∈ g.outEdges eu.1 := by
        rw [hku, hua]
        exact mem_outEdges.mpr ⟨hbn, hwab⟩
      rcases hinv.frelax eu heu (b, w) hvw hbS with ⟨f, hf, -, -⟩
      exact absurd hf (List.not_mem_nil f)
    exact dinv_closed_reach hw hinv (b :: q2) b t hq2 hbS

/-- Soundness of the oracle: a successful answer is a loopless path of the
announced length, minimal among all paths from `s` to `t`. -/
theorem dijkstra_some {g : Graph} (hw : WeightWF g) {s t d : Nat} {p : List Nat}
    (h : singleSourceDijkstra g s t = some (d, p)) :
    IsPath g s t p ∧ getPathLength g p = d ∧ p.Nodup ∧
      ∀ q, IsPath g s t q → d ≤ getPathLength g q := by
  unfold singleSourceDijkstra at h
  by_cases hst : s = t
  · rw [if_pos hst] at h
    have hde := Option.some.inj h
    have hd : d = 0 := (Prod.ext_iff.mp hde).1.symm
    have hp : p = [s] := (Prod.ext_iff.mp hde).2.symm
    subst hd
    subst hp
    subst hst
    exact ⟨isPath_refl g s, rfl, List.nodup_singleton s, fun q hq => Nat.zero_le _⟩
  · rw [if_neg hst] at h
    cases hfind : (dijkstraLoop g (g.nodes.length + 1) [] [(s, 0, [s])]).find?
        (fun e => e.1 = t) with
    | none =>
      rw [hfind] at h
      cases h
    | some e =>
      rw [hfind] at h
      have he : e ∈ dijkstraLoop g (g.nodes.length + 1) [] [(s, 0, [s])] :=
        List.mem_of_find?_eq_some hfind
      have hkey : e.1 = t := by simpa using List.find?_some hfind
      have hinv := dijkstra_settled hw s
      rcases hinv.smem e he with ⟨h1, h2, h3, -, h5⟩
      have hde := Option.some.inj h
      have hd : e.2.1 = d := (Prod.ext_iff.mp hde).1
      have hp : e.2.2 = p := (Prod.ext_iff.mp hde).2
      rw [hkey] at h1 h5
      rw [hp] at h1 h2 h3
      rw [hd] at h2 h5
      exact ⟨h1, h2, h3, h5⟩

/-- Completeness of the oracle: when it reports no answer, no path from
`s` to `t` exists at all. -/
theorem dijkstra_none {g : Graph} (hw : WeightWF g) {s t : Nat}
    (hst : ¬ s = t) (h : singleSourceDijkstra g s t = none) :
    ∀ q, ¬ IsPath g s t q := by
  intro q hq
  unfold singleSourceDijkstra at h
  rw [if_neg hst] at h
  cases hfind : (dijkstraLoop g (g.nodes.length + 1) [] [(s, 0, [s])]).find?
      (fun e => e.1 = t) with
  | some e =>
    rw [hfind] at h
    cases h
  | none =>
    have hinv := dijkstra_settled hw s
    have hsS : s ∈ keysOf (dijkstraLoop g (g.nodes.length + 1) [] [(s, 0, [s])]) := by
      rcases hinv.dinit with ⟨hS, hF⟩ | hsS
      · exact absurd hF (by simp)
      · exact hsS
    have htS := dinv_closed_reach hw hinv q s t hq hsS
    rcases mem_keysOf.mp htS with ⟨e, he, hke⟩
    have hnone := List.find?_eq_none.mp hfind e he
    simp [hke] at hnone

/-- The oracle answers whenever a path exists. -/
theorem dijkstra_isSome_of_path {g : Graph} (hw : WeightWF g) {s t : Nat}
    {q : List Nat} (hq : IsPath g s t q) :
    (singleSourceDijkstra g s t).isSome = true := by
  by_cases hst : s = t
  · unfold singleSourceDijkstra
    rw [if_pos hst]
    rfl
  · cases hd : singleSourceDijkstra g s t with
    | some r => rfl
    | none => exact absurd hq (dijkstra_none hw hst hd q)

/-! ### Small helpers for the Yen invariant -/

theorem getLastD_mem {α : Type} : ∀ (l : List α) (d : α), l ≠ [] → l.getLastD d ∈ l
  | [], _, h => absurd rfl h
  | [a], _, _ => List.mem_singleton.mpr rfl
  | a :: b :: l, _, _ =>
    List.mem_cons_of_mem a (getLastD_mem (b :: l) a (by simp))

theorem headD_append_single {α : Type} : ∀ (l : List α) (x d : α), l ≠ [] →
    (l ++ [x]).headD d = l.headD d
  | [], _, _, h => absurd rfl h
  | _ :: _, _, _, _ => rfl

theorem tail_append_single {α : Type} : ∀ (l : List α) (x : α), l ≠ [] →
    (l ++ [x]).tail = l.tail ++ [x]
  | [], _, h => absurd rfl h
  | _ :: _, _, _ => rfl

theorem head?_append_single {α : Type} : ∀ (l : List α) (x : α), l ≠ [] →
    (l ++ [x]).head? = l.head?
  | [], _, h => absurd rfl h
  | _ :: _, _, _ => rfl

theorem getD_zero_headD {α : Type} : ∀ (l : List α) (d : α), l.getD 0 d = l.headD d
  | [], _ => rfl
  | _ :: _, _ => rfl

theorem weightWF_of_gequiv {g1 g2 : Graph} (h : GEquiv g1 g2) (hw : WeightWF g2) :
    WeightWF g1 := by
  intro a b w hab
  rw [h.2.2 a b] at hab
  rw [h.2.1]
  exact hw a b w hab

theorem getLast_not_mem_dropLast {α : Type} {l : List α}
    (hnd : l.Nodup) (hne : l ≠ []) : l.getLast hne ∉ l.dropLast := by
  have hsplit := List.dropLast_append_getLast hne
  rw [← hsplit] at hnd
  have hdisj := List.disjoint_of_nodup_append hnd
  intro hmem
  exact hdisj hmem (List.mem_singleton.mpr rfl)

/-- Every non-head node on an edge chain is entered by some edge. -/
theorem chain_tail_in_edge {g : Graph} :
    ∀ (p : List Nat), edgeChainB g p = true →
      ∀ x ∈ p.tail, ∃ y, (g.weight y x).isSome = true
  | [], _, x, hx => absurd hx (List.not_mem_nil x)
  | [_], _, x, hx => absurd hx (List.not_mem_nil x)
  | a :: b :: q, h, x, hx => by
    have h2 : (g.hasEdge a b && edgeChainB g (b :: q)) = true := h
    have hsplit := (Bool.and_eq_true _ _).mp h2
    rcases List.mem_cons.mp hx with rfl | hx2
    · exact ⟨a, hsplit.1⟩
    · exact chain_tail_in_edge (b :: q) hsplit.2 x hx2

/-- A duplicate-free list contained in another is no longer than it. -/
theorem nodup_subset_length {l l2 : List Nat} (hnd : l.Nodup)
    (hsub : ∀ x ∈ l, x ∈ l2) : l.length ≤ l2.length := by
  have hfsub : l.toFinset ⊆ l2.toFinset := by
    intro x hx
    rw [List.mem_toFinset] at hx ⊢
    exact hsub x hx
  have h1 : l.toFinset.card = l.length := List.toFinset_card_of_nodup hnd
  have h2 : l2.toFinset.card ≤ l2.length := List.toFinset_card_le l2
  have h3 := Finset.card_le_card hfsub
  omega

/-! ### The candidate heap pop -/

theorem extractMinB_none_iff {B : List (Nat × Nat × List Nat)} :
    extractMinB B = none ↔ B = [] := by
  cases B with
  | nil => simp [extractMinB]
  | cons e rest =>
    constructor
    · intro h
      unfold extractMinB at h
      cases hrec : extractMinB rest with
      | none => rw [hrec] at h; cases h
      | some pr => rw [hrec] at h; dsimp only at h; split at h <;> cases h
    · intro h; cases h

theorem extractMinB_perm :
    ∀ {B : List (Nat × Nat × List Nat)} {e : Nat × Nat × List Nat}
      {B2 : List (Nat × Nat × List Nat)},
      extractMinB B = some (e, B2) → B.Perm (e :: B2)
  | [], e, B2, h => by cases h
  | f :: rest, e, B2, h => by
    unfold extractMinB at h
    cases hrec : extractMinB rest with
    | none =>
      rw [hrec] at h
      cases h
      rw [extractMinB_none_iff.mp hrec]
    | some pr =>
      rcases pr with ⟨m, rest2⟩
      rw [hrec] at h
      dsimp only at h
      have hperm : rest.Perm (m :: rest2) := extractMinB_perm hrec
      split at h
      · cases h
        exact List.Perm.refl _
      · cases h
        exact List.Perm.trans (hperm.cons f) (List.Perm.swap e f rest2)

theorem extractMinB_mem {B : List (Nat × Nat × List Nat)} {e : Nat × Nat × List Nat}
    {B2 : List (Nat × Nat × List Nat)}
    (h : extractMinB B = some (e, B2)) : e ∈ B :=
  (extractMinB_perm h).symm.subset (List.mem_cons_self e B2)

theorem extractMinB_sub {B : List (Nat × Nat × List Nat)} {e : Nat × Nat × List Nat}
    {B2 : List (Nat × Nat × List Nat)}
    (h : extractMinB B = some (e, B2)) : ∀ x ∈ B2, x ∈ B :=
  fun _ hx => (extractMinB_perm h).symm.subset (List.mem_cons_of_mem e hx)

/-- The popped candidate carries the minimal total length present in `B`. -/
theorem extractMinB_min :
    ∀ {B : List (Nat × Nat × List Nat)} {e : Nat × Nat × List Nat}
      {B2 : List (Nat × Nat × List Nat)},
      extractMinB B = some (e, B2) → ∀ x ∈ B, e.1 ≤ x.1
  | [], e, B2, h => by cases h
  | f :: rest, e, B2, h => by
    unfold extractMinB at h
    cases hrec : extractMinB rest with
    | none =>
      rw [hrec] at h
      cases h
      intro x hx
      rcases List.mem_cons.mp hx with rfl | hx2
      · exact Nat.le_refl _
      · rw [extractMinB_none_iff.mp hrec] at hx2
        cases hx2
    | some pr =>
      rcases pr with ⟨m, rest2⟩
      rw [hrec] at h
      dsimp only at h
      have hmin : ∀ x ∈ rest, m.1 ≤ x.1 := extractMinB_min hrec
      split at h
      · cases h
        rename_i hle
        intro x hx
        rcases List.mem_cons.mp hx with rfl | hx2
        · exact Nat.le_refl _
        · have hem : f.1 ≤ m.1 := by
            rcases hle with hlt | ⟨heq, -⟩
            · exact Nat.le_of_lt hlt
            · exact Nat.le_of_eq heq
          exact Nat.le_trans hem (hmin x hx2)
      · cases h
        rename_i hgt
        intro x hx
        rcases List.mem_cons.mp hx with rfl | hx2
        · by_contra hcon
          exact hgt (Or.inl (by omega))
        · exact hmin x hx2

/-- Every entry that a spur push adds to the candidate heap is a loopless
path from `s` to `t` whose recorded total length is its weight sum on the
original graph, and it differs from every currently accepted path (the
deviation edge of any accepted path sharing the root is pruned before the
spur search runs). -/
theorem spurPush_newB {g0 : Graph} (hg0 : GoodGraph g0) {s t : Nat} {st : YState}
    (hgeq : GEquiv st.g g0) (hpne : st.paths ≠ [])
    (hpgood : ∀ p ∈ st.paths, IsPath g0 s t p ∧ p.Nodup) {j : Nat}
    (hj : j + 1 < (st.paths.getLastD []).length) :
    ∀ b ∈ (spurPush g0 t st j).B, b ∈ st.B ∨
      (IsPath g0 s t b.2.2 ∧ b.2.2.Nodup ∧ getPathLength g0 b.2.2 = b.1 ∧
        b.2.2 ∉ st.paths) := by
  intro b hb
  unfold spurPush at hb
  cases hd : singleSourceDijkstra (prunedGraph st.paths (rootOf st j) j st.g)
      ((st.paths.getLastD []).getD j 0) t with
  | none =>
    rw [hd] at hb
    exact Or.inl hb
  | some dp =>
    rw [hd] at hb
    dsimp only at hb
    by_cases hemp : dp.2.isEmpty = true
    · rw [if_pos hemp] at hb
      exact Or.inl hb
    · rw [if_neg hemp] at hb
      dsimp only at hb
      rcases List.mem_append.mp hb with hbB | hbNew
      · exact Or.inl hbB
      · right
        rcases List.mem_singleton.mp hbNew with rfl
        have hlast : st.paths.getLastD [] ∈ st.paths := getLastD_mem st.paths [] hpne
        have hlastP : IsPath g0 s t (st.paths.getLastD []) := (hpgood _ hlast).1
        have hlastN : (st.paths.getLastD []).Nodup := (hpgood _ hlast).2
        have hjlen : j < (st.paths.getLastD []).length := by omega
        have hrootP : IsPath g0 s ((st.paths.getLastD []).getD j 0) (rootOf st j) :=
          isPath_take j (st.paths.getLastD []) s t hlastP hjlen
        have hrootne : rootOf st j ≠ [] := hrootP.ne_nil
        have hrootN : (rootOf st j).Nodup :=
          hlastN.sublist (List.take_sublist _ _)
        have hrdN : (rootOf st j).dropLast.Nodup :=
          hrootN.sublist (List.dropLast_sublist _)
        have hwfst : WeightWF st.g := weightWF_of_gequiv hgeq hg0.weightWF
        have hwfH : WeightWF (prunedGraph st.paths (rootOf st j) j st.g) :=
          prunedGraph_weightWF _ _ _ hwfst
        rcases dijkstra_some hwfH hd with ⟨hspP, hspC, hspN, -⟩
        have hsub : Subw (prunedGraph st.paths (rootOf st j) j st.g) st.g :=
          subw_pruned hwfst
        have hspP0 : IsPath g0 ((st.paths.getLastD []).getD j 0) t dp.2 :=
          (isPath_congr2 hgeq.2.2).mp (isPath_sub hsub hspP)
        have hspC0 : getPathLength g0 dp.2 = dp.1 := by
          rw [← getPathLength_congr2 hgeq.2.2 dp.2, ← cost_sub hsub dp.2 hspP.2.2]
          exact hspC
        have hspne : dp.2 ≠ [] := hspP.ne_nil
        have hspurLast : (rootOf st j).getLast hrootne =
            (st.paths.getLastD []).getD j 0 := getLast_of_isPath hrootP hrootne
        have hspurMem : (st.paths.getLastD []).getD j 0 ∈ rootOf st j := by
          rw [← hspurLast]
          exact List.getLast_mem hrootne
        have hdisjTD : List.Disjoint ((st.paths.getLastD []).take (j + 1))
            ((st.paths.getLastD []).drop (j + 1)) := by
          refine List.disjoint_of_nodup_append ?_
          rw [List.take_append_drop]
          exact hlastN
        have hdropP : IsPath g0 ((st.paths.getLastD []).getD (j + 1) 0) t
            ((st.paths.getLastD []).drop (j + 1)) :=
          isPath_drop (j + 1) _ s t hlastP hj
        have htmem : t ∈ (st.paths.getLastD []).drop (j + 1) := by
          have hne2 : (st.paths.getLastD []).drop (j + 1) ≠ [] := hdropP.ne_nil
          rw [← getLast_of_isPath hdropP hne2]
          exact List.getLast_mem hne2
        have hspurT : (st.paths.getLastD []).getD j 0 ≠ t := by
          intro hst2
          have hmem1 : t ∈ rootOf st j := hst2 ▸ hspurMem
          exact hdisjTD hmem1 htmem
        obtain ⟨a, tl, hcase⟩ : ∃ a tl, dp.2 = a :: tl := by
          cases hc : dp.2 with
          | nil => exact absurd hc hspne
          | cons a tl => exact ⟨a, tl, rfl⟩
        have ha : a = (st.paths.getLastD []).getD j 0 := by
          have h1 : dp.2.head? = some ((st.paths.getLastD []).getD j 0) := hspP0.1
          rw [hcase] at h1
          have h2 : some a = some ((st.paths.getLastD []).getD j 0) := h1
          exact Option.some.inj h2
        subst ha
        obtain ⟨x, rest, hcase2⟩ : ∃ x rest, tl = x :: rest := by
          cases hc2 : tl with
          | nil =>
            rw [hc2] at hcase
            rw [hcase] at hspP0
            rcases isPath_singleton.mp hspP0 with ⟨h1, h2⟩
            exact absurd h2.symm hspurT
          | cons x rest => exact ⟨x, rest, rfl⟩
        have hfirstEdge : ((prunedGraph st.paths (rootOf st j) j st.g).weight
            ((st.paths.getLastD []).getD j 0) x).isSome = true := by
          have hch := hspP.2.2
          rw [hcase, hcase2] at hch
          have hch2 : ((prunedGraph st.paths (rootOf st j) j st.g).hasEdge
              ((st.paths.getLastD []).getD j 0) x &&
              edgeChainB (prunedGraph st.paths (rootOf st j) j st.g)
                (x :: rest)) = true := hch
          exact ((Bool.and_eq_true _ _).mp hch2).1
        have hglue : IsPath g0 s t ((rootOf st j).dropLast ++ dp.2) :=
          hrootP.glue hspP0
        have hdisjRS : ∀ y ∈ (rootOf st j).dropLast, y ∉ dp.2 := by
          intro y hy hyd
          rw [hcase] at hyd
          rcases List.mem_cons.mp hyd with hhead | htail
          · rw [hhead] at hy
            rw [← hspurLast] at hy
            exact getLast_not_mem_dropLast hrootN hrootne hy
          · have htail2 : y ∈ dp.2.tail := by
              rw [hcase]
              exact htail
            rcases chain_tail_in_edge dp.2 hspP.2.2 y htail2 with ⟨z, hz⟩
            rw [prunedGraph_weight st.paths (rootOf st j) j hwfst z y,
              if_pos (Or.inr (Or.inr hy))] at hz
            cases hz
        have hnodup : ((rootOf st j).dropLast ++ dp.2).Nodup :=
          List.Nodup.append hrdN hspN hdisjRS
        have hcost2 : getPathLength g0 ((rootOf st j).dropLast ++ dp.2) =
            getPathLength g0 (rootOf st j) + dp.1 := by
          rw [cost_glue hrootP hspP0, hspC0]
        have hlend : (rootOf st j).dropLast.length = j := by
          have hlen1 : (rootOf st j).length = j + 1 := by
            unfold rootOf
            rw [List.length_take]
            omega
          rw [List.length_dropLast, hlen1]
          omega
        have hnotmem : (rootOf st j).dropLast ++ dp.2 ∉ st.paths := by
          intro hmem
          have htake : ((rootOf st j).dropLast ++ dp.2).take (j + 1) = rootOf st j := by
            rw [List.take_append_eq_append_take,
              List.take_of_length_le (by rw [hlend]; omega), hlend]
            have h1 : j + 1 - j = 1 := by omega
            rw [h1, hcase]
            show (rootOf st j).dropLast ++ [(st.paths.getLastD []).getD j 0] =
              rootOf st j
            rw [← hspurLast]
            exact List.dropLast_append_getLast hrootne
          have hPlen : j + 1 < ((rootOf st j).dropLast ++ dp.2).length := by
            have hl2 : dp.2.length = rest.length + 2 := by
              rw [hcase, hcase2]
              rfl
            rw [List.length_append, hlend, hl2]
            omega
          have hgj : ((rootOf st j).dropLast ++ dp.2).getD j 0 =
              (st.paths.getLastD []).getD j 0 := by
            rw [List.getD_append_right _ _ _ _ (le_of_eq hlend), hlend, hcase]
            simp
          have hgj1 : ((rootOf st j).dropLast ++ dp.2).getD (j + 1) 0 = x := by
            rw [List.getD_append_right _ _ _ _ (by rw [hlend]; omega), hlend, hcase, hcase2]
            have h1 : j + 1 - j = 1 := by omega
            rw [h1]
            rfl
          have hDM : DevMatch st.paths (rootOf st j) j st.g.directed
              ((st.paths.getLastD []).getD j 0) x := by
            refine ⟨(rootOf st j).dropLast ++ dp.2, hmem, by omega, htake.symm, ?_⟩
            rw [hgj, hgj1]
            unfold keyMatches
            simp
          have hnone := prunedGraph_weight st.paths (rootOf st j) j hwfst
            ((st.paths.getLastD []).getD j 0) x
          rw [if_pos (Or.inl hDM)] at hnone
          rw [hnone] at hfirstEdge
          cases hfirstEdge
        exact ⟨hglue, hnodup, hcost2, hnotmem⟩

theorem headD_mem {α : Type} : ∀ (l : List α) (d : α), l ≠ [] → l.headD d ∈ l
  | [], _, h => absurd rfl h
  | a :: l, _, _ => List.mem_cons_self a l

theorem forall2_append_single {α β : Type} {R : α → β → Prop} {l1 : List α}
    {l2 : List β} (h : List.Forall₂ R l1 l2) {a : α} {b : β} (hab : R a b) :
    List.Forall₂ R (l1 ++ [a]) (l2 ++ [b]) := by
  induction h with
  | nil => exact List.Forall₂.cons hab List.Forall₂.nil
  | cons h1 _ ih => exact List.Forall₂.cons h1 ih

/-- Invariant of the Yen main loop, stated against the original graph `g0`:
the working graph is observably `g0`, every accepted path and every heap
candidate is a loopless `s`–`t` path whose recorded length is its weight
sum on `g0`, and neither an accepted path beyond index 0 nor a candidate
ever equals the first accepted path. -/
structure YInv (g0 : Graph) (s t : Nat) (st : YState) : Prop where
  geq : GEquiv st.g g0
  pne : st.paths ≠ []
  pgood : ∀ p ∈ st.paths, IsPath g0 s t p ∧ p.Nodup
  pcost : List.Forall₂ (fun l p => getPathLength g0 p = l) st.lengths st.paths
  ptail : ∀ p ∈ st.paths.tail, p ≠ st.paths.headD []
  bgood : ∀ b ∈ st.B, IsPath g0 s t b.2.2 ∧ b.2.2.Nodup ∧
    getPathLength g0 b.2.2 = b.1 ∧ b.2.2 ≠ st.paths.headD []

theorem spurStep_inv {g0 : Graph} (hg0 : GoodGraph g0) {s t : Nat} {st : YState}
    (hinv : YInv g0 s t st) {j : Nat}
    (hj : j + 1 < (st.paths.getLastD []).length) :
    YInv g0 s t (spurStep g0 t st j) := by
  have hn : st.g.nodes.Nodup := by
    rw [hinv.geq.2.1]
    exact hg0.1
  have hstep : GEquiv (spurStep g0 t st j).g st.g := spurStep_gequiv hn
  refine ⟨hstep.trans hinv.geq, ?_, ?_, ?_, ?_, ?_⟩
  · rw [spurStep_paths]
    exact hinv.pne
  · rw [spurStep_paths]
    exact hinv.pgood
  · rw [spurStep_lengths, spurStep_paths]
    exact hinv.pcost
  · rw [spurStep_paths]
    exact hinv.ptail
  · rw [spurStep_B, spurStep_paths]
    intro b hb
    rcases spurPush_newB hg0 hinv.geq hinv.pne hinv.pgood hj b hb with hbB | hnew
    · exact hinv.bgood b hbB
    · refine ⟨hnew.1, hnew.2.1, hnew.2.2.1, ?_⟩
      intro hcon
      apply hnew.2.2.2
      rw [hcon]
      exact headD_mem st.paths [] hinv.pne

theorem foldl_spurStep_inv {g0 : Graph} (hg0 : GoodGraph g0) {s t : Nat} :
    ∀ (js : List Nat) (st : YState), YInv g0 s t st →
      (∀ j ∈ js, j + 1 < (st.paths.getLastD []).length) →
      YInv g0 s t (js.foldl (spurStep g0 t) st)
  | [], _, hinv, _ => hinv
  | j :: js, st, hinv, hjs => by
    rw [List.foldl_cons]
    refine foldl_spurStep_inv hg0 js (spurStep g0 t st j)
      (spurStep_inv hg0 hinv (hjs j (List.mem_cons_self j js))) ?_
    intro j2 hj2
    rw [spurStep_paths]
    exact hjs j2 (List.mem_cons_of_mem j hj2)

theorem jLoop_inv {g0 : Graph} (hg0 : GoodGraph g0) {s t : Nat} {st : YState}
    (hinv : YInv g0 s t st) : YInv g0 s t (jLoop g0 t st) := by
  unfold jLoop
  refine foldl_spurStep_inv hg0 _ st hinv ?_
  intro j hj
  rw [List.mem_range] at hj
  have hne : st.paths.getLastD [] ≠ [] :=
    ((hinv.pgood _ (getLastD_mem st.paths [] hinv.pne)).1).ne_nil
  have hlen : 0 < (st.paths.getLastD []).length := List.length_pos.mpr hne
  omega

/-- Accepting a popped candidate as the next result preserves the
invariant. -/
theorem accept_inv {g0 : Graph} {s t : Nat} {st1 : YState}
    (hinv1 : YInv g0 s t st1) {e : Nat × Nat × List Nat}
    {B2 : List (Nat × Nat × List Nat)} (hx : extractMinB st1.B = some (e, B2)) :
    YInv g0 s t
      { st1 with
        lengths := st1.lengths ++ [e.1]
        paths := st1.paths ++ [e.2.2]
        B := B2 } := by
  rcases hinv1.bgood e (extractMinB_mem hx) with ⟨hP, hN, hC, hH⟩
  refine ⟨?_, ?_, ?_, ?_, ?_, ?_⟩
  · show GEquiv st1.g g0
    exact hinv1.geq
  · show st1.paths ++ [e.2.2] ≠ []
    simp
  · show ∀ p ∈ st1.paths ++ [e.2.2], IsPath g0 s t p ∧ p.Nodup
    intro p hp
    rcases List.mem_append.mp hp with h | h
    · exact hinv1.pgood p h
    · rcases List.mem_singleton.mp h with rfl
      exact ⟨hP, hN⟩
  · show List.Forall₂ (fun l p => getPathLength g0 p = l)
      (st1.lengths ++ [e.1]) (st1.paths ++ [e.2.2])
    exact forall2_append_single hinv1.pcost hC
  · show ∀ p ∈ (st1.paths ++ [e.2.2]).tail, p ≠ (st1.paths ++ [e.2.2]).headD []
    rw [tail_append_single _ _ hinv1.pne, headD_append_single _ _ _ hinv1.pne]
    intro p hp
    rcases List.mem_append.mp hp with h | h
    · exact hinv1.ptail p h
    · rcases List.mem_singleton.mp h with rfl
      exact hH
  · show ∀ b ∈ B2, IsPath g0 s t b.2.2 ∧ b.2.2.Nodup ∧
      getPathLength g0 b.2.2 = b.1 ∧ b.2.2 ≠ (st1.paths ++ [e.2.2]).headD []
    rw [headD_append_single _ _ _ hinv1.pne]
    intro b hb
    exact hinv1.bgood b (extractMinB_sub hx b hb)

theorem mainLoop_inv {g0 : Graph} (hg0 : GoodGraph g0) {s t : Nat} :
    ∀ (fuel : Nat) (st : YState), YInv g0 s t st →
      YInv g0 s t (mainLoop g0 t fuel st)
  | 0, _, hinv => hinv
  | fuel + 1, st, hinv => by
    have hgoal : mainLoop g0 t (fuel + 1) st =
        match extractMinB (jLoop g0 t st).B with
        | some (e, B2) =>
          mainLoop g0 t fuel
            { jLoop g0 t st with
              lengths := (jLoop g0 t st).lengths ++ [e.1]
              paths := (jLoop g0 t st).paths ++ [e.2.2]
              B := B2 }
        | none => jLoop g0 t st := rfl
    rw [hgoal]
    have hinv1 : YInv g0 s t (jLoop g0 t st) := jLoop_inv hg0 hinv
    cases hx : extractMinB (jLoop g0 t st).B with
    | none => exact hinv1
    | some pr =>
      rcases pr with ⟨e, B2⟩
      exact mainLoop_inv hg0 fuel _ (accept_inv hinv1 hx)

/-- The main loop only appends results: the first accepted length and path
survive to the end. -/
theorem mainLoop_heads (g0 : Graph) (t : Nat) :
    ∀ (fuel : Nat) (st : YState), st.paths ≠ [] → st.lengths ≠ [] →
      (mainLoop g0 t fuel st).lengths.head? = st.lengths.head? ∧
        (mainLoop g0 t fuel st).paths.head? = st.paths.head?
  | 0, _, _, _ => ⟨rfl, rfl⟩
  | fuel + 1, st, hp, hl => by
    have hgoal : mainLoop g0 t (fuel + 1) st =
        match extractMinB (jLoop g0 t st).B with
        | some (e, B2) =>
          mainLoop g0 t fuel
            { jLoop g0 t st with
              lengths := (jLoop g0 t st).lengths ++ [e.1]
              paths := (jLoop g0 t st).paths ++ [e.2.2]
              B := B2 }
        | none => jLoop g0 t st := rfl
    rw [hgoal]
    cases hx : extractMinB (jLoop g0 t st).B with
    | none =>
      constructor
      · rw [jLoop_lengths]
      · rw [jLoop_paths]
    | some pr =>
      rcases pr with ⟨e, B2⟩
      have hp1 : (jLoop g0 t st).paths ≠ [] := by
        rw [jLoop_paths]
        exact hp
      have hl1 : (jLoop g0 t st).lengths ≠ [] := by
        rw [jLoop_lengths]
        exact hl
      have hrec := mainLoop_heads g0 t fuel
        { jLoop g0 t st with
          lengths := (jLoop g0 t st).lengths ++ [e.1]
          paths := (jLoop g0 t st).paths ++ [e.2.2]
          B := B2 }
        (by show (jLoop g0 t st).paths ++ [e.2.2] ≠ []; simp)
        (by show (jLoop g0 t st).lengths ++ [e.1] ≠ []; simp)
      constructor
      · rw [hrec.1]
        show ((jLoop g0 t st).lengths ++ [e.1]).head? = st.lengths.head?
        rw [head?_append_single _ _ hl1, jLoop_lengths]
      · rw [hrec.2]
        show ((jLoop g0 t st).paths ++ [e.2.2]).head? = st.paths.head?
        rw [head?_append_single _ _ hp1, jLoop_paths]

/-- The invariant holds on entry to the main loop. -/
theorem initState_inv {g0 : Graph} {s t d : Nat} {p : List Nat}
    (hg0 : GoodGraph g0) (h : singleSourceDijkstra g0 s t = some (d, p)) :
    YInv g0 s t (initState g0 d p) := by
  rcases dijkstra_some hg0.weightWF h with ⟨hP, hC, hN, -⟩
  refine ⟨GEquiv.refl g0, ?_, ?_, ?_, ?_, ?_⟩
  · show [p] ≠ []
    simp
  · intro p2 hp2
    rcases List.mem_singleton.mp hp2 with rfl
    exact ⟨hP, hN⟩
  · show List.Forall₂ (fun l p2 => getPathLength g0 p2 = l) [d] [p]
    exact List.Forall₂.cons hC List.Forall₂.nil
  · intro p2 hp2
    exact absurd hp2 (List.not_mem_nil p2)
  · intro b hb
    exact absurd hb (List.not_mem_nil b)

/-! ## Concrete instance used for counterexamples and witnesses -/

/-- A four-node directed graph: `0→1 (1)`, `1→2 (1)`, `1→3 (1)`,
`0→2 (3)`, `2→3 (1)`.  Running `k_shortest_paths` on it with `k = 4`
returns the path `[0, 2, 3]` twice. -/
def ceG : Graph :=
  { directed := true, nodes := [0, 1, 2, 3],
    edges := [((0, 1), 1), ((1, 2), 1), ((1, 3), 1), ((0, 2), 3), ((2, 3), 1)] }

/-! ## Further helpers for the claim proofs -/

/-- The spur node of a valid spur position is never the target. -/
theorem spur_ne_target {g0 : Graph} {s t : Nat} {last : List Nat}
    (hP : IsPath g0 s t last) (hN : last.Nodup) {j : Nat}
    (hj : j + 1 < last.length) : last.getD j 0 ≠ t := by
  have hjlen : j < last.length := by omega
  have hrootP : IsPath g0 s (last.getD j 0) (last.take (j + 1)) :=
    isPath_take j last s t hP hjlen
  have hrootne : last.take (j + 1) ≠ [] := hrootP.ne_nil
  have hdisj : List.Disjoint (last.take (j + 1)) (last.drop (j + 1)) := by
    refine List.disjoint_of_nodup_append ?_
    rw [List.take_append_drop]
    exact hN
  have hdropP : IsPath g0 (last.getD (j + 1) 0) t (last.drop (j + 1)) :=
    isPath_drop (j + 1) last s t hP hj
  have htmem : t ∈ last.drop (j + 1) := by
    have hne2 : last.drop (j + 1) ≠ [] := hdropP.ne_nil
    rw [← getLast_of_isPath hdropP hne2]
    exact List.getLast_mem hne2
  have hsmem : last.getD j 0 ∈ last.take (j + 1) := by
    rw [← getLast_of_isPath hrootP hrootne]
    exact List.getLast_mem hrootne
  intro hst2
  rw [hst2] at hsmem
  exact hdisj hsmem htmem

theorem getD_mem_of_lt {α : Type} : ∀ (l : List α) (d : α) (i : Nat),
    i < l.length → l.getD i d ∈ l
  | [], _, _, hi => by simp at hi
  | a :: l, _, 0, _ => List.mem_cons_self a l
  | a :: l, d, i + 1, hi => by
    refine List.mem_cons_of_mem a (getD_mem_of_lt l d i ?_)
    simpa using hi

theorem getD_mem_tail {α : Type} : ∀ (l : List α) (d : α) (i : Nat), 1 ≤ i →
    i < l.length → l.getD i d ∈ l.tail
  | [], _, _, _, hi => by simp at hi
  | a :: l, d, i, h1, hi => by
    obtain ⟨i2, rfl⟩ : ∃ i2, i = i2 + 1 := ⟨i - 1, by omega⟩
    show l.getD i2 d ∈ l
    refine getD_mem_of_lt l d i2 ?_
    simpa using hi

/-! ## The claims -/

/-- C8: when `source == target`, `k_shortest_paths` returns exactly
`([0], [[source]])`, without invoking the search. -/
theorem claim_C8 (g : Graph) (s k : Nat) :
    kShortestPaths g s s k = KspResult.ok [0] [[s]] := by
  unfold kShortestPaths
  rw [if_pos rfl]

/-- C6: with `source ≠ target`, the `NetworkXNoPath` error is raised if
and only if the target is unreachable from the source in the original
graph; the error outcome carries no partial results. -/
theorem claim_C6 (g : Graph) (s t k : Nat) (hg : GoodGraph g) (hst : s ≠ t) :
    kShortestPaths g s t k = KspResult.noPath ↔ ∀ q, ¬ IsPath g s t q := by
  unfold kShortestPaths
  rw [if_neg hst]
  constructor
  · intro h
    cases hd : singleSourceDijkstra g s t with
    | some dp =>
      rw [hd] at h
      cases h
    | none => exact dijkstra_none hg.weightWF hst hd
  · intro h
    cases hd : singleSourceDijkstra g s t with
    | some dp =>
      rcases dijkstra_some hg.weightWF hd with ⟨hP, -, -, -⟩
      exact absurd hP (h dp.2)
    | none => rfl

/-- C5: a run of the main loop leaves the working graph observably equal
to the input graph: same directedness, same node list, and every edge
weight unchanged (every pruned edge was restored). -/
theorem claim_C5 (g : Graph) (t k d : Nat) (p : List Nat) (hn : g.nodes.Nodup) :
    GEquiv (mainLoop g t (k - 1) (initState g d p)).g g :=
  mainLoop_gequiv g t (k - 1) (initState g d p) hn

/-- C1: on success the first returned entry is the true shortest path:
`lengths[0]` is the minimal path cost from `s` to `t` on the original
graph and `paths[0]` realizes it. -/
theorem claim_C1 (g : Graph) (s t k : Nat) (hg : GoodGraph g)
    {lengths : List Nat} {paths : List (List Nat)}
    (h : kShortestPaths g s t k = KspResult.ok lengths paths) :
    ∃ l p, lengths.head? = some l ∧ paths.head? = some p ∧
      IsPath g s t p ∧ getPathLength g p = l ∧
      ∀ q, IsPath g s t q → l ≤ getPathLength g q := by
  unfold kShortestPaths at h
  by_cases hst : s = t
  · rw [if_pos hst] at h
    injection h with h1 h2
    subst h1
    subst h2
    subst hst
    exact ⟨0, [s], rfl, rfl, isPath_refl g s, rfl, fun q hq => Nat.zero_le _⟩
  · rw [if_neg hst] at h
    cases hd : singleSourceDijkstra g s t with
    | none =>
      rw [hd] at h
      cases h
    | some dp =>
      rw [hd] at h
      injection h with h1 h2
      subst h1
      subst h2
      have hheads := mainLoop_heads g t (k - 1) (initState g dp.1 dp.2)
        (by show [dp.2] ≠ []; simp) (by show [dp.1] ≠ []; simp)
      rcases dijkstra_some hg.weightWF hd with ⟨hP, hC, hN, hmin⟩
      refine ⟨dp.1, dp.2, ?_, ?_, hP, hC, hmin⟩
      · rw [hheads.1]
        rfl
      · rw [hheads.2]
        rfl

/-- C3: every returned path starts at the source, ends at the target and
contains no repeated node. -/
theorem claim_C3 (g : Graph) (s t k : Nat) (hg : GoodGraph g)
    {lengths : List Nat} {paths : List (List Nat)}
    (h : kShortestPaths g s t k = KspResult.ok lengths paths) :
    ∀ p ∈ paths, p.head? = some s ∧ p.getLast? = some t ∧ p.Nodup := by
  unfold kShortestPaths at h
  by_cases hst : s = t
  · rw [if_pos hst] at h
    injection h with h1 h2
    subst h1
    subst h2
    intro p hp
    rcases List.mem_singleton.mp hp with rfl
    subst hst
    exact ⟨rfl, rfl, List.nodup_singleton s⟩
  · rw [if_neg hst] at h
    cases hd : singleSourceDijkstra g s t with
    | none =>
      rw [hd] at h
      cases h
    | some dp =>
      rw [hd] at h
      injection h with h1 h2
      subst h1
      subst h2
      have hinv := mainLoop_inv hg (k - 1) (initState g dp.1 dp.2)
        (initState_inv hg hd)
      intro p hp
      rcases hinv.pgood p hp with ⟨hP, hN⟩
      exact ⟨hP.1, hP.2.1, hN⟩

/-- C9: on success, each reported length equals the weight sum of the
corresponding returned path taken on the original, unpruned graph. -/
theorem claim_C9 (g : Graph) (s t k : Nat) (hg : GoodGraph g)
    {lengths : List Nat} {paths : List (List Nat)}
    (h : kShortestPaths g s t k = KspResult.ok lengths paths) :
    List.Forall₂ (fun l p => getPathLength g p = l) lengths paths := by
  unfold kShortestPaths at h
  by_cases hst : s = t
  · rw [if_pos hst] at h
    injection h with h1 h2
    subst h1
    subst h2
    exact List.Forall₂.cons rfl List.Forall₂.nil
  · rw [if_neg hst] at h
    cases hd : singleSourceDijkstra g s t with
    | none =>
      rw [hd] at h
      cases h
    | some dp =>
      rw [hd] at h
      injection h with h1 h2
      subst h1
      subst h2
      exact (mainLoop_inv hg (k - 1) (initState g dp.1 dp.2)
        (initState_inv hg hd)).pcost

/-- C4 (amended): the algorithm performs no deduplication and can return
the same path twice (see the counterexample), but every returned path
beyond index 0 does differ from the first returned path. -/
theorem claim_C4 (g : Graph) (s t k : Nat) (hg : GoodGraph g)
    {lengths : List Nat} {paths : List (List Nat)}
    (h : kShortestPaths g s t k = KspResult.ok lengths paths) :
    ∀ i, 1 ≤ i → i < paths.length → paths.getD i [] ≠ paths.getD 0 [] := by
  unfold kShortestPaths at h
  by_cases hst : s = t
  · rw [if_pos hst] at h
    injection h with h1 h2
    subst h1
    subst h2
    intro i h1 hi
    simp at hi
    omega
  · rw [if_neg hst] at h
    cases hd : singleSourceDijkstra g s t with
    | none =>
      rw [hd] at h
      cases h
    | some dp =>
      rw [hd] at h
      injection h with h1 h2
      subst h1
      subst h2
      have hinv := mainLoop_inv hg (k - 1) (initState g dp.1 dp.2)
        (initState_inv hg hd)
      intro i h1 hi
      rw [getD_zero_headD]
      exact hinv.ptail _ (getD_mem_tail _ [] i h1 hi)

/-- C10: in every reachable state of the main loop, whenever an accepted
path `c` passes the guard `len(c) > j` and `root = c[:j+1]` of the
prefix-sharing pruning step, the access `c[j+1]` is in bounds:
`j + 1 < len(c)`. -/
theorem claim_C10 (g : Graph) (s t : Nat) (hg : GoodGraph g) (_hst : s ≠ t)
    (d : Nat) (p : List Nat) (h : singleSourceDijkstra g s t = some (d, p))
    (i : Nat) (st : YState) (hreach : st = mainLoop g t i (initState g d p))
    (j : Nat) (hj : j + 1 < (st.paths.getLastD []).length)
    (c : List Nat) (hc : c ∈ st.paths) (hguard : j < c.length)
    (hpref : rootOf st j = c.take (j + 1)) : j + 1 < c.length := by
  have hinv : YInv g s t st := by
    rw [hreach]
    exact mainLoop_inv hg i (initState g d p) (initState_inv hg h)
  by_contra hcon
  have hlen : c.length = j + 1 := by omega
  have hctake : c.take (j + 1) = c := List.take_of_length_le (le_of_eq hlen)
  have hrc : rootOf st j = c := by rw [hpref, hctake]
  rcases hinv.pgood c hc with ⟨hcP, -⟩
  have hlastm : st.paths.getLastD [] ∈ st.paths := getLastD_mem st.paths [] hinv.pne
  rcases hinv.pgood _ hlastm with ⟨hlastP, hlastN⟩
  have hjlen : j < (st.paths.getLastD []).length := by omega
  have hrootP : IsPath g s ((st.paths.getLastD []).getD j 0) (rootOf st j) :=
    isPath_take j _ s t hlastP hjlen
  have hspur : (st.paths.getLastD []).getD j 0 = t := by
    have h1 : (rootOf st j).getLast? =
        some ((st.paths.getLastD []).getD j 0) := hrootP.2.1
    have h2 : c.getLast? = some t := hcP.2.1
    rw [hrc] at h1
    rw [h1] at h2
    exact Option.some.inj h2
  exact absurd hspur (spur_ne_target hlastP hlastN hj)

/-! ## Enumeration of loopless paths (reference, for claim C7) -/

/-- `sPaths g t fuel pre u` lists `pre ++ q` for every duplicate-free path
`q` from `u` to `t` of length at most `fuel` that avoids `pre`. -/
def sPaths (g : Graph) (t : Nat) : Nat → List Nat → Nat → List (List Nat)
  | 0, _, _ => []
  | fuel + 1, pre, u =>
    if u = t then [pre ++ [u]]
    else
      (g.nodes.filter fun v => g.hasEdge u v && decide (v ∉ pre ++ [u])).foldr
        (fun v acc => sPaths g t fuel (pre ++ [u]) v ++ acc) []

/-- All loopless paths from `s` to `t` (complete by `simplePaths_complete`). -/
def simplePaths (g : Graph) (s t : Nat) : List (List Nat) :=
  sPaths g t (g.nodes.length + 1) [] s

theorem mem_foldr_append {β : Type} {f : Nat → List β} :
    ∀ (vs : List Nat) (v : Nat), v ∈ vs → ∀ x ∈ f v,
      x ∈ vs.foldr (fun v2 acc => f v2 ++ acc) []
  | [], _, hv, _, _ => absurd hv (List.not_mem_nil _)
  | v2 :: vs, v, hv, x, hx => by
    rw [List.foldr_cons]
    rcases List.mem_cons.mp hv with rfl | hv2
    · exact List.mem_append.mpr (Or.inl hx)
    · exact List.mem_append.mpr (Or.inr (mem_foldr_append vs v hv2 x hx))

theorem sPaths_complete {g : Graph} (hw : WeightWF g) {t : Nat} :
    ∀ (fuel : Nat) (q : List Nat) (u : Nat) (pre : List Nat),
      IsPath g u t q → (pre ++ q).Nodup → q.length ≤ fuel →
      pre ++ q ∈ sPaths g t fuel pre u
  | 0, q, u, pre, hq, _, hlen => by
    cases q with
    | nil => exact absurd rfl hq.ne_nil
    | cons a q2 => simp at hlen
  | _ + 1, [], u, pre, hq, _, _ => absurd rfl hq.ne_nil
  | fuel + 1, [a], u, pre, hq, _, _ => by
    rcases isPath_singleton.mp hq with ⟨h1, h2⟩
    show pre ++ [a] ∈ sPaths g t (fuel + 1) pre u
    unfold sPaths
    rw [if_pos (by rw [h1, h2])]
    rw [← h1]
    exact List.mem_singleton.mpr rfl
  | fuel + 1, a :: b :: q2, u, pre, hq, hnd, hlen => by
    rcases isPath_tail hq with ⟨hq2, hedge, hua⟩
    rw [hua]
    have hnd2 : (a :: b :: q2).Nodup := hnd.of_append_right
    have hanb : a ∉ b :: q2 := (List.nodup_cons.mp hnd2).1
    have htmem : t ∈ b :: q2 := by
      have hne2 : (b :: q2) ≠ [] := by simp
      rw [← getLast_of_isPath hq2 hne2]
      exact List.getLast_mem hne2
    have hat : ¬ a = t := by
      intro hcon
      rw [← hcon] at htmem
      exact hanb htmem
    show pre ++ a :: b :: q2 ∈ sPaths g t (fuel + 1) pre a
    unfold sPaths
    rw [if_neg hat]
    rcases Option.isSome_iff_exists.mp hedge with ⟨w, hwab⟩
    have hbn : b ∈ g.nodes := (hw a b w hwab).2
    have hbpre : b ∉ pre ++ [a] := by
      intro hcon
      rcases List.mem_append.mp hcon with hbp | hba
      · exact (List.disjoint_of_nodup_append hnd) hbp
          (List.mem_cons_of_mem a (List.mem_cons_self b q2))
      · have hba2 : b = a := List.mem_singleton.mp hba
        refine hanb ?_
        rw [← hba2]
        exact List.mem_cons_self b q2
    have hbfilter : b ∈ g.nodes.filter
        (fun v => g.hasEdge a v && decide (v ∉ pre ++ [a])) := by
      rw [List.mem_filter]
      refine ⟨hbn, ?_⟩
      rw [Bool.and_eq_true]
      exact ⟨hedge, decide_eq_true hbpre⟩
    have hassoc : pre ++ a :: b :: q2 = (pre ++ [a]) ++ b :: q2 := by
      rw [List.append_assoc]
      rfl
    have hIH := sPaths_complete hw fuel (b :: q2) b (pre ++ [a]) hq2
      (by rw [← hassoc]; exact hnd)
      (by simp only [List.length_cons] at hlen ⊢; omega)
    rw [hassoc]
    exact mem_foldr_append _ b hbfilter _ hIH

/-- Every loopless path from `s` to `t` appears in `simplePaths g s t`. -/
theorem simplePaths_complete {g : Graph} (hg : GoodGraph g) {s t : Nat}
    {p : List Nat} (hp : IsPath g s t p) (hnd : p.Nodup) :
    p ∈ simplePaths g s t := by
  have hlen : p.length ≤ g.nodes.length + 1 := by
    cases p with
    | nil => simp
    | cons a q =>
      cases q with
      | nil => simp
      | cons b q2 =>
        have hmem := isPath_mem_nodes hg.weightWF (a :: b :: q2) s t hp (by simp)
        have hle := nodup_subset_length hnd hmem
        omega
  exact sPaths_complete hg.weightWF (g.nodes.length + 1) p s [] hp hnd hlen

/-- The main loop adds at most one result per round. -/
theorem mainLoop_paths_le (g0 : Graph) (t : Nat) :
    ∀ (fuel : Nat) (st : YState),
      (mainLoop g0 t fuel st).paths.length ≤ st.paths.length + fuel
  | 0, _ => Nat.le_add_right _ _
  | fuel + 1, st => by
    have hgoal : mainLoop g0 t (fuel + 1) st =
        match extractMinB (jLoop g0 t st).B with
        | some (e, B2) =>
          mainLoop g0 t fuel
            { jLoop g0 t st with
              lengths := (jLoop g0 t st).lengths ++ [e.1]
              paths := (jLoop g0 t st).paths ++ [e.2.2]
              B := B2 }
        | none => jLoop g0 t st := rfl
    rw [hgoal]
    cases hx : extractMinB (jLoop g0 t st).B with
    | none =>
      rw [jLoop_paths]
      omega
    | some pr =>
      rcases pr with ⟨e, B2⟩
      have hrec := mainLoop_paths_le g0 t fuel
        { jLoop g0 t st with
          lengths := (jLoop g0 t st).lengths ++ [e.1]
          paths := (jLoop g0 t st).paths ++ [e.2.2]
          B := B2 }
      have hlen : ((jLoop g0 t st).paths ++ [e.2.2]).length = st.paths.length + 1 := by
        rw [List.length_append, jLoop_paths]
        rfl
      have hrec2 : (mainLoop g0 t fuel
          { jLoop g0 t st with
            lengths := (jLoop g0 t st).lengths ++ [e.1]
            paths := (jLoop g0 t st).paths ++ [e.2.2]
            B := B2 }).paths.length ≤ st.paths.length + 1 + fuel := by
        rw [← hlen]
        exact hrec
      show (mainLoop g0 t fuel
        { jLoop g0 t st with
          lengths := (jLoop g0 t st).lengths ++ [e.1]
          paths := (jLoop g0 t st).paths ++ [e.2.2]
          B := B2 }).paths.length ≤ st.paths.length + (fuel + 1)
      omega

/-- C7 (amended): whenever the target is reachable (or equals the source),
the call succeeds with between `1` and `max k 1` results, the lengths list
parallel to the paths list; the claimed bound "fewer than `k` results when
fewer than `k` loopless paths exist" is refuted by the counterexample. -/
theorem claim_C7 (g : Graph) (s t k : Nat) (hg : GoodGraph g)
    (hreach : s = t ∨ ∃ q, IsPath g s t q) :
    ∃ lengths paths, kShortestPaths g s t k = KspResult.ok lengths paths ∧
      lengths.length = paths.length ∧ 1 ≤ paths.length ∧
      paths.length ≤ max k 1 := by
  by_cases hst : s = t
  · refine ⟨[0], [[s]], ?_, rfl, by simp, ?_⟩
    · rw [hst]
      exact claim_C8 g t k
    · exact le_max_right k 1
  · rcases hreach with h | ⟨q, hq⟩
    · exact absurd h hst
    · have hsome : (singleSourceDijkstra g s t).isSome = true :=
        dijkstra_isSome_of_path hg.weightWF hq
      cases hd : singleSourceDijkstra g s t with
      | none =>
        rw [hd] at hsome
        cases hsome
      | some dp =>
        refine ⟨(mainLoop g t (k - 1) (initState g dp.1 dp.2)).lengths,
          (mainLoop g t (k - 1) (initState g dp.1 dp.2)).paths, ?_, ?_, ?_, ?_⟩
        · unfold kShortestPaths
          rw [if_neg hst, hd]
        · exact List.Forall₂.length_eq
            (mainLoop_inv hg (k - 1) (initState g dp.1 dp.2)
              (initState_inv hg hd)).pcost
        · have hne := (mainLoop_inv hg (k - 1) (initState g dp.1 dp.2)
            (initState_inv hg hd)).pne
          exact List.length_pos.mpr hne
        · have hle := mainLoop_paths_le g t (k - 1) (initState g dp.1 dp.2)
          have h1 : (initState g dp.1 dp.2).paths.length = 1 := rfl
          rw [h1] at hle
          omega

/-- C4 is refuted on a concrete valid input: `ceG` with `k = 4` returns
the path `[0, 2, 3]` at both index 2 and index 3. -/
theorem claim_C4_counterexample :
    GoodGraph ceG ∧
    kShortestPaths ceG 0 3 4 =
      KspResult.ok [2, 3, 4, 4] [[0, 1, 3], [0, 1, 2, 3], [0, 2, 3], [0, 2, 3]] ∧
    ([[0, 1, 3], [0, 1, 2, 3], [0, 2, 3], [0, 2, 3]] : List (List Nat)).getD 2 [] =
      [[0, 1, 3], [0, 1, 2, 3], [0, 2, 3], [0, 2, 3]].getD 3 [] := by
  refine ⟨by decide, by decide, rfl⟩

/-- C7 is refuted on a concrete valid input: only three distinct loopless
paths lead from `0` to `3` in `ceG`, yet `k = 4` returns four entries. -/
theorem claim_C7_counterexample :
    GoodGraph ceG ∧
    (∀ p, IsPath ceG 0 3 p → p.Nodup →
      p ∈ [[0, 1, 3], [0, 1, 2, 3], [0, 2, 3]]) ∧
    kShortestPaths ceG 0 3 4 =
      KspResult.ok [2, 3, 4, 4] [[0, 1, 3], [0, 1, 2, 3], [0, 2, 3], [0, 2, 3]] ∧
    ¬ ([[0, 1, 3], [0, 1, 2, 3], [0, 2, 3], [0, 2, 3]] : List (List Nat)).length < 4 := by
  refine ⟨by decide, ?_, by decide, by decide⟩
  intro p hp hnd
  have h1 := simplePaths_complete (by decide) hp hnd
  have h2 : ∀ x ∈ simplePaths ceG 0 3,
      x ∈ [[0, 1, 3], [0, 1, 2, 3], [0, 2, 3]] := by decide
  exact h2 p h1

theorem claim_C1_witness :
    ∃ l p, ([2] : List Nat).head? = some l ∧
      ([[0, 1, 3]] : List (List Nat)).head? = some p ∧
      IsPath ceG 0 3 p ∧ getPathLength ceG p = l ∧
      ∀ q, IsPath ceG 0 3 q → l ≤ getPathLength ceG q :=
  claim_C1 ceG 0 3 1 (by decide) (by decide)

theorem claim_C3_witness :
    ([0, 1, 2, 3] : List Nat).head? = some 0 ∧
      ([0, 1, 2, 3] : List Nat).getLast? = some 3 ∧
      ([0, 1, 2, 3] : List Nat).Nodup :=
  @claim_C3 ceG 0 3 4 (by decide) [2, 3, 4, 4]
    [[0, 1, 3], [0, 1, 2, 3], [0, 2, 3], [0, 2, 3]] (by decide)
    [0, 1, 2, 3] (by decide)

theorem claim_C4_witness :
    ([[0, 1, 3], [0, 1, 2, 3], [0, 2, 3], [0, 2, 3]] : List (List Nat)).getD 1 [] ≠
      [[0, 1, 3], [0, 1, 2, 3], [0, 2, 3], [0, 2, 3]].getD 0 [] :=
  @claim_C4 ceG 0 3 4 (by decide) [2, 3, 4, 4]
    [[0, 1, 3], [0, 1, 2, 3], [0, 2, 3], [0, 2, 3]] (by decide)
    1 (by decide) (by decide)

theorem claim_C5_witness :
    GEquiv (mainLoop ceG 3 (4 - 1) (initState ceG 2 [0, 1, 3])).g ceG :=
  claim_C5 ceG 3 4 2 [0, 1, 3] (by decide)

theorem claim_C6_witness :
    (kShortestPaths ceG 3 0 2 = KspResult.noPath ↔ ∀ q, ¬ IsPath ceG 3 0 q) :=
  claim_C6 ceG 3 0 2 (by decide) (by decide)

theorem claim_C7_witness :
    ∃ lengths paths, kShortestPaths ceG 0 3 2 = KspResult.ok lengths paths ∧
      lengths.length = paths.length ∧ 1 ≤ paths.length ∧
      paths.length ≤ max 2 1 :=
  claim_C7 ceG 0 3 2 (by decide) (Or.inr ⟨[0, 1, 3], by decide⟩)

theorem claim_C9_witness :
    List.Forall₂ (fun l p => getPathLength ceG p = l) [2, 3, 4, 4]
      [[0, 1, 3], [0, 1, 2, 3], [0, 2, 3], [0, 2, 3]] :=
  claim_C9 ceG 0 3 4 (by decide) (by decide)

theorem claim_C10_witness : 0 + 1 < ([0, 1, 3] : List Nat).length :=
  claim_C10 ceG 0 3 (by decide) (by decide) 2 [0, 1, 3] (by decide) 1
    (mainLoop ceG 3 1 (initState ceG 2 [0, 1, 3])) rfl 0 (by decide)
    [0, 1, 3] (by decide) (by decide) (by decide)

/-! ## Helpers for claim C2 (monotone lengths) -/

theorem take_one_of_isPath {g : Graph} {s t : Nat} {p : List Nat}
    (h : IsPath g s t p) : p.take 1 = [s] := by
  cases p with
  | nil => cases h.1
  | cons a tl =>
    have h2 : some a = some s := h.1
    have h3 : a = s := Option.some.inj h2
    show [a] = [s]
    rw [h3]

theorem getD_take_eq : ∀ (l : List Nat) (n i : Nat), i < n →
    (l.take n).getD i 0 = l.getD i 0
  | _, 0, _, h => absurd h (by omega)
  | [], _ + 1, _, _ => rfl
  | _ :: _, _ + 1, 0, _ => rfl
  | a :: l, n + 1, i + 1, h => by
    show (l.take n).getD i 0 = l.getD i 0
    exact getD_take_eq l n i (by omega)

theorem take_succ_getD : ∀ (l : List Nat) (m : Nat), m < l.length →
    l.take (m + 1) = l.take m ++ [l.getD m 0]
  | [], m, h => by simp at h
  | a :: l, 0, _ => rfl
  | a :: l, m + 1, h => by
    show a :: l.take (m + 1) = (a :: l.take m) ++ [l.getD m 0]
    rw [take_succ_getD l m (by simpa using h)]
    rfl

theorem getD_drop : ∀ (l : List Nat) (n i : Nat),
    (l.drop n).getD i 0 = l.getD (n + i) 0
  | l, 0, i => by
    rw [Nat.zero_add]
    rfl
  | [], _ + 1, _ => rfl
  | a :: l, n + 1, i => by
    have h1 : n + 1 + i = (n + i) + 1 := by omega
    rw [h1]
    show (l.drop n).getD i 0 = l.getD (n + i) 0
    exact getD_drop l n i

theorem getLastD_append_single {α : Type} (l : List α) (x d : α) :
    (l ++ [x]).getLastD d = x := by
  rw [List.getLastD_eq_getLast?, List.getLast?_concat]
  rfl

theorem getLastD_of_getLast? {α : Type} {l : List α} {a : α} (d : α)
    (h : l.getLast? = some a) : l.getLastD d = a := by
  rw [List.getLastD_eq_getLast?, h]
  rfl

theorem isEmpty_false_of_ne {α : Type} {l : List α} (h : l ≠ []) :
    l.isEmpty = false := by
  cases l with
  | nil => exact absurd rfl h
  | cons a tl => rfl

theorem chain_append_single : ∀ (l : List Nat) (x : Nat),
    l.Chain' (· ≤ ·) → (l ≠ [] → l.getLastD 0 ≤ x) →
    (l ++ [x]).Chain' (· ≤ ·)
  | [], x, _, _ => List.chain'_singleton x
  | [a], x, _, hle => by
    refine List.chain'_cons.mpr ⟨?_, List.chain'_singleton x⟩
    exact hle (by simp)
  | a :: b :: l, x, hch, hle => by
    rcases List.chain'_cons.mp hch with ⟨hab, hrest⟩
    refine List.chain'_cons.mpr ⟨hab, ?_⟩
    exact chain_append_single (b :: l) x hrest fun _ => hle (by simp)

theorem chain_getD_le : ∀ (l : List Nat), l.Chain' (· ≤ ·) →
    ∀ i, i + 1 < l.length → l.getD i 0 ≤ l.getD (i + 1) 0
  | [], _, i, h => by simp at h
  | [a], _, i, h => by simp at h
  | a :: b :: l, hch, i, h => by
    rcases List.chain'_cons.mp hch with ⟨hab, hrest⟩
    cases i with
    | zero => exact hab
    | succ i2 =>
      show (b :: l).getD i2 0 ≤ (b :: l).getD (i2 + 1) 0
      exact chain_getD_le (b :: l) hrest i2 (by simpa using h)

/-- Pruning congruence: observably equal graphs prune to observably equal
graphs. -/
theorem prunedGraph_gequiv {g1 g2 : Graph} (h : GEquiv g1 g2) (hw2 : WeightWF g2)
    (paths : List (List Nat)) (root : List Nat) (j : Nat) :
    GEquiv (prunedGraph paths root j g1) (prunedGraph paths root j g2) := by
  have hw1 : WeightWF g1 := weightWF_of_gequiv h hw2
  refine ⟨?_, ?_, ?_⟩
  · rw [prunedGraph_directed, prunedGraph_directed, h.1]
  · rw [prunedGraph_nodes, prunedGraph_nodes, h.2.1]
  · intro a b
    rw [prunedGraph_weight paths root j hw1 a b,
      prunedGraph_weight paths root j hw2 a b, h.1, h.2.2 a b]

/-- Pruning against more accepted paths removes at least as many edges. -/
theorem pruned_mono {g : Graph} (hw : WeightWF g) {paths1 paths2 : List (List Nat)}
    (hsub : ∀ c ∈ paths1, c ∈ paths2) (root : List Nat) (j : Nat) :
    Subw (prunedGraph paths2 root j g) (prunedGraph paths1 root j g) := by
  intro a b w hab
  rw [prunedGraph_weight paths2 root j hw a b] at hab
  rw [prunedGraph_weight paths1 root j hw a b]
  by_cases h2 : DevMatch paths2 root j g.directed a b ∨
      a ∈ root.dropLast ∨ b ∈ root.dropLast
  · rw [if_pos h2] at hab
    cases hab
  · rw [if_neg h2] at hab
    have h1 : ¬ (DevMatch paths1 root j g.directed a b ∨
        a ∈ root.dropLast ∨ b ∈ root.dropLast) := by
      intro hcase
      apply h2
      rcases hcase with hdm | h | h
      · left
        unfold DevMatch at hdm ⊢
        rcases hdm with ⟨c, hc, hrest⟩
        exact ⟨c, hsub c hc, hrest⟩
      · exact Or.inr (Or.inl h)
      · exact Or.inr (Or.inr h)
    rw [if_neg h1]
    exact hab

/-- An edge chain of the base graph that avoids the interior root nodes and
whose adjacent pairs never match a pruned deviation edge is an edge chain
of the pruned graph. -/
theorem edgeChain_pruned {g0 : Graph} (hw : WeightWF g0) (paths : List (List Nat))
    (root : List Nat) (j : Nat) :
    ∀ (Q : List Nat), edgeChainB g0 Q = true →
      (∀ y ∈ Q, y ∉ root.dropLast) →
      (∀ ab ∈ Q.zip Q.tail, ¬ DevMatch paths root j g0.directed ab.1 ab.2) →
      edgeChainB (prunedGraph paths root j g0) Q = true
  | [], _, _, _ => rfl
  | [_], _, _, _ => rfl
  | a :: b :: Q2, hch, hy, hdm => by
    have h2 : (g0.hasEdge a b && edgeChainB g0 (b :: Q2)) = true := hch
    rcases (Bool.and_eq_true _ _).mp h2 with ⟨he, hrest⟩
    rcases Option.isSome_iff_exists.mp he with ⟨w, hw2⟩
    have hcond : ¬ (DevMatch paths root j g0.directed a b ∨
        a ∈ root.dropLast ∨ b ∈ root.dropLast) := by
      rintro (h | h | h)
      · refine hdm (a, b) ?_ h
        show (a, b) ∈ (a, b) :: ((b :: Q2).zip Q2)
        exact List.mem_cons_self _ _
      · exact hy a (List.mem_cons_self _ _) h
      · exact hy b (List.mem_cons_of_mem a (List.mem_cons_self _ _)) h
    have hwp : (prunedGraph paths root j g0).weight a b = some w := by
      rw [prunedGraph_weight paths root j hw a b, if_neg hcond]
      exact hw2
    show ((prunedGraph paths root j g0).hasEdge a b &&
      edgeChainB (prunedGraph paths root j g0) (b :: Q2)) = true
    rw [Bool.and_eq_true]
    constructor
    · show ((prunedGraph paths root j g0).weight a b).isSome = true
      rw [hwp]
      rfl
    · refine edgeChain_pruned hw paths root j (b :: Q2) hrest ?_ ?_
      · intro y hy2
        exact hy y (List.mem_cons_of_mem a hy2)
      · intro ab hab
        exact hdm ab (List.mem_cons_of_mem (a, b) hab)

/-- Prefix of a spliced candidate: root minus last node, then a path
starting at the root's last node, truncates back to the root. -/
theorem take_spliced {root q : List Nat} {j : Nat} (hlen : root.length = j + 1)
    {spur : Nat} (hne : root ≠ []) (hlast : root.getLast hne = spur)
    (hq : q.head? = some spur) : (root.dropLast ++ q).take (j + 1) = root := by
  obtain ⟨a, tl, rfl⟩ : ∃ a tl, q = a :: tl := by
    cases hc : q with
    | nil =>
      rw [hc] at hq
      cases hq
    | cons a tl => exact ⟨a, tl, rfl⟩
  have ha : a = spur := by
    have h2 : some a = some spur := hq
    exact Option.some.inj h2
  have hdl : root.dropLast.length = j := by
    rw [List.length_dropLast, hlen]
    omega
  rw [List.take_append_eq_append_take,
    List.take_of_length_le (by rw [hdl]; omega), hdl]
  have h1 : j + 1 - j = 1 := by omega
  rw [h1]
  show root.dropLast ++ [a] = root
  rw [ha, ← hlast]
  exact List.dropLast_append_getLast hne

theorem spurPush_B_mono (g0 : Graph) (t : Nat) (st : YState) (j : Nat) :
    ∀ b ∈ st.B, b ∈ (spurPush g0 t st j).B := by
  intro b hb
  unfold spurPush
  cases hd : singleSourceDijkstra (prunedGraph st.paths (rootOf st j) j st.g)
      ((st.paths.getLastD []).getD j 0) t with
  | none => exact hb
  | some dp =>
    dsimp only
    split
    · exact hb
    · exact List.mem_append.mpr (Or.inl hb)

theorem foldl_spurStep_B_mono (g0 : Graph) (t : Nat) :
    ∀ (js : List Nat) (st : YState), ∀ b ∈ st.B,
      b ∈ (js.foldl (spurStep g0 t) st).B
  | [], _, _, hb => hb
  | j :: js, st, b, hb => by
    rw [List.foldl_cons]
    refine foldl_spurStep_B_mono g0 t js (spurStep g0 t st j) b ?_
    rw [spurStep_B]
    exact spurPush_B_mono g0 t st j b hb

theorem jLoop_B_mono {g0 : Graph} {t : Nat} {st : YState} :
    ∀ b ∈ st.B, b ∈ (jLoop g0 t st).B :=
  foldl_spurStep_B_mono g0 t _ st

theorem jLoop_range_cond {g0 : Graph} {s t : Nat} {st : YState}
    (hinv : YInv g0 s t st) :
    ∀ j ∈ List.range ((st.paths.getLastD []).length - 1),
      j + 1 < (st.paths.getLastD []).length := by
  intro j hj
  rw [List.mem_range] at hj
  have hne : st.paths.getLastD [] ≠ [] :=
    ((hinv.pgood _ (getLastD_mem st.paths [] hinv.pne)).1).ne_nil
  have hlen : 0 < (st.paths.getLastD []).length := List.length_pos.mpr hne
  omega

theorem foldl_spurStep_B_chars {g0 : Graph} (hg0 : GoodGraph g0) {s t : Nat} :
    ∀ (js : List Nat) (st : YState), YInv g0 s t st →
      (∀ j ∈ js, j + 1 < (st.paths.getLastD []).length) →
      ∀ b ∈ (js.foldl (spurStep g0 t) st).B, b ∈ st.B ∨
        (IsPath g0 s t b.2.2 ∧ b.2.2.Nodup ∧ getPathLength g0 b.2.2 = b.1 ∧
          b.2.2 ∉ st.paths)
  | [], _, _, _, _, hb => Or.inl hb
  | j :: js, st, hinv, hjs, b, hb => by
    rw [List.foldl_cons] at hb
    have hinv2 := spurStep_inv hg0 hinv (hjs j (List.mem_cons_self j js))
    have hcond : ∀ j2 ∈ js,
        j2 + 1 < ((spurStep g0 t st j).paths.getLastD []).length := by
      intro j2 hj2
      rw [spurStep_paths]
      exact hjs j2 (List.mem_cons_of_mem j hj2)
    rcases foldl_spurStep_B_chars hg0 js (spurStep g0 t st j) hinv2 hcond b hb with
      h | hgood
    · rw [spurStep_B] at h
      rcases spurPush_newB hg0 hinv.geq hinv.pne hinv.pgood
        (hjs j (List.mem_cons_self j js)) b h with h2 | h2
      · exact Or.inl h2
      · exact Or.inr h2
    · rw [spurStep_paths] at hgood
      exact Or.inr hgood

/-- Every candidate on the heap after a full spur scan is either an old
entry or a fresh loopless `s`–`t` path, correctly priced, differing from
all currently accepted paths. -/
theorem jLoop_B_chars {g0 : Graph} (hg0 : GoodGraph g0) {s t : Nat}
    {st : YState} (hinv : YInv g0 s t st) :
    ∀ b ∈ (jLoop g0 t st).B, b ∈ st.B ∨
      (IsPath g0 s t b.2.2 ∧ b.2.2.Nodup ∧ getPathLength g0 b.2.2 = b.1 ∧
        b.2.2 ∉ st.paths) := by
  unfold jLoop
  exact foldl_spurStep_B_chars hg0 _ st hinv (jLoop_range_cond hinv)

/-- The spur push at position `j` covers the pair `(root, j)`: for every
path `Q` from the spur node to `t` in the canonically pruned graph, the
heap afterwards holds an entry extending the root whose total is at most
`cost root + cost Q`. -/
theorem spurPush_covers {g0 : Graph} (hg0 : GoodGraph g0) {s t : Nat}
    {st2 : YState} (hgeq : GEquiv st2.g g0) (hpne : st2.paths ≠ [])
    (hpgood : ∀ p ∈ st2.paths, IsPath g0 s t p ∧ p.Nodup) {j : Nat}
    (hj : j + 1 < (st2.paths.getLastD []).length) :
    ∀ Q, IsPath (prunedGraph st2.paths (rootOf st2 j) j g0)
        ((st2.paths.getLastD []).getD j 0) t Q →
      ∃ b ∈ (spurPush g0 t st2 j).B, b.2.2.take (j + 1) = rootOf st2 j ∧
        b.1 ≤ getPathLength g0 (rootOf st2 j) + getPathLength g0 Q := by
  intro Q hQ
  have hwf0 : WeightWF g0 := hg0.weightWF
  have hwfst : WeightWF st2.g := weightWF_of_gequiv hgeq hwf0
  have hpg : GEquiv (prunedGraph st2.paths (rootOf st2 j) j st2.g)
      (prunedGraph st2.paths (rootOf st2 j) j g0) :=
    prunedGraph_gequiv hgeq hwf0 _ _ _
  have hQ2 : IsPath (prunedGraph st2.paths (rootOf st2 j) j st2.g)
      ((st2.paths.getLastD []).getD j 0) t Q := (isPath_congr2 hpg.2.2).mpr hQ
  have hwfp : WeightWF (prunedGraph st2.paths (rootOf st2 j) j st2.g) :=
    prunedGraph_weightWF _ _ _ hwfst
  have hsome := dijkstra_isSome_of_path hwfp hQ2
  cases hd : singleSourceDijkstra (prunedGraph st2.paths (rootOf st2 j) j st2.g)
      ((st2.paths.getLastD []).getD j 0) t with
  | none =>
    rw [hd] at hsome
    cases hsome
  | some dp =>
    rcases dijkstra_some hwfp hd with ⟨hP, hC, hN, hmin⟩
    have hne2 : dp.2.isEmpty = false := isEmpty_false_of_ne hP.ne_nil
    have hlastm : st2.paths.getLastD [] ∈ st2.paths := getLastD_mem _ [] hpne
    have hlastP : IsPath g0 s t (st2.paths.getLastD []) := (hpgood _ hlastm).1
    have hjlen : j < (st2.paths.getLastD []).length := by omega
    have hrootP : IsPath g0 s ((st2.paths.getLastD []).getD j 0) (rootOf st2 j) :=
      isPath_take j _ s t hlastP hjlen
    have hrootne : rootOf st2 j ≠ [] := hrootP.ne_nil
    have hrootlen : (rootOf st2 j).length = j + 1 := by
      unfold rootOf
      rw [List.length_take]
      omega
    have hspurlast : (rootOf st2 j).getLast hrootne =
        (st2.paths.getLastD []).getD j 0 := getLast_of_isPath hrootP hrootne
    have hb := hmin Q hQ2
    have hcg : getPathLength (prunedGraph st2.paths (rootOf st2 j) j st2.g) Q =
        getPathLength g0 Q := by
      rw [getPathLength_congr2 hpg.2.2 Q]
      exact cost_sub (subw_pruned hwf0) Q hQ.2.2
    unfold spurPush
    rw [hd]
    dsimp only
    rw [if_neg (by rw [hne2]; exact fun hcon => nomatch hcon)]
    refine ⟨(getPathLength g0 (rootOf st2 j) + dp.1, st2.cnt,
      (rootOf st2 j).dropLast ++ dp.2),
      List.mem_append.mpr (Or.inr (List.mem_singleton.mpr rfl)), ?_, ?_⟩
    · exact take_spliced hrootlen hrootne hspurlast hP.1
    · show getPathLength g0 (rootOf st2 j) + dp.1 ≤
        getPathLength g0 (rootOf st2 j) + getPathLength g0 Q
      omega

theorem foldl_spurStep_covers {g0 : Graph} (hg0 : GoodGraph g0) {s t : Nat} :
    ∀ (js : List Nat) (st2 : YState), YInv g0 s t st2 →
      (∀ j2 ∈ js, j2 + 1 < (st2.paths.getLastD []).length) →
      ∀ j ∈ js, ∀ Q, IsPath (prunedGraph st2.paths (rootOf st2 j) j g0)
          ((st2.paths.getLastD []).getD j 0) t Q →
        ∃ b ∈ (js.foldl (spurStep g0 t) st2).B,
          b.2.2.take (j + 1) = rootOf st2 j ∧
          b.1 ≤ getPathLength g0 (rootOf st2 j) + getPathLength g0 Q
  | [], _, _, _, j, hj, _, _ => absurd hj (List.not_mem_nil j)
  | j2 :: js, st2, hinv, hjs, j, hj, Q, hQ => by
    rw [List.foldl_cons]
    rcases List.mem_cons.mp hj with rfl | hjmem
    · rcases spurPush_covers hg0 hinv.geq hinv.pne hinv.pgood
        (hjs j (List.mem_cons_self j js)) Q hQ with ⟨b, hbB, hbtake, hble⟩
      refine ⟨b, ?_, hbtake, hble⟩
      refine foldl_spurStep_B_mono g0 t js (spurStep g0 t st2 j) b ?_
      rw [spurStep_B]
      exact hbB
    · have hinv2 := spurStep_inv hg0 hinv (hjs j2 (List.mem_cons_self j2 js))
      have hrooteq : rootOf (spurStep g0 t st2 j2) j = rootOf st2 j := by
        unfold rootOf
        rw [spurStep_paths]
      have hcond2 : ∀ j3 ∈ js,
          j3 + 1 < ((spurStep g0 t st2 j2).paths.getLastD []).length := by
        rw [spurStep_paths]
        exact fun j3 h3 => hjs j3 (List.mem_cons_of_mem j2 h3)
      have hQ3 : IsPath (prunedGraph (spurStep g0 t st2 j2).paths
          (rootOf (spurStep g0 t st2 j2) j) j g0)
          (((spurStep g0 t st2 j2).paths.getLastD []).getD j 0) t Q := by
        rw [hrooteq, spurStep_paths]
        exact hQ
      rcases foldl_spurStep_covers hg0 js (spurStep g0 t st2 j2) hinv2 hcond2
        j hjmem Q hQ3 with ⟨b, hbB, htake, hle⟩
      rw [hrooteq] at htake hle
      exact ⟨b, hbB, htake, hle⟩

/-- After the full spur scan, every root-sharing pair of the previous path
is covered on the heap. -/
theorem jLoop_covers {g0 : Graph} (hg0 : GoodGraph g0) {s t : Nat} {st : YState}
    (hinv : YInv g0 s t st) {j : Nat}
    (hj : j + 1 < (st.paths.getLastD []).length) :
    ∀ Q, IsPath (prunedGraph st.paths (rootOf st j) j g0)
        ((st.paths.getLastD []).getD j 0) t Q →
      ∃ b ∈ (jLoop g0 t st).B, b.2.2.take (j + 1) = rootOf st j ∧
        b.1 ≤ getPathLength g0 (rootOf st j) + getPathLength g0 Q := by
  intro Q hQ
  unfold jLoop
  refine foldl_spurStep_covers hg0 _ st hinv (jLoop_range_cond hinv) j ?_ Q hQ
  rw [List.mem_range]
  omega

/-- Full heap coverage at a pop point: every accepted path, at every spur
position, has its best canonical-pruned deviation represented on the heap. -/
def CoversAll (g0 : Graph) (t : Nat) (st : YState) : Prop :=
  ∀ c ∈ st.paths, ∀ j, j + 1 < c.length →
    ∀ Q, IsPath (prunedGraph st.paths (c.take (j + 1)) j g0) (c.getD j 0) t Q →
      ∃ b ∈ st.B, b.2.2.take (j + 1) = c.take (j + 1) ∧
        b.1 ≤ getPathLength g0 (c.take (j + 1)) + getPathLength g0 Q

/-- Under full coverage, every loopless `s`–`t` path not yet accepted is
priced on the heap at no more than its own cost (Yen completeness, via the
longest accepted prefix). -/
theorem complete_of_covers {g0 : Graph} (hg0 : GoodGraph g0) {s t : Nat}
    {st : YState} (hinv : YInv g0 s t st) (hcov : CoversAll g0 t st) :
    ∀ R, IsPath g0 s t R → R.Nodup → R ∉ st.paths →
      ∃ b ∈ st.B, b.1 ≤ getPathLength g0 R := by
  intro R hR hRnd hRnot
  have hwf0 : WeightWF g0 := hg0.weightWF
  have hRlen : 0 < R.length := List.length_pos.mpr hR.ne_nil
  have hlastm : st.paths.getLastD [] ∈ st.paths := getLastD_mem _ [] hinv.pne
  have hP1 : ∃ c ∈ st.paths, c.take 1 = R.take 1 := by
    refine ⟨st.paths.getLastD [], hlastm, ?_⟩
    rw [take_one_of_isPath (hinv.pgood _ hlastm).1, take_one_of_isPath hR]
  have hPm := Nat.findGreatest_spec (P := fun l => ∃ c ∈ st.paths,
    c.take l = R.take l) (by omega : 1 ≤ R.length) hP1
  have hm1 : 1 ≤ Nat.findGreatest (fun l => ∃ c ∈ st.paths,
      c.take l = R.take l) R.length :=
    Nat.le_findGreatest (by omega) hP1
  have hmle : Nat.findGreatest (fun l => ∃ c ∈ st.paths,
      c.take l = R.take l) R.length ≤ R.length := Nat.findGreatest_le R.length
  rcases hPm with ⟨cs, hcs, hcstake⟩
  rcases hinv.pgood cs hcs with ⟨hcsP, hcsN⟩
  -- abbreviate m
  generalize hmdef : Nat.findGreatest (fun l => ∃ c ∈ st.paths,
    c.take l = R.take l) R.length = m at hcstake hm1 hmle
  have hmax : ∀ k, m < k → k ≤ R.length →
      ¬ ∃ c ∈ st.paths, c.take k = R.take k := by
    intro k hk1 hk2
    rw [← hmdef] at hk1
    exact Nat.findGreatest_is_greatest hk1 hk2
  have hmR : m < R.length := by
    rcases Nat.lt_or_ge m R.length with h | h
    · exact h
    · exfalso
      have hRm : R.take m = R := List.take_of_length_le h
      rcases Nat.lt_or_ge m cs.length with h2 | h2
      · -- R = cs.take m, t interior to cs
        have hcstake2 : cs.take ((m - 1) + 1) = R := by
          have hmm : (m - 1) + 1 = m := by omega
          rw [hmm, hcstake, hRm]
        have hip := isPath_take (m - 1) cs s t hcsP (by omega)
        rw [hcstake2] at hip
        have h3 : R.getLast? = some (cs.getD (m - 1) 0) := hip.2.1
        have h4 : R.getLast? = some t := hR.2.1
        rw [h3] at h4
        have h5 : cs.getD (m - 1) 0 = t := Option.some.inj h4
        exact absurd h5 (spur_ne_target hcsP hcsN (by omega))
      · -- cs is a prefix of R of full length: cs = R
        have hcsm : cs.take m = cs := List.take_of_length_le h2
        rw [hcsm, hRm] at hcstake
        rw [hcstake] at hcs
        exact hRnot hcs
  have hmcs : m < cs.length := by
    rcases Nat.lt_or_ge m cs.length with h | h
    · exact h
    · exfalso
      have hcsm : cs.take m = cs := List.take_of_length_le h
      rw [hcsm] at hcstake
      -- cs = R.take m, t interior to R
      have hip := isPath_take (m - 1) R s t hR (by omega)
      have hmm : (m - 1) + 1 = m := by omega
      rw [hmm] at hip
      rw [← hcstake] at hip
      have h3 : cs.getLast? = some (R.getD (m - 1) 0) := hip.2.1
      have h4 : cs.getLast? = some t := hcsP.2.1
      rw [h3] at h4
      have h5 : R.getD (m - 1) 0 = t := Option.some.inj h4
      exact absurd h5 (spur_ne_target hR hRnd (by omega))
  -- the deviation position
  obtain ⟨j, hj1⟩ : ∃ j, j + 1 = m := ⟨m - 1, by omega⟩
  have hcstake1 : cs.take (j + 1) = R.take (j + 1) := by
    rw [hj1]
    exact hcstake
  have hgd : cs.getD j 0 = R.getD j 0 := by
    have h1 := getD_take_eq cs m j (by omega)
    have h2 := getD_take_eq R m j (by omega)
    rw [← h1, hcstake, h2]
  have hQ0 : IsPath g0 (R.getD j 0) t (R.drop j) :=
    isPath_drop j R s t hR (by omega)
  have hQnd : (R.drop j).Nodup := hRnd.sublist (List.drop_sublist _ _)
  have hdisjR : List.Disjoint (R.take j) (R.drop j) := by
    refine List.disjoint_of_nodup_append ?_
    rw [List.take_append_drop]
    exact hRnd
  -- interior root nodes are outside the suffix
  have hB : ∀ y ∈ R.drop j, y ∉ (cs.take (j + 1)).dropLast := by
    intro y hy hcon
    rw [hcstake1] at hcon
    have hdll : (R.take (j + 1)).dropLast = R.take j := by
      rw [List.dropLast_eq_take, List.take_take]
      congr 1
      rw [List.length_take]
      omega
    rw [hdll] at hcon
    exact hdisjR hcon hy
  -- suffix decomposition
  obtain ⟨a, tl, hQeq⟩ : ∃ a tl, R.drop j = a :: tl := by
    cases hc : R.drop j with
    | nil =>
      rw [hc] at hQ0
      cases hQ0.1
    | cons a tl => exact ⟨a, tl, rfl⟩
  have ha : a = R.getD j 0 := by
    have h1 := hQ0.1
    rw [hQeq] at h1
    have h2 : some a = some (R.getD j 0) := h1
    exact Option.some.inj h2
  have hsecond : (R.drop j).getD 1 0 = R.getD (j + 1) 0 := getD_drop R j 1
  have hanotl : a ∉ tl := by
    have h1 : (a :: tl).Nodup := by
      rw [← hQeq]
      exact hQnd
    exact (List.nodup_cons.mp h1).1
  -- no adjacent pair of the suffix matches a pruned deviation edge
  have hC : ∀ ab ∈ (R.drop j).zip (R.drop j).tail,
      ¬ DevMatch st.paths (cs.take (j + 1)) j g0.directed ab.1 ab.2 := by
    intro ab hab hdm
    unfold DevMatch at hdm
    rcases hdm with ⟨c, hc, hjc, hroot, hkm⟩
    have hctakem : c.take m = R.take m := by
      rw [← hj1, ← hroot, hcstake1]
    have hmc : m < c.length := by
      rcases Nat.lt_or_ge m c.length with h | h
      · exact h
      · exfalso
        have hcm : c.take m = c := List.take_of_length_le h
        rw [hcm] at hctakem
        rcases hinv.pgood c hc with ⟨hcP, -⟩
        have hip := isPath_take (m - 1) R s t hR (by omega)
        have hmm : (m - 1) + 1 = m := by omega
        rw [hmm] at hip
        rw [← hctakem] at hip
        have h3 : c.getLast? = some (R.getD (m - 1) 0) := hip.2.1
        have h4 : c.getLast? = some t := hcP.2.1
        rw [h3] at h4
        have h5 : R.getD (m - 1) 0 = t := Option.some.inj h4
        exact absurd h5 (spur_ne_target hR hRnd (by omega))
    have hnem : c.getD m 0 ≠ R.getD m 0 := by
      intro heq
      refine hmax (m + 1) (by omega) (by omega) ⟨c, hc, ?_⟩
      rw [take_succ_getD c m hmc, take_succ_getD R m hmR, hctakem, heq]
    have hcj : c.getD j 0 = R.getD j 0 := by
      have h1 := getD_take_eq c m j (by omega)
      have h2 := getD_take_eq R m j (by omega)
      rw [← h1, hctakem, h2]
    have hcj1 : c.getD (j + 1) 0 = c.getD m 0 := by
      rw [hj1]
    rcases keyMatches_iff.mp hkm with hk | ⟨-, hk⟩
    · -- (ab.1, ab.2) = (c[j], c[j+1])
      have hab1 : ab.1 = R.getD j 0 := by
        have := (Prod.ext_iff.mp hk).1
        rw [this, hcj]
      have hab2 : ab.2 = c.getD m 0 := by
        have := (Prod.ext_iff.mp hk).2
        rw [this, hcj1]
      -- ab.1 is the head of the suffix, so ab is the first pair
      rw [hQeq] at hab
      cases tl with
      | nil => exact absurd hab (List.not_mem_nil ab)
      | cons y tl2 =>
        have hzip : ([a] ++ y :: tl2).zip (y :: tl2) =
            (a, y) :: ((y :: tl2).zip tl2) := rfl
        rcases List.mem_cons.mp hab with rfl | hdeep
        · -- first pair (a, y): second components collide
          have hy1 : y = R.getD (j + 1) 0 := by
            have h2 := hsecond
            rw [hQeq] at h2
            exact h2
          rw [hy1] at hab2
          have : c.getD m 0 = R.getD m 0 := by
            rw [← hab2, hj1]
          exact hnem this
        · -- deeper pair: its source lies in the tail, but that is the head
          have hm2 := (List.of_mem_zip hdeep).1
          rw [hab1, ← ha] at hm2
          exact hanotl hm2
    · -- (ab.1, ab.2) = (c[j+1], c[j]) (undirected mirror)
      have hab2 : ab.2 = R.getD j 0 := by
        have := (Prod.ext_iff.mp hk).2
        rw [this, hcj]
      have hm2 : ab.2 ∈ (R.drop j).tail := (List.of_mem_zip hab).2
      rw [hQeq] at hm2
      rw [hab2, ← ha] at hm2
      exact hanotl hm2
  -- the suffix survives the canonical pruning
  have hQpruned : IsPath (prunedGraph st.paths (cs.take (j + 1)) j g0)
      (cs.getD j 0) t (R.drop j) := by
    refine ⟨?_, hQ0.2.1, ?_⟩
    · rw [hgd]
      exact hQ0.1
    · exact edgeChain_pruned hwf0 st.paths (cs.take (j + 1)) j (R.drop j)
        hQ0.2.2 hB hC
  rcases hcov cs hcs j (by omega) (R.drop j) hQpruned with ⟨b, hbB, -, hble⟩
  refine ⟨b, hbB, ?_⟩
  have hsplit := cost_take_drop j R s t hR (by omega)
  have hceq : getPathLength g0 (cs.take (j + 1)) =
      getPathLength g0 (R.take (j + 1)) := by
    rw [hcstake1]
  omega

/-- Invariant carried between main-loop rounds for claim C2: accepted
lengths form a non-decreasing chain, every heap entry is priced at least
the last accepted length, pairs not sharing the newest root are already
covered, and no unaccepted loopless path undercuts the last accepted
length. -/
structure CInv (g0 : Graph) (s t : Nat) (st : YState) : Prop where
  yinv : YInv g0 s t st
  chain : st.lengths.Chain' (· ≤ ·)
  lne : st.lengths ≠ []
  mono : ∀ b ∈ st.B, st.lengths.getLastD 0 ≤ b.1
  invb : ∀ c ∈ st.paths, ∀ j, j + 1 < c.length →
    c.take (j + 1) ≠ (st.paths.getLastD []).take (j + 1) →
    ∀ Q, IsPath (prunedGraph st.paths (c.take (j + 1)) j g0) (c.getD j 0) t Q →
      ∃ b ∈ st.B, b.2.2.take (j + 1) = c.take (j + 1) ∧
        b.1 ≤ getPathLength g0 (c.take (j + 1)) + getPathLength g0 Q
  flow : ∀ R, IsPath g0 s t R → R.Nodup → R ∉ st.paths →
    st.lengths.getLastD 0 ≤ getPathLength g0 R

/-- After the spur scan, the heap is bounded below by the last accepted
length and covers every pair. -/
theorem cinv_pop {g0 : Graph} (hg0 : GoodGraph g0) {s t : Nat} {st : YState}
    (hc : CInv g0 s t st) :
    (∀ b ∈ (jLoop g0 t st).B, st.lengths.getLastD 0 ≤ b.1) ∧
      CoversAll g0 t (jLoop g0 t st) := by
  constructor
  · intro b hb
    rcases jLoop_B_chars hg0 hc.yinv b hb with h | ⟨hP, hN, hC2, hnot⟩
    · exact hc.mono b h
    · have h2 := hc.flow b.2.2 hP hN hnot
      omega
  · intro c hcmem j hj Q hQ
    rw [jLoop_paths] at hcmem hQ
    by_cases hshare : c.take (j + 1) = (st.paths.getLastD []).take (j + 1)
    · rcases hc.yinv.pgood c hcmem with ⟨hcP, hcN⟩
      have hlastm := getLastD_mem st.paths [] hc.yinv.pne
      rcases hc.yinv.pgood _ hlastm with ⟨hlP, hlN⟩
      have hlen1 : j + 1 ≤ (st.paths.getLastD []).length := by
        have h1 : (c.take (j + 1)).length = j + 1 := by
          rw [List.length_take]
          omega
        have h2 : ((st.paths.getLastD []).take (j + 1)).length =
            min (j + 1) (st.paths.getLastD []).length := List.length_take _ _
        rw [hshare, h2] at h1
        omega
      have hlt : j + 1 < (st.paths.getLastD []).length := by
        rcases Nat.lt_or_ge (j + 1) (st.paths.getLastD []).length with h | h
        · exact h
        · exfalso
          have heq : (st.paths.getLastD []).take (j + 1) = st.paths.getLastD [] :=
            List.take_of_length_le (by omega)
          have hip := isPath_take j c s t hcP (by omega)
          have h3 : (c.take (j + 1)).getLast? = some (c.getD j 0) := hip.2.1
          rw [hshare, heq] at h3
          have h4 : (st.paths.getLastD []).getLast? = some t := hlP.2.1
          rw [h3] at h4
          have h5 : c.getD j 0 = t := Option.some.inj h4
          exact absurd h5 (spur_ne_target hcP hcN (by omega))
      have hgd : c.getD j 0 = (st.paths.getLastD []).getD j 0 := by
        have h1 := getD_take_eq c (j + 1) j (by omega)
        have h2 := getD_take_eq (st.paths.getLastD []) (j + 1) j (by omega)
        rw [← h1, hshare, h2]
      have hroot : rootOf st j = c.take (j + 1) := by
        unfold rootOf
        rw [hshare]
      have hQ2 : IsPath (prunedGraph st.paths (rootOf st j) j g0)
          ((st.paths.getLastD []).getD j 0) t Q := by
        rw [hroot, ← hgd]
        exact hQ
      rcases jLoop_covers hg0 hc.yinv hlt Q hQ2 with ⟨b, hbB, htake, hble⟩
      rw [hroot] at htake hble
      exact ⟨b, hbB, htake, hble⟩
    · rcases hc.invb c hcmem j hj hshare Q hQ with ⟨b, hbB, htake, hble⟩
      exact ⟨b, jLoop_B_mono b hbB, htake, hble⟩

/-- Accepting the popped minimum after a spur scan preserves the C2
invariant. -/
theorem cinv_accept {g0 : Graph} (hg0 : GoodGraph g0) {s t : Nat} {st : YState}
    (hc : CInv g0 s t st) {e : Nat × Nat × List Nat}
    {B2 : List (Nat × Nat × List Nat)}
    (hx : extractMinB (jLoop g0 t st).B = some (e, B2)) :
    CInv g0 s t
      { jLoop g0 t st with
        lengths := (jLoop g0 t st).lengths ++ [e.1]
        paths := (jLoop g0 t st).paths ++ [e.2.2]
        B := B2 } := by
  have hinv1 : YInv g0 s t (jLoop g0 t st) := jLoop_inv hg0 hc.yinv
  rcases cinv_pop hg0 hc with ⟨hmono1, hcov1⟩
  have heB := extractMinB_mem hx
  have hele : st.lengths.getLastD 0 ≤ e.1 := hmono1 e heB
  have hperm := extractMinB_perm hx
  have hmin := extractMinB_min hx
  have hcomp := complete_of_covers hg0 hinv1 hcov1
  refine ⟨accept_inv hinv1 hx, ?_, ?_, ?_, ?_, ?_⟩
  · show ((jLoop g0 t st).lengths ++ [e.1]).Chain' (· ≤ ·)
    rw [jLoop_lengths]
    exact chain_append_single st.lengths e.1 hc.chain (fun _ => hele)
  · show (jLoop g0 t st).lengths ++ [e.1] ≠ []
    simp
  · show ∀ b ∈ B2, ((jLoop g0 t st).lengths ++ [e.1]).getLastD 0 ≤ b.1
    intro b hb
    rw [getLastD_append_single]
    exact hmin b (extractMinB_sub hx b hb)
  · show ∀ c ∈ (jLoop g0 t st).paths ++ [e.2.2], ∀ j, j + 1 < c.length →
      c.take (j + 1) ≠
        (((jLoop g0 t st).paths ++ [e.2.2]).getLastD []).take (j + 1) →
      ∀ Q, IsPath (prunedGraph ((jLoop g0 t st).paths ++ [e.2.2])
          (c.take (j + 1)) j g0) (c.getD j 0) t Q →
        ∃ b ∈ B2, b.2.2.take (j + 1) = c.take (j + 1) ∧
          b.1 ≤ getPathLength g0 (c.take (j + 1)) + getPathLength g0 Q
    intro c hcmem j hj hne Q hQ
    rw [getLastD_append_single] at hne
    rcases List.mem_append.mp hcmem with hcm | hcm
    · have hsubp : ∀ x ∈ (jLoop g0 t st).paths,
          x ∈ (jLoop g0 t st).paths ++ [e.2.2] :=
        fun x hx2 => List.mem_append.mpr (Or.inl hx2)
      have hQ1 : IsPath (prunedGraph (jLoop g0 t st).paths (c.take (j + 1)) j g0)
          (c.getD j 0) t Q :=
        isPath_sub (pruned_mono hg0.weightWF hsubp _ _) hQ
      rcases hcov1 c hcm j hj Q hQ1 with ⟨b, hbB, htake, hble⟩
      have hbne : b ≠ e := by
        intro hbe
        apply hne
        rw [← htake, hbe]
      have hbB2 : b ∈ B2 := by
        have h2 : b ∈ e :: B2 := hperm.subset hbB
        rcases List.mem_cons.mp h2 with h3 | h3
        · exact absurd h3 hbne
        · exact h3
      exact ⟨b, hbB2, htake, hble⟩
    · rcases List.mem_singleton.mp hcm with rfl
      exact absurd rfl hne
  · show ∀ R, IsPath g0 s t R → R.Nodup →
      R ∉ (jLoop g0 t st).paths ++ [e.2.2] →
      ((jLoop g0 t st).lengths ++ [e.1]).getLastD 0 ≤ getPathLength g0 R
    intro R hR hRnd hRnot
    rw [getLastD_append_single]
    have hRnot1 : R ∉ (jLoop g0 t st).paths := fun h2 =>
      hRnot (List.mem_append.mpr (Or.inl h2))
    rcases hcomp R hR hRnd hRnot1 with ⟨b, hbB, hble⟩
    have h2 := hmin b hbB
    omega

theorem cinv_start {g0 : Graph} (hg0 : GoodGraph g0) {s t : Nat}
    {dp : Nat × List Nat} (hd : singleSourceDijkstra g0 s t = some dp) :
    CInv g0 s t (initState g0 dp.1 dp.2) := by
  rcases dijkstra_some hg0.weightWF hd with ⟨hP, hC, hN, hmin⟩
  refine ⟨initState_inv hg0 hd, List.chain'_singleton dp.1, ?_, ?_, ?_, ?_⟩
  · show [dp.1] ≠ []
    simp
  · intro b hb
    exact absurd hb (List.not_mem_nil b)
  · intro c hcmem j hj hne Q hQ
    rcases List.mem_singleton.mp hcmem with rfl
    exact absurd rfl hne
  · intro R hR hRnd hRnot
    show List.getLastD [dp.1] 0 ≤ getPathLength g0 R
    exact hmin R hR

theorem mainLoop_chain {g0 : Graph} (hg0 : GoodGraph g0) {s t : Nat} :
    ∀ (fuel : Nat) (st : YState), CInv g0 s t st →
      (mainLoop g0 t fuel st).lengths.Chain' (· ≤ ·)
  | 0, _, hc => hc.chain
  | fuel + 1, st, hc => by
    have hgoal : mainLoop g0 t (fuel + 1) st =
        match extractMinB (jLoop g0 t st).B with
        | some (e, B2) =>
          mainLoop g0 t fuel
            { jLoop g0 t st with
              lengths := (jLoop g0 t st).lengths ++ [e.1]
              paths := (jLoop g0 t st).paths ++ [e.2.2]
              B := B2 }
        | none => jLoop g0 t st := rfl
    rw [hgoal]
    cases hx : extractMinB (jLoop g0 t st).B with
    | none =>
      rw [jLoop_lengths]
      exact hc.chain
    | some pr =>
      rcases pr with ⟨e, B2⟩
      exact mainLoop_chain hg0 fuel _ (cinv_accept hg0 hc hx)

/-- C2: the list of returned lengths is non-decreasing. -/
theorem claim_C2 (g : Graph) (s t k : Nat) (hg : GoodGraph g)
    {lengths : List Nat} {paths : List (List Nat)}
    (h : kShortestPaths g s t k = KspResult.ok lengths paths) :
    ∀ i, i + 1 < lengths.length → lengths.getD i 0 ≤ lengths.getD (i + 1) 0 := by
  unfold kShortestPaths at h
  by_cases hst : s = t
  · rw [if_pos hst] at h
    injection h with h1 h2
    subst h1
    intro i hi
    rw [List.length_singleton] at hi
    omega
  · rw [if_neg hst] at h
    cases hd : singleSourceDijkstra g s t with
    | none =>
      rw [hd] at h
      cases h
    | some dp =>
      rw [hd] at h
      injection h with h1 h2
      subst h1
      exact chain_getD_le _
        (mainLoop_chain hg (k - 1) (initState g dp.1 dp.2) (cinv_start hg hd))

theorem claim_C2_witness :
    ([2, 3, 4, 4] : List Nat).getD 1 0 ≤ ([2, 3, 4, 4] : List Nat).getD (1 + 1) 0 :=
  @claim_C2 ceG 0 3 4 (by decide) [2, 3, 4, 4]
    [[0, 1, 3], [0, 1, 2, 3], [0, 2, 3], [0, 2, 3]] (by decide)
    1 (by decide)

end KSP
